import Mathlib

/-! # ELFbac policy decoder, validator and page-table synchronizer

A shallow embedding of `linux/kernel/elfbac.c`.

* Machine words (`unsigned long`) are natural numbers below `ULONG_MOD A`.
* The policy buffer `(buf, size)` is the list of its `size` bytes; the cursor
  advances by dropping bytes from the front, so `*size` is the length of the
  list at every point.
* Intrusive kernel lists (`struct list_head`) are Lean lists in list order;
  `list_add_tail` appends at the end.  A pointer to a list node is the position
  of the node in its list.  An `elfbac_policy` is a structure whose three
  lists are linked around its own list heads, as the local variable `policy`
  of `elfbac_parse_policy` is.  The object at `*out` is a `policy_object`: the
  structure assignment `*out = policy` copies the three list heads, and the
  links of the first and last node of each list keep referring to the list
  heads inside the local variable (`policy_object.head_copy`).
* Return codes are integers: `0`, `-EINVAL`, `-ENOMEM`.
* `kmalloc` and `access_ok` belong to the surrounding kernel and are taken as
  parameters: `kmalloc n` tells whether the `n`-th allocation request of one
  call succeeds, `access_ok type addr size` is the user-range probe.
* The page tables and counters that `elfbac_copy_mapping` works on are an
  explicit state (`mm_state`); the canonical table and the kernel primitives
  that the walk only reads are the fields of `walk_env`.  Every loop of the
  walk takes a bound on its iterations and a run that needs more ends as
  `no_fuel`.
-/

set_option autoImplicit false

namespace Elfbac

/-! ## Target parameters -/

/-- Target constants that the source takes from kernel headers: the size in
bytes of `unsigned long` and `PAGE_SHIFT` (with `PAGE_SIZE = 1 << PAGE_SHIFT`,
an `unsigned long`). -/
structure Arch where
  sizeof_ulong : Nat
  sizeof_ulong_pos : 0 < sizeof_ulong
  PAGE_SHIFT : Nat
  PAGE_SHIFT_lt : PAGE_SHIFT < 8 * sizeof_ulong

/-- The 32-bit ARM target of this tree: 4-byte words, 4 KiB pages. -/
def arm32 : Arch :=
  { sizeof_ulong := 4, sizeof_ulong_pos := by decide,
    PAGE_SHIFT := 12, PAGE_SHIFT_lt := by decide }

/-- Number of values of an `unsigned long`: `2 ^ (8 * sizeof_ulong)`. -/
def ULONG_MOD (A : Arch) : Nat := 256 ^ A.sizeof_ulong

/-- The constant `PAGE_SIZE`. -/
def PAGE_SIZE (A : Arch) : Nat := 2 ^ A.PAGE_SHIFT

/-- Kernel constant `EINVAL` (errno 22, `asm-generic/errno-base.h`); the
header is included by the source file and is not part of it. -/
def EINVAL : Int := 22

/-- Kernel constant `ENOMEM` (errno 12, `asm-generic/errno-base.h`). -/
def ENOMEM : Int := 12

/-- Kernel constant `VM_READ` (`0x1`, `linux/mm.h`). -/
def VM_READ : Nat := 1

/-- Kernel constant `VM_WRITE` (`0x2`, `linux/mm.h`). -/
def VM_WRITE : Nat := 2

/-- Kernel constant `VERIFY_READ` (`0`, `asm/uaccess.h`), the first argument of
`access_ok` for a read probe. -/
def VERIFY_READ : Nat := 0

/-- Kernel constant `VERIFY_WRITE` (`1`, `asm/uaccess.h`), the first argument
of `access_ok` for a write probe. -/
def VERIFY_WRITE : Nat := 1

/-! ## Bytes and words -/

/-- One byte of the policy buffer. -/
abbrev Byte := Fin 256

/-- Value of a run of bytes read as one native (little-endian) word:
the read `*(unsigned long *)(*buf)`. -/
def load_ulong : List Byte → Nat
  | [] => 0
  | b :: bs => b.val + 256 * load_ulong bs

/-- The `n` bytes that hold the word `v` in native (little-endian) order. -/
def store_ulong : Nat → Nat → List Byte
  | 0, _ => []
  | n + 1, v => ⟨v % 256, Nat.mod_lt _ (by decide)⟩ :: store_ulong n (v / 256)

/-- Source `parse_ulong`: when at least one word remains, read it and advance
the cursor by one word (`some (value, rest)`, return code 0); otherwise fail
with the cursor and the size untouched (`none`, return code -1). -/
def parse_ulong (A : Arch) (buf : List Byte) : Option (Nat × List Byte) :=
  if A.sizeof_ulong ≤ buf.length then
    some (load_ulong (buf.take A.sizeof_ulong), buf.drop A.sizeof_ulong)
  else
    none

/-! ## Data model -/

/-- Source `struct elfbac_section`. -/
structure elfbac_section where
  base : Nat
  size : Nat
  flags : Nat
deriving DecidableEq

/-- Source `struct elfbac_state`.  `pgd = none` is the NULL page-table root;
the architecture context zeroed by `elfbac_parse_state` carries no policy data
and is left out. -/
structure elfbac_state where
  id : Nat
  stack_id : Nat
  sections_list : List elfbac_section
  pgd : Option Nat
deriving DecidableEq

/-- Source `struct elfbac_data_transition` (`to_` and `from_` are the fields `to` and `from`). -/
structure elfbac_data_transition where
  to_ : Nat
  from_ : Nat
  base : Nat
  size : Nat
  flags : Nat
deriving DecidableEq

/-- Source `struct elfbac_call_transition` (`to_` and `from_` are the fields `to` and `from`). -/
structure elfbac_call_transition where
  to_ : Nat
  from_ : Nat
  address : Nat
  param_size : Nat
  return_size : Nat
deriving DecidableEq

/-- Source `struct elfbac_policy`.  `current_state` is a pointer to a node of
`states_list`: `some i` points to the node at position `i`, `none` is a
pointer that was never assigned. -/
structure elfbac_policy where
  num_stacks : Nat
  states_list : List elfbac_state
  data_transitions_list : List elfbac_data_transition
  call_transitions_list : List elfbac_call_transition
  current_state : Option Nat
deriving DecidableEq

/-- The state that `current_state` points to. -/
def elfbac_policy.current (p : elfbac_policy) : Option elfbac_state :=
  match p.current_state with
  | none => none
  | some i => p.states_list.get? i

/-! ## Record parsers -/

/-- Source `elfbac_parse_state`: reads `stack_id` into the given node and
clears its `pgd`; `none` is the return code `-EINVAL`. -/
def elfbac_parse_state (A : Arch) (buf : List Byte) (state : elfbac_state) :
    Option (elfbac_state × List Byte) :=
  match parse_ulong A buf with
  | none => none
  | some (stack_id, buf) => some ({ state with stack_id := stack_id, pgd := none }, buf)

/-- Source `elfbac_parse_section`: reads `base`, `size`, `flags`. -/
def elfbac_parse_section (A : Arch) (buf : List Byte) :
    Option (elfbac_section × List Byte) :=
  match parse_ulong A buf with
  | none => none
  | some (base, buf) =>
    match parse_ulong A buf with
    | none => none
    | some (size, buf) =>
      match parse_ulong A buf with
      | none => none
      | some (flags, buf) => some ({ base := base, size := size, flags := flags }, buf)

/-- Source `elfbac_parse_data_transition`: reads `to`, `from`, `base`, `size`,
`flags`, in this order. -/
def elfbac_parse_data_transition (A : Arch) (buf : List Byte) :
    Option (elfbac_data_transition × List Byte) :=
  match parse_ulong A buf with
  | none => none
  | some (to_, buf) =>
    match parse_ulong A buf with
    | none => none
    | some (from_, buf) =>
      match parse_ulong A buf with
      | none => none
      | some (base, buf) =>
        match parse_ulong A buf with
        | none => none
        | some (size, buf) =>
          match parse_ulong A buf with
          | none => none
          | some (flags, buf) =>
            some ({ to_ := to_, from_ := from_, base := base, size := size, flags := flags }, buf)

/-- Source `elfbac_parse_call_transition`: reads `to`, `from`, `address`,
`param_size`, `return_size`, in this order. -/
def elfbac_parse_call_transition (A : Arch) (buf : List Byte) :
    Option (elfbac_call_transition × List Byte) :=
  match parse_ulong A buf with
  | none => none
  | some (to_, buf) =>
    match parse_ulong A buf with
    | none => none
    | some (from_, buf) =>
      match parse_ulong A buf with
      | none => none
      | some (address, buf) =>
        match parse_ulong A buf with
        | none => none
        | some (param_size, buf) =>
          match parse_ulong A buf with
          | none => none
          | some (return_size, buf) =>
            some ({ to_ := to_, from_ := from_, address := address,
                    param_size := param_size, return_size := return_size }, buf)

/-! ## Validator -/

/-- The accessibility test that `elfbac_validate_policy` applies to a section
and to a data transition; `true` means the test makes the validator return
`-EINVAL`.  A write-flagged range that fails the write probe is refused; every
other range goes on to the read probe. -/
def range_refused (access_ok : Nat → Nat → Nat → Bool) (flags base size : Nat) : Bool :=
  if (flags &&& VM_WRITE) ≠ 0 ∧ access_ok VERIFY_WRITE base size = false then true
  else if access_ok VERIFY_READ base size = false then true
  else false

/-- Inner loop of the validator over one section list; `true` means a section
was refused. -/
def validate_sections (access_ok : Nat → Nat → Nat → Bool) : List elfbac_section → Bool
  | [] => false
  | section_ :: rest =>
    if range_refused access_ok section_.flags section_.base section_.size then true
    else validate_sections access_ok rest

/-- First loop of the validator, over the states: `none` is the early return
of `-EINVAL`, `some n` is the value of `num_states` after the loop. -/
def validate_states (access_ok : Nat → Nat → Nat → Bool) (num_stacks : Nat) :
    List elfbac_state → Nat → Option Nat
  | [], num_states => some num_states
  | state :: rest, num_states =>
    if state.stack_id ≥ num_stacks then none
    else if validate_sections access_ok state.sections_list then none
    else validate_states access_ok num_stacks rest (num_states + 1)

/-- Second loop of the validator, over the data transitions; `true` means
`-EINVAL` is returned. -/
def validate_data_transitions (access_ok : Nat → Nat → Nat → Bool) (num_states : Nat) :
    List elfbac_data_transition → Bool
  | [] => false
  | data_transition :: rest =>
    if data_transition.from_ > num_states ∨ data_transition.to_ > num_states then true
    else if range_refused access_ok data_transition.flags data_transition.base
        data_transition.size then true
    else validate_data_transitions access_ok num_states rest

/-- Third loop of the validator, over the call transitions; `true` means
`-EINVAL` is returned. -/
def validate_call_transitions (A : Arch) (access_ok : Nat → Nat → Nat → Bool)
    (num_states : Nat) : List elfbac_call_transition → Bool
  | [] => false
  | call_transition :: rest =>
    if call_transition.from_ > num_states ∨ call_transition.to_ > num_states then true
    else if access_ok VERIFY_READ call_transition.address A.sizeof_ulong = false then true
    else validate_call_transitions A access_ok num_states rest

/-- Source `elfbac_validate_policy`.  The counter `num_states` cannot wrap:
it counts nodes that each occupy more than one byte of memory. -/
def elfbac_validate_policy (A : Arch) (access_ok : Nat → Nat → Nat → Bool)
    (policy : elfbac_policy) : Int :=
  match validate_states access_ok policy.num_stacks policy.states_list 0 with
  | none => -EINVAL
  | some num_states =>
    if num_states = 0 then -EINVAL
    else if policy.num_stacks > num_states then -EINVAL
    else if validate_data_transitions access_ok num_states policy.data_transitions_list then
      -EINVAL
    else if validate_call_transitions A access_ok num_states policy.call_transitions_list then
      -EINVAL
    else 0

/-! ## Decoder -/

/-- Tag `STATE` of the local `enum` of `elfbac_parse_policy`. -/
abbrev STATE : Nat := 1

/-- Tag `SECTION`. -/
abbrev SECTION : Nat := 2

/-- Tag `DATA_TRANSITION`. -/
abbrev DATA_TRANSITION : Nat := 3

/-- Tag `CALL_TRANSITION`. -/
abbrev CALL_TRANSITION : Nat := 4

/-- What one of the local node pointers `state`, `section`, `data_transition`,
`call_transition` of `elfbac_parse_policy` refers to when control reaches the
label `out`. -/
inductive local_ptr
  /-- The pointer is NULL. -/
  | NULL
  /-- A node returned by `kmalloc` that is in no list. -/
  | unlinked
  /-- The last node of `policy.states_list` (from `list_last_entry`). -/
  | last_state
deriving DecidableEq

/-- The four local node pointers of `elfbac_parse_policy`. -/
structure parse_locals where
  state : local_ptr
  section_ : local_ptr
  data_transition : local_ptr
  call_transition : local_ptr
deriving DecidableEq

/-- All four local node pointers NULL. -/
def no_locals : parse_locals :=
  { state := .NULL, section_ := .NULL, data_transition := .NULL, call_transition := .NULL }

/-- The variables that the record loop of `elfbac_parse_policy` carries from
one iteration to the next: the local `policy`, the counter `cur_state_id`, and
the number of `kmalloc` requests made so far (the index into the allocator
parameter).  `cur_state_id` cannot wrap: every increment consumes a STATE
record of the buffer, and the buffer has fewer bytes than `ULONG_MOD`. -/
structure parse_vars where
  policy : elfbac_policy
  cur_state_id : Nat
  nalloc : Nat
deriving DecidableEq

/-- How the record loop is left. -/
inductive loop_exit
  /-- The condition `size` of the `while` became false. -/
  | finished (vars : parse_vars)
  /-- A `goto out` with the given `retval`. -/
  | goto_out (retval : Int) (vars : parse_vars) (locals : parse_locals)
deriving DecidableEq

/-- The contents of a node straight from `kmalloc`; every field is assigned
before the node is added to a list. -/
def kmalloc_state : elfbac_state :=
  { id := 0, stack_id := 0, sections_list := [], pgd := none }

/-- The effect of `state = list_last_entry(&policy.states_list, ...)` followed by
`list_add_tail(&section->list, &state->sections_list)`: the section is
appended to the section list of the last state. -/
def add_section_to_last_state : List elfbac_state → elfbac_section → List elfbac_state
  | [], _ => []
  | [state], section_ =>
    [{ state with sections_list := state.sections_list ++ [section_] }]
  | state :: next :: rest, section_ =>
    state :: add_section_to_last_state (next :: rest) section_

/-- How one iteration of the record loop ends. -/
inductive iteration_exit
  /-- The `break` of a `case`: the loop condition is tested again with the
  advanced cursor and the updated variables. -/
  | next (buf : List Byte) (vars : parse_vars)
  /-- A `goto out` with the given `retval`. -/
  | goto_out (retval : Int) (vars : parse_vars) (locals : parse_locals)
deriving DecidableEq

/-- The body of the `while (size)` loop of `elfbac_parse_policy`: the read of
the tag word and the `switch` on it.  The tag is the whole word that
`parse_ulong` stores through `(unsigned long *)&type`, as it is on a target
where the `enum` and `unsigned long` have the same width (32-bit ARM). -/
def parse_record (A : Arch) (kmalloc : Nat → Bool) (buf : List Byte) (v : parse_vars) :
    iteration_exit :=
  match parse_ulong A buf with
  | none => .goto_out (-EINVAL) v no_locals
  | some (type, buf) =>
    if type = STATE then
      if kmalloc v.nalloc = false then
        .goto_out (-ENOMEM) { v with nalloc := v.nalloc + 1 } no_locals
      else
        match elfbac_parse_state A buf kmalloc_state with
        | none =>
          .goto_out (-EINVAL) { v with nalloc := v.nalloc + 1 }
            { no_locals with state := .unlinked }
        | some (state, buf) =>
          .next buf
            { policy := { v.policy with
                states_list := v.policy.states_list ++
                  [{ state with id := v.cur_state_id, pgd := none, sections_list := [] }] },
              cur_state_id := v.cur_state_id + 1,
              nalloc := v.nalloc + 1 }
    else if type = SECTION then
      if v.policy.states_list.isEmpty then
        .goto_out (-EINVAL) v no_locals
      else if kmalloc v.nalloc = false then
        .goto_out (-ENOMEM) { v with nalloc := v.nalloc + 1 }
          { no_locals with state := .last_state }
      else
        match elfbac_parse_section A buf with
        | none =>
          .goto_out (-EINVAL) { v with nalloc := v.nalloc + 1 }
            { no_locals with state := .last_state, section_ := .unlinked }
        | some (section_, buf) =>
          .next buf
            { v with
              policy := { v.policy with
                states_list := add_section_to_last_state v.policy.states_list section_ },
              nalloc := v.nalloc + 1 }
    else if type = DATA_TRANSITION then
      if kmalloc v.nalloc = false then
        .goto_out (-ENOMEM) { v with nalloc := v.nalloc + 1 } no_locals
      else
        match elfbac_parse_data_transition A buf with
        | none =>
          .goto_out (-EINVAL) { v with nalloc := v.nalloc + 1 }
            { no_locals with data_transition := .unlinked }
        | some (data_transition, buf) =>
          .next buf
            { v with
              policy := { v.policy with
                data_transitions_list :=
                  v.policy.data_transitions_list ++ [data_transition] },
              nalloc := v.nalloc + 1 }
    else if type = CALL_TRANSITION then
      if kmalloc v.nalloc = false then
        .goto_out (-ENOMEM) { v with nalloc := v.nalloc + 1 } no_locals
      else
        match elfbac_parse_call_transition A buf with
        | none =>
          .goto_out (-EINVAL) { v with nalloc := v.nalloc + 1 }
            { no_locals with call_transition := .unlinked }
        | some (call_transition, buf) =>
          .next buf
            { v with
              policy := { v.policy with
                call_transitions_list :=
                  v.policy.call_transitions_list ++ [call_transition] },
              nalloc := v.nalloc + 1 }
    else
      .goto_out (-EINVAL) v no_locals

/-- The `while (size)` loop of `elfbac_parse_policy`.  The first argument bounds
the number of iterations; `none` means the bound was reached. -/
def parse_loop (A : Arch) (kmalloc : Nat → Bool) :
    Nat → List Byte → parse_vars → Option loop_exit
  | 0, buf, v => if buf.length = 0 then some (.finished v) else none
  | fuel + 1, buf, v =>
    if buf.length = 0 then some (.finished v)
    else
      match parse_record A kmalloc buf v with
      | .goto_out retval v locals => some (.goto_out retval v locals)
      | .next buf v => parse_loop A kmalloc fuel buf v

/-- An address that a link (`next` or `prev` of a `struct list_head`) of one of
the three lists of a policy can hold, seen from the object at `*out`: the list
head of that list inside `*out`, the list head of that list inside the local
variable `policy` of a call of `elfbac_parse_policy` that has returned, or the
node at a position of the list. -/
inductive list_addr
  | out_head
  | local_head
  | node (i : Nat)
deriving DecidableEq

/-- The memory object at `*out`, a `struct elfbac_policy` with its three list
heads.  `intact p` has the fields of `p` and its lists are linked around its
own list heads.  `head_copy p` is what the structure assignment `*out = policy`
leaves at `*out` once the call has returned: the fields of the local `p`, the
three list heads included, so that the links of each head refer to the first
and the last node of the list (to the head inside the local when the list is
empty), while the outer links of those nodes refer to the list head inside the
local, as `list_add_tail` set them. -/
inductive policy_object
  | intact (p : elfbac_policy)
  | head_copy (p : elfbac_policy)
deriving DecidableEq

/-- A well-formed policy as the object at `*out`. -/
instance : Coe elfbac_policy policy_object := ⟨policy_object.intact⟩

/-- The fields of the object; the lists are the nodes in the order of their
`next` links from the first node on. -/
def policy_object.fields : policy_object → elfbac_policy
  | .intact p => p
  | .head_copy p => p

/-- The list head that the outer links of the first and the last node of each
list refer to. -/
def policy_object.anchor : policy_object → list_addr
  | .intact _ => .out_head
  | .head_copy _ => .local_head

/-- The `next` link of the list head inside `*out`, for a list of `n` nodes
linked around `anchor`: the first node, and for an empty list the anchor
(`INIT_LIST_HEAD` makes a head refer to itself, the structure assignment copies
that link). -/
def head_next (anchor : list_addr) (n : Nat) : list_addr :=
  if n = 0 then anchor else .node 0

/-- The `next` link of the node at position `i` of a list of `n` nodes linked
around `anchor`: the following node, and for the last node the anchor. -/
def node_next (anchor : list_addr) (n i : Nat) : list_addr :=
  if i + 1 < n then .node (i + 1) else anchor

/-- Modelled from the spec: the macro `list_for_each_entry` of `linux/list.h`,
which the source file uses and does not contain, run on a list head inside
`*out` from the cursor `pos`: the loop ends when the cursor is that list head
again, and the result is the nodes it has visited.  `none` is a run that takes
an address which is neither a node nor the list head inside `*out` for a node
(the list head inside the dead local), or that needs more iterations than the
first argument. -/
def list_for_each_entry {α : Type} (anchor : list_addr) (nodes : List α) :
    Nat → list_addr → Option (List α)
  | 0, _ => none
  | _ + 1, .out_head => some []
  | _ + 1, .local_head => none
  | fuel + 1, .node i =>
    match nodes.get? i with
    | none => none
    | some x =>
      (list_for_each_entry anchor nodes fuel (node_next anchor nodes.length i)).map
        (fun rest => x :: rest)

/-- The nodes that `list_for_each_entry` visits on one of the lists of the
object at `*out`, with one iteration more allowed than the list has nodes. -/
def policy_object.traverse {α : Type} (o : policy_object) (nodes : List α) :
    Option (List α) :=
  list_for_each_entry o.anchor nodes (nodes.length + 1) (head_next o.anchor nodes.length)

/-- The states that a traversal of `out->states_list` visits. -/
def policy_object.states (o : policy_object) : Option (List elfbac_state) :=
  o.traverse o.fields.states_list

/-- The nodes that a traversal of `out->data_transitions_list` visits. -/
def policy_object.data_transitions (o : policy_object) :
    Option (List elfbac_data_transition) :=
  o.traverse o.fields.data_transitions_list

/-- The nodes that a traversal of `out->call_transitions_list` visits. -/
def policy_object.call_transitions (o : policy_object) :
    Option (List elfbac_call_transition) :=
  o.traverse o.fields.call_transitions_list

/-- What a call of `elfbac_parse_policy` leaves behind: the return value, the
object at `*out`, the local `policy` and node pointers as they are at the label
`out`, and the number of `kmalloc` requests that the call has made. -/
structure parse_outcome where
  retval : Int
  out : policy_object
  policy : elfbac_policy
  locals : parse_locals
  nalloc : Nat
deriving DecidableEq

/-- The local `policy` after the three `INIT_LIST_HEAD` calls and the read of
the header word. -/
def init_policy (num_stacks : Nat) : elfbac_policy :=
  { num_stacks := num_stacks, states_list := [], data_transitions_list := [],
    call_transitions_list := [], current_state := none }

/-- Source `elfbac_parse_policy`.  `out` is the object at `*out` before the
call.  On the path that returns 0 the local `policy`, with `current_state`
pointing to the first state, is assigned to `*out` as a structure: the object
at `*out` is then the `head_copy` of the local.  The loop is run with as many
iterations allowed as the buffer has bytes left after the header; `none` would
mean that this was not enough. -/
def elfbac_parse_policy (A : Arch) (access_ok : Nat → Nat → Nat → Bool)
    (kmalloc : Nat → Bool) (buf : List Byte) (out : policy_object) :
    Option parse_outcome :=
  match parse_ulong A buf with
  | none =>
    some { retval := -EINVAL, out := out, policy := init_policy 0, locals := no_locals,
           nalloc := 0 }
  | some (num_stacks, buf) =>
    match parse_loop A kmalloc buf.length buf
        { policy := init_policy num_stacks, cur_state_id := 0, nalloc := 0 } with
    | none => none
    | some (.goto_out retval v locals) =>
      some { retval := retval, out := out, policy := v.policy, locals := locals,
             nalloc := v.nalloc }
    | some (.finished v) =>
      if elfbac_validate_policy A access_ok v.policy ≠ 0 then
        some { retval := -EINVAL, out := out, policy := v.policy, locals := no_locals,
               nalloc := v.nalloc }
      else
        some { retval := 0,
               out := .head_copy { v.policy with current_state := some 0 },
               policy := { v.policy with current_state := some 0 },
               locals := no_locals,
               nalloc := v.nalloc }

/-! ## Access decision -/

/-- Source `elfbac_access_ok`: the returned `bool` and the value stored to
`*next_state` (`none` is NULL). -/
def elfbac_access_ok (_policy : elfbac_policy) (_address : Nat) (_mask : Nat) :
    Bool × Option elfbac_state :=
  (true, none)

/-! ## Page range of `elfbac_copy_mapping` -/

/-- Modelled from the spec: the macro `rounddown` of `linux/kernel.h`, which the
source file uses and does not contain, rounds `x` down to a multiple of `y`:
`x - (x % y)`. -/
def rounddown (x y : Nat) : Nat := x - x % y

/-- Modelled from the spec: the macro `roundup` of `linux/kernel.h`, which the
source file uses and does not contain, rounds `x` up to a multiple of `y`:
`((x + (y - 1)) / y) * y`, every operation in `unsigned long` arithmetic. -/
def roundup (A : Arch) (x y : Nat) : Nat :=
  (((x + (y - 1)) % ULONG_MOD A) / y * y) % ULONG_MOD A

/-- The locals `start` and `end` of `elfbac_copy_mapping` at the call of
`elfbac_copy_page_range`. -/
def elfbac_copy_mapping_range (A : Arch) (addr : Nat) : Nat × Nat :=
  let start := rounddown addr (PAGE_SIZE A)
  let end_ := roundup A addr (PAGE_SIZE A)
  if start = end_ then (start, (end_ + PAGE_SIZE A) % ULONG_MOD A)
  else (start, end_)

/-! ## Wire format (specification, section 6) -/

/-- One record of the wire format: the tag decides the number of payload
words. -/
inductive wire_record
  /-- Tag 1: `word1 = stack_id`. -/
  | state (stack_id : Nat)
  /-- Tag 2: `word1 = base, word2 = size, word3 = flags`. -/
  | section_ (base size flags : Nat)
  /-- Tag 3: `word1 = to, word2 = from, word3 = base, word4 = size, word5 = flags`. -/
  | data_transition (to_ from_ base size flags : Nat)
  /-- Tag 4: `word1 = to, word2 = from, word3 = address, word4 = param_size,
  word5 = return_size`. -/
  | call_transition (to_ from_ address param_size return_size : Nat)
deriving DecidableEq

/-- The words of a record: the tag word followed by the payload words. -/
def wire_record.words : wire_record → List Nat
  | .state stack_id => [1, stack_id]
  | .section_ base size flags => [2, base, size, flags]
  | .data_transition to_ from_ base size flags => [3, to_, from_, base, size, flags]
  | .call_transition to_ from_ address param_size return_size =>
    [4, to_, from_, address, param_size, return_size]

/-- Every word of the record is a value of `unsigned long`. -/
def wire_record.fits (A : Arch) (r : wire_record) : Prop :=
  ∀ w ∈ r.words, w < ULONG_MOD A

instance (A : Arch) (r : wire_record) : Decidable (r.fits A) := by
  unfold wire_record.fits
  infer_instance

/-- The bytes of a sequence of words, without padding. -/
def encode_words (A : Arch) : List Nat → List Byte
  | [] => []
  | w :: ws => store_ulong A.sizeof_ulong w ++ encode_words A ws

/-- The bytes of a sequence of records. -/
def encode_records (A : Arch) : List wire_record → List Byte
  | [] => []
  | r :: rs => encode_words A r.words ++ encode_records A rs

/-- A whole policy buffer: the header word `num_stacks`, then the records. -/
def serialize (A : Arch) (num_stacks : Nat) (recs : List wire_record) : List Byte :=
  store_ulong A.sizeof_ulong num_stacks ++ encode_records A recs

/-! ## The loop read record by record -/

/-- One iteration of the record loop, stated on the record that the iteration
consumes instead of on its bytes: `.error` is a `goto out`. -/
def record_step (kmalloc : Nat → Bool) (v : parse_vars) :
    wire_record → Except (Int × parse_vars × parse_locals) parse_vars
  | .state stack_id =>
    if kmalloc v.nalloc = false then
      .error (-ENOMEM, { v with nalloc := v.nalloc + 1 }, no_locals)
    else
      .ok { policy := { v.policy with
              states_list := v.policy.states_list ++
                [{ id := v.cur_state_id, stack_id := stack_id, sections_list := [],
                   pgd := none }] },
            cur_state_id := v.cur_state_id + 1,
            nalloc := v.nalloc + 1 }
  | .section_ base size flags =>
    if v.policy.states_list.isEmpty then
      .error (-EINVAL, v, no_locals)
    else if kmalloc v.nalloc = false then
      .error (-ENOMEM, { v with nalloc := v.nalloc + 1 },
        { no_locals with state := .last_state })
    else
      .ok { v with
            policy := { v.policy with
              states_list := add_section_to_last_state v.policy.states_list
                { base := base, size := size, flags := flags } },
            nalloc := v.nalloc + 1 }
  | .data_transition to_ from_ base size flags =>
    if kmalloc v.nalloc = false then
      .error (-ENOMEM, { v with nalloc := v.nalloc + 1 }, no_locals)
    else
      .ok { v with
            policy := { v.policy with
              data_transitions_list := v.policy.data_transitions_list ++
                [{ to_ := to_, from_ := from_, base := base, size := size, flags := flags }] },
            nalloc := v.nalloc + 1 }
  | .call_transition to_ from_ address param_size return_size =>
    if kmalloc v.nalloc = false then
      .error (-ENOMEM, { v with nalloc := v.nalloc + 1 }, no_locals)
    else
      .ok { v with
            policy := { v.policy with
              call_transitions_list := v.policy.call_transitions_list ++
                [{ to_ := to_, from_ := from_, address := address,
                   param_size := param_size, return_size := return_size }] },
            nalloc := v.nalloc + 1 }

/-- The record loop on a sequence of records. -/
def run_records (kmalloc : Nat → Bool) :
    parse_vars → List wire_record → Except (Int × parse_vars × parse_locals) parse_vars
  | v, [] => .ok v
  | v, r :: rs =>
    match record_step kmalloc v r with
    | .error e => .error e
    | .ok v => run_records kmalloc v rs

/-! ## Where the records of a buffer go (specification, section 4.1) -/

/-- The sections of the SECTION records that come before the next STATE
record, in wire order; transition records in between are passed over. -/
def sections_until_state : List wire_record → List elfbac_section
  | [] => []
  | .state _ :: _ => []
  | .section_ base size flags :: rest =>
    { base := base, size := size, flags := flags } :: sections_until_state rest
  | .data_transition _ _ _ _ _ :: rest => sections_until_state rest
  | .call_transition _ _ _ _ _ :: rest => sections_until_state rest

/-- The states described by a record sequence: the STATE record number `k`
(counted from the first argument) gives the state with id `k`, whose sections
are the SECTION records between it and the next STATE record. -/
def states_of_records : Nat → List wire_record → List elfbac_state
  | _, [] => []
  | k, .state stack_id :: rest =>
    { id := k, stack_id := stack_id, sections_list := sections_until_state rest,
      pgd := none } :: states_of_records (k + 1) rest
  | k, .section_ _ _ _ :: rest => states_of_records k rest
  | k, .data_transition _ _ _ _ _ :: rest => states_of_records k rest
  | k, .call_transition _ _ _ _ _ :: rest => states_of_records k rest

/-- The DATA_TRANSITION records of a record sequence, in wire order. -/
def data_transitions_of_records : List wire_record → List elfbac_data_transition
  | [] => []
  | .data_transition to_ from_ base size flags :: rest =>
    { to_ := to_, from_ := from_, base := base, size := size, flags := flags } ::
      data_transitions_of_records rest
  | .state _ :: rest => data_transitions_of_records rest
  | .section_ _ _ _ :: rest => data_transitions_of_records rest
  | .call_transition _ _ _ _ _ :: rest => data_transitions_of_records rest

/-- The CALL_TRANSITION records of a record sequence, in wire order. -/
def call_transitions_of_records : List wire_record → List elfbac_call_transition
  | [] => []
  | .call_transition to_ from_ address param_size return_size :: rest =>
    { to_ := to_, from_ := from_, address := address, param_size := param_size,
      return_size := return_size } :: call_transitions_of_records rest
  | .state _ :: rest => call_transitions_of_records rest
  | .section_ _ _ _ :: rest => call_transitions_of_records rest
  | .data_transition _ _ _ _ _ :: rest => call_transitions_of_records rest

/-- The record is a DATA_TRANSITION or a CALL_TRANSITION record. -/
def wire_record.is_transition : wire_record → Bool
  | .data_transition _ _ _ _ _ => true
  | .call_transition _ _ _ _ _ => true
  | _ => false

/-- The record is a STATE record. -/
def wire_record.is_state : wire_record → Bool
  | .state _ => true
  | _ => false

/-! ## Serialising a policy graph (specification, sections 6 and 8) -/

/-- The SECTION record of a section. -/
def section_record (s : elfbac_section) : wire_record :=
  .section_ s.base s.size s.flags

/-- The records of one state: its STATE record, directly followed by the
SECTION records of its sections in order. -/
def state_records (st : elfbac_state) : List wire_record :=
  .state st.stack_id :: st.sections_list.map section_record

/-- The records of a list of states, state after state. -/
def states_records : List elfbac_state → List wire_record
  | [] => []
  | st :: rest => state_records st ++ states_records rest

/-- The DATA_TRANSITION record of a data transition. -/
def data_transition_record (d : elfbac_data_transition) : wire_record :=
  .data_transition d.to_ d.from_ d.base d.size d.flags

/-- The CALL_TRANSITION record of a call transition. -/
def call_transition_record (c : elfbac_call_transition) : wire_record :=
  .call_transition c.to_ c.from_ c.address c.param_size c.return_size

/-- The records of a policy graph: the states with their sections, then the
data transitions, then the call transitions. -/
def policy_records (p : elfbac_policy) : List wire_record :=
  states_records p.states_list ++
    (p.data_transitions_list.map data_transition_record ++
      p.call_transitions_list.map call_transition_record)

/-- The wire image of a policy graph. -/
def serialize_policy (A : Arch) (p : elfbac_policy) : List Byte :=
  serialize A p.num_stacks (policy_records p)

/-- Every `unsigned long` field of the graph holds a value of `unsigned long`
(true of every graph in memory). -/
def policy_fits (A : Arch) (p : elfbac_policy) : Prop :=
  p.num_stacks < ULONG_MOD A ∧
  (∀ st ∈ p.states_list, st.stack_id < ULONG_MOD A ∧
    ∀ s ∈ st.sections_list,
      s.base < ULONG_MOD A ∧ s.size < ULONG_MOD A ∧ s.flags < ULONG_MOD A) ∧
  (∀ d ∈ p.data_transitions_list,
    d.to_ < ULONG_MOD A ∧ d.from_ < ULONG_MOD A ∧ d.base < ULONG_MOD A ∧
      d.size < ULONG_MOD A ∧ d.flags < ULONG_MOD A) ∧
  (∀ c ∈ p.call_transitions_list,
    c.to_ < ULONG_MOD A ∧ c.from_ < ULONG_MOD A ∧ c.address < ULONG_MOD A ∧
      c.param_size < ULONG_MOD A ∧ c.return_size < ULONG_MOD A)

instance (A : Arch) (p : elfbac_policy) : Decidable (policy_fits A p) := by
  unfold policy_fits
  infer_instance

/-- The state as the decoder creates it: the page-table root is NULL. -/
def decoded_state (st : elfbac_state) : elfbac_state :=
  { st with pgd := none }

/-- The graph as the decoder returns it: every page-table root NULL and
`current_state` pointing to the first state. -/
def decoded_policy (p : elfbac_policy) : elfbac_policy :=
  { p with states_list := p.states_list.map decoded_state, current_state := some 0 }

/-- A buffer in the wire format: one header word followed by zero or more
complete records. -/
def well_framed (A : Arch) (buf : List Byte) : Prop :=
  ∃ (num_stacks : Nat) (recs : List wire_record),
    num_stacks < ULONG_MOD A ∧ (∀ r ∈ recs, r.fits A) ∧ buf = serialize A num_stacks recs

/-! ## Sample environments and inputs -/

/-- A range probe that accepts every range. -/
def access_ok_all : Nat → Nat → Nat → Bool := fun _ _ _ => true

/-- An allocator that never fails. -/
def kmalloc_ok : Nat → Bool := fun _ => true

/-- Scenario A of the specification: `num_stacks = 1`, one STATE record with
`stack_id = 0`, one SECTION record with base `0x1000`, size `0x1000`, flags
READ. -/
def scenario_A (A : Arch) : List Byte :=
  serialize A 1 [.state 0, .section_ 0x1000 0x1000 VM_READ]

/-- A record sequence with transition records between the STATE and SECTION
records. -/
def mixed_records : List wire_record :=
  [.data_transition 1 0 0x3000 0x10 VM_READ, .state 0, .section_ 0x1000 0x1000 VM_READ,
   .call_transition 0 1 0x1004 8 4, .section_ 0x2000 0x1000 3, .state 1,
   .section_ 0x4000 0x1000 VM_READ]

/-- A policy with no state pointer, used as the prior value of `*out`. -/
def blank_policy : elfbac_policy := init_policy 7

/-- A one-state policy whose data transition has `from` equal to 1 and whose
call transition has `to` equal to 1, the number of states: neither is the id
of a state. -/
def loose_policy : elfbac_policy :=
  { num_stacks := 1,
    states_list := [{ id := 0, stack_id := 0, sections_list := [], pgd := none }],
    data_transitions_list :=
      [{ to_ := 0, from_ := 1, base := 0x1000, size := 0x10, flags := VM_READ }],
    call_transitions_list :=
      [{ to_ := 1, from_ := 0, address := 0x2000, param_size := 0, return_size := 0 }],
    current_state := none }

/-- A validated one-state policy without sections and without transitions. -/
def bare_policy : elfbac_policy :=
  { num_stacks := 1,
    states_list := [{ id := 0, stack_id := 0, sections_list := [], pgd := none }],
    data_transitions_list := [], call_transitions_list := [],
    current_state := some 0 }

/-- A validated one-state policy with one readable section at `0x1000`. -/
def one_section_policy : elfbac_policy :=
  { num_stacks := 1,
    states_list :=
      [{ id := 0, stack_id := 0,
         sections_list := [{ base := 0x1000, size := 0x1000, flags := VM_READ }],
         pgd := none }],
    data_transitions_list := [], call_transitions_list := [],
    current_state := some 0 }

/-! ## Access decision (specification, section 4.3) -/

/-- The three outcomes of an access decision. -/
inductive access_decision
  | Allow
  | Deny
  | AllowAndTransition (next_state : Nat)
deriving DecidableEq

/-- The address lies in the half-open range `[base, base + size)`. -/
def range_contains (base size address : Nat) : Bool :=
  decide (base ≤ address ∧ address < base + size)

/-- The flags satisfy the access mask: every requested mode bit is granted. -/
def flags_satisfy (flags mask : Nat) : Bool :=
  decide (flags &&& mask = mask)

/-- The reference procedure `evaluate_access` in the words of the
specification, section 4.3: a section of the current state first, then the
first matching data transition from the current state, then the first matching
call transition from the current state, else Deny. -/
def spec_evaluate_access (p : elfbac_policy) (address mask : Nat) : access_decision :=
  match p.current with
  | none => .Deny
  | some cur =>
    if cur.sections_list.any
        (fun s => range_contains s.base s.size address && flags_satisfy s.flags mask) then
      .Allow
    else
      match p.data_transitions_list.find?
          (fun d => decide (d.from_ = cur.id) && range_contains d.base d.size address &&
            flags_satisfy d.flags mask) with
      | some d => .AllowAndTransition d.to_
      | none =>
        match p.call_transitions_list.find?
            (fun c => decide (c.from_ = cur.id) && decide (c.address = address)) with
        | some c => .AllowAndTransition c.to_
        | none => .Deny

/-- The decision that a result of `elfbac_access_ok` stands for: `false` is
Deny, `true` with a NULL `*next_state` is Allow, `true` with a state is
AllowAndTransition to that state. -/
def decision_of_access_ok : Bool × Option elfbac_state → access_decision
  | (false, _) => .Deny
  | (true, none) => .Allow
  | (true, some st) => .AllowAndTransition st.id

/-- A two-state policy in memory: the first state has a page-table root and
`current_state` points to the second state. -/
def sample_policy : elfbac_policy :=
  { num_stacks := 2,
    states_list :=
      [{ id := 0, stack_id := 0,
         sections_list := [{ base := 0x1000, size := 0x1000, flags := VM_READ },
                           { base := 0x2000, size := 0x1000, flags := 3 }],
         pgd := some 0x8000 },
       { id := 1, stack_id := 1,
         sections_list := [{ base := 0x4000, size := 0x1000, flags := VM_READ }],
         pgd := none }],
    data_transitions_list :=
      [{ to_ := 1, from_ := 0, base := 0x3000, size := 0x10, flags := VM_READ }],
    call_transitions_list :=
      [{ to_ := 0, from_ := 1, address := 0x1004, param_size := 8, return_size := 4 }],
    current_state := some 1 }

/-- The policy that the decoder builds from `mixed_records` with header word 2. -/
def mixed_policy : elfbac_policy :=
  decoded_policy sample_policy

/-- The outcome of decoding `mixed_records` with header word 2. -/
def mixed_outcome : parse_outcome :=
  { retval := 0, out := .head_copy mixed_policy, policy := mixed_policy, locals := no_locals,
    nalloc := 7 }

/-! ## Validator conditions (specification, section 4.2) -/

/-- The accessibility that the specification asks of a section or data
transition, decided by its flags alone: write-flagged means write-accessible,
else read-accessible. -/
def spec_range_accessible (access_ok : Nat → Nat → Nat → Bool) (flags base size : Nat) :
    Bool :=
  if (flags &&& VM_WRITE) ≠ 0 then access_ok VERIFY_WRITE base size
  else access_ok VERIFY_READ base size

/-- Conditions (1) to (7) of the specification, section 4.2, with the strict
state index check of condition (5). -/
def spec_policy_valid (A : Arch) (access_ok : Nat → Nat → Nat → Bool) (p : elfbac_policy) :
    Prop :=
  1 ≤ p.states_list.length ∧
  (∀ st ∈ p.states_list, st.stack_id < p.num_stacks) ∧
  p.num_stacks ≤ p.states_list.length ∧
  (∀ st ∈ p.states_list, ∀ s ∈ st.sections_list,
    spec_range_accessible access_ok s.flags s.base s.size = true) ∧
  (∀ d ∈ p.data_transitions_list,
    d.from_ < p.states_list.length ∧ d.to_ < p.states_list.length) ∧
  (∀ c ∈ p.call_transitions_list,
    c.from_ < p.states_list.length ∧ c.to_ < p.states_list.length) ∧
  (∀ d ∈ p.data_transitions_list,
    spec_range_accessible access_ok d.flags d.base d.size = true) ∧
  (∀ c ∈ p.call_transitions_list, access_ok VERIFY_READ c.address A.sizeof_ulong = true)

instance (A : Arch) (access_ok : Nat → Nat → Nat → Bool) (p : elfbac_policy) :
    Decidable (spec_policy_valid A access_ok p) := by
  unfold spec_policy_valid
  infer_instance

/-- The accessibility that the code asks of a section or data transition: the
read probe for every range, and the write probe as well when the flags include
write. -/
def probed_range_accessible (access_ok : Nat → Nat → Nat → Bool) (flags base size : Nat) :
    Bool :=
  access_ok VERIFY_READ base size &&
    (if (flags &&& VM_WRITE) ≠ 0 then access_ok VERIFY_WRITE base size else true)

/-- A range probe under which a range is write-accessible and not
read-accessible. -/
def access_ok_write_only : Nat → Nat → Nat → Bool :=
  fun type _ _ => decide (type = VERIFY_WRITE)

/-- A one-state policy whose only section is write-flagged. -/
def write_section_policy : elfbac_policy :=
  { num_stacks := 1,
    states_list :=
      [{ id := 0, stack_id := 0,
         sections_list := [{ base := 0x1000, size := 0x1000, flags := VM_WRITE }],
         pgd := none }],
    data_transitions_list := [], call_transitions_list := [],
    current_state := none }

/-- The fields of a call transition that the validator reads: `to`, `from` and
`address`. -/
def call_transition_checked (c : elfbac_call_transition) : Nat × Nat × Nat :=
  (c.to_, c.from_, c.address)

/-- The policy `sample_policy` with other `param_size` and `return_size` in its
call transition. -/
def sample_policy_resized : elfbac_policy :=
  { sample_policy with
    call_transitions_list :=
      [{ to_ := 0, from_ := 1, address := 0x1004, param_size := 0x100000,
         return_size := 0xFFFF0000 }] }

/-! ## Clone and the policy after an access decision -/

/-- Source `elfbac_policy_clone`: the body is `return 0;`.  The result is the
return value and the contents of `*orig` and `*new` after the call. -/
def elfbac_policy_clone (orig new_ : elfbac_policy) : Int × elfbac_policy × elfbac_policy :=
  (0, orig, new_)

/-- The graph `new_` is a copy of the graph `orig` with empty private page
tables (specification, section 3): same `num_stacks`, same states with the same
ids, stack ids and section lists, same transition lists, `current_state` at the
corresponding state, and every page-table root NULL. -/
def is_clone_of (new_ orig : elfbac_policy) : Prop :=
  new_.num_stacks = orig.num_stacks ∧
  new_.states_list = orig.states_list.map decoded_state ∧
  new_.data_transitions_list = orig.data_transitions_list ∧
  new_.call_transitions_list = orig.call_transitions_list ∧
  new_.current_state = orig.current_state

instance (new_ orig : elfbac_policy) : Decidable (is_clone_of new_ orig) := by
  unfold is_clone_of
  infer_instance

/-- The contents of `*policy` after a call of `elfbac_access_ok`: the body
assigns `*next_state` only, nothing is stored through `policy`. -/
def elfbac_access_ok_policy (policy : elfbac_policy) (_address : Nat) (_mask : Nat) :
    elfbac_policy :=
  policy

/-- Conditions (1) to (7) of the specification, section 4.2, with the
accessibility that the code probes: every range read-accessible, a
write-flagged range write-accessible as well. -/
def probed_policy_valid (A : Arch) (access_ok : Nat → Nat → Nat → Bool) (p : elfbac_policy) :
    Prop :=
  1 ≤ p.states_list.length ∧
  (∀ st ∈ p.states_list, st.stack_id < p.num_stacks) ∧
  p.num_stacks ≤ p.states_list.length ∧
  (∀ st ∈ p.states_list, ∀ s ∈ st.sections_list,
    probed_range_accessible access_ok s.flags s.base s.size = true) ∧
  (∀ d ∈ p.data_transitions_list,
    d.from_ < p.states_list.length ∧ d.to_ < p.states_list.length) ∧
  (∀ c ∈ p.call_transitions_list,
    c.from_ < p.states_list.length ∧ c.to_ < p.states_list.length) ∧
  (∀ d ∈ p.data_transitions_list,
    probed_range_accessible access_ok d.flags d.base d.size = true) ∧
  (∀ c ∈ p.call_transitions_list, access_ok VERIFY_READ c.address A.sizeof_ulong = true)

instance (A : Arch) (access_ok : Nat → Nat → Nat → Bool) (p : elfbac_policy) :
    Decidable (probed_policy_valid A access_ok p) := by
  unfold probed_policy_valid
  infer_instance

/-! ## Nodes allocated and released by a decode -/

/-- A node that a call of `elfbac_parse_policy` obtained from `kmalloc`, named
by where it is when control reaches the label `out`: in one of the lists of
the local `policy`, by position, or in no list. -/
inductive node_ref
  /-- The state at position `i` of `policy.states_list`. -/
  | state (i : Nat)
  /-- The section at position `j` of the section list of the state at
  position `i`. -/
  | section_ (i j : Nat)
  /-- The data transition at position `i` of `policy.data_transitions_list`. -/
  | data_transition (i : Nat)
  /-- The call transition at position `i` of `policy.call_transitions_list`. -/
  | call_transition (i : Nat)
  /-- The node of the record that was being parsed, which is in no list. -/
  | unlinked
deriving DecidableEq

/-- The nodes of a state list and of its section lists; the first argument is
the position of the first state. -/
def state_nodes : Nat → List elfbac_state → List node_ref
  | _, [] => []
  | i, st :: rest =>
    (node_ref.state i :: (List.range st.sections_list.length).map (node_ref.section_ i)) ++
      state_nodes (i + 1) rest

/-- The nodes that are in the lists of a policy. -/
def linked_nodes (p : elfbac_policy) : List node_ref :=
  state_nodes 0 p.states_list ++
    ((List.range p.data_transitions_list.length).map node_ref.data_transition ++
      (List.range p.call_transitions_list.length).map node_ref.call_transition)

/-- One of the local node pointers holds a node that is in no list. -/
def has_unlinked (l : parse_locals) : Bool :=
  decide (l.state = .unlinked) || decide (l.section_ = .unlinked) ||
    decide (l.data_transition = .unlinked) || decide (l.call_transition = .unlinked)

/-- The number of requests, of the first `n` that a call makes, that the
allocator grants. -/
def granted_requests (kmalloc : Nat → Bool) : Nat → Nat
  | 0 => 0
  | n + 1 => granted_requests kmalloc n + (if kmalloc n then 1 else 0)

/-- The number of nodes that the call obtained from `kmalloc`: the requests
that the allocator granted, of the `nalloc` requests that the call made. -/
def allocated_count (kmalloc : Nat → Bool) (o : parse_outcome) : Nat :=
  granted_requests kmalloc o.nalloc

/-- The nodes that the variables of the call refer to when control reaches
`out`: every node in one of the lists of the local `policy`, and the node in no
list that one of the four local pointers holds. -/
def held_nodes (o : parse_outcome) : List node_ref :=
  linked_nodes o.policy ++ (if has_unlinked o.locals then [node_ref.unlinked] else [])

/-- Source `elfbac_policy_destroy`: the body is empty.  The result is the list
of nodes that the call releases. -/
def elfbac_policy_destroy (_policy : elfbac_policy) : List node_ref :=
  []

/-- The node released by `kfree` of a local pointer (`kfree(NULL)` releases
nothing); the first argument is the last node of `policy.states_list`. -/
def kfree (last_state : node_ref) : local_ptr → List node_ref
  | .NULL => []
  | .unlinked => [node_ref.unlinked]
  | .last_state => [last_state]

/-- The nodes released by the code at the label `out` of
`elfbac_parse_policy`: `elfbac_policy_destroy(&policy)` followed by `kfree` of
the four local pointers. -/
def released_nodes (o : parse_outcome) : List node_ref :=
  elfbac_policy_destroy o.policy ++
    (kfree (.state (o.policy.states_list.length - 1)) o.locals.state ++
      (kfree (.state (o.policy.states_list.length - 1)) o.locals.section_ ++
        (kfree (.state (o.policy.states_list.length - 1)) o.locals.data_transition ++
          kfree (.state (o.policy.states_list.length - 1)) o.locals.call_transition)))

/-- The nodes held at `out` that the code at `out` does not release: they are
still allocated when `elfbac_parse_policy` returns. -/
def live_nodes (o : parse_outcome) : List node_ref :=
  (held_nodes o).filter (fun n => decide (n ∉ released_nodes o))

/-- A buffer with one STATE record followed by the unknown tag 9. -/
def state_then_bad_tag : List Byte :=
  serialize arm32 1 [.state 0] ++ store_ulong arm32.sizeof_ulong 9

/-- A buffer with one complete STATE record followed by a STATE tag whose
payload is missing. -/
def state_then_cut_state : List Byte :=
  serialize arm32 1 [.state 0] ++ store_ulong arm32.sizeof_ulong STATE

/-! ## Page-table synchronizer (specification, section 4.4)

The kernel primitives that the source calls and does not contain (page-table
accessors, reference counting, reverse mapping, swap bookkeeping, table-level
allocation) are modelled from the specification, section 4.4 and the
collaborator interfaces of section 6.  Locking, lazy-MMU mode, `cond_resched`
and the local `progress`, which no branch reads, have no effect in the model. -/

/-- Modelled from the spec: a `swp_entry_t`, the paging record of a leaf entry
that is not present.  `swap` is an ordinary swap entry (`non_swap_entry` is
false), `migration` an entry under in-flight page relocation with the page it
refers to, `other` any further non-swap entry.  `val` is the field `val`. -/
inductive swp_entry_t
  | swap (val : Nat)
  | migration (val : Nat) (page : Nat)
  | other (val : Nat)
deriving DecidableEq

/-- The field `val` of a `swp_entry_t`. -/
def swp_entry_t.val : swp_entry_t → Nat
  | .swap val => val
  | .migration val _ => val
  | .other val => val

/-- Modelled from the spec: `non_swap_entry` of `linux/swapops.h`. -/
def non_swap_entry : swp_entry_t → Bool
  | .swap _ => false
  | _ => true

/-- Modelled from the spec: `is_migration_entry` of `linux/swapops.h`. -/
def is_migration_entry : swp_entry_t → Bool
  | .migration _ _ => true
  | _ => false

/-- Modelled from the spec: a leaf entry `pte_t`: it maps a present page frame,
or it is not present and holds a paging record.  The all-zero entry is the
record `swap 0`. -/
inductive pte_t
  | present (pfn : Nat)
  | not_present (entry : swp_entry_t)
deriving DecidableEq

/-- Modelled from the spec: `pte_present`. -/
def pte_present : pte_t → Bool
  | .present _ => true
  | .not_present _ => false

/-- Modelled from the spec: `pte_none`, true of the all-zero entry. -/
def pte_none (pte : pte_t) : Bool :=
  decide (pte = .not_present (.swap 0))

/-- Modelled from the spec: `pte_to_swp_entry`; the source calls it only for an
entry that is not present. -/
def pte_to_swp_entry : pte_t → swp_entry_t
  | .present pfn => .other pfn
  | .not_present entry => entry

/-- Source `struct vm_area_struct`, the fields that the source reads. -/
structure vm_area_struct where
  vm_start : Nat
  vm_end : Nat
  vm_flags : Nat
deriving DecidableEq

/-- Kernel constant `VM_PFNMAP` (`0x400`, `linux/mm.h`). -/
def VM_PFNMAP : Nat := 0x400

/-- The local array `rss` of `elfbac_copy_pte_range`, by counter. -/
structure rss_vec where
  MM_FILEPAGES : Int
  MM_ANONPAGES : Int
deriving DecidableEq

/-- Source `init_rss_vec`: every counter is zero. -/
def init_rss_vec : rss_vec :=
  { MM_FILEPAGES := 0, MM_ANONPAGES := 0 }

/-- The slot of a state table that a `dst_pte` pointer refers to: the table
rooted at `root`, the entry that translates `addr`. -/
structure pte_slot where
  root : Nat
  addr : Nat
deriving DecidableEq

/-- One level of a state table: the table rooted at `root`, the level, and the
index of the level's entry. -/
structure table_ref where
  root : Nat
  level : Nat
  index : Nat
deriving DecidableEq

/-- The canonical page table of the process and the kernel primitives whose
result the source only reads.  The canonical table is read by address:
`pgd_none_or_clear_bad` and the two levels below tell whether the entry of the
level that translates the address is unusable, `src_pte` is the leaf entry.
`pgd_addr_end`, `pud_addr_end`, `pmd_addr_end` are the macros of that name.
`table_alloc_ok n`, `swap_duplicate_ok n` and `swap_continuation_ok n` tell
whether the `n`-th table allocation, the `n`-th `swap_duplicate` and the `n`-th
`add_swap_count_continuation` of a run succeed.  `pud_alloc_null addr` tells
what `pud_alloc` does with a `dst_pgd` that was computed from a NULL table
root, the pointer `NULL + pgd_index(addr)`: `true` when it returns NULL, as
the folded `pud_alloc` of a two-level table does for `pgd_index(addr) = 0`;
`false` when the walk goes on and dereferences the invalid pointer. -/
structure walk_env where
  pgd_none_or_clear_bad : Nat → Bool
  pud_none_or_clear_bad : Nat → Bool
  pmd_none_or_clear_bad : Nat → Bool
  src_pte : Nat → pte_t
  pgd_addr_end : Nat → Nat → Nat
  pud_addr_end : Nat → Nat → Nat
  pmd_addr_end : Nat → Nat → Nat
  table_index : Nat → Nat → Nat
  vm_normal_page : vm_area_struct → Nat → Nat → Option Nat
  PageAnon : Nat → Bool
  track_pfn_copy : vm_area_struct → Int
  table_alloc_ok : Nat → Bool
  swap_duplicate_ok : Nat → Bool
  swap_continuation_ok : Nat → Bool
  pud_alloc_null : Nat → Bool

/-- The state that the synchronizer changes: the reference count and the
number of reverse-mapping registrations of every page, the reference count of
every swap record, the resident-set counters of the process, the leaf entries
and the allocated levels of the state tables, and the number of requests made
so far to each of the three primitives that can fail. -/
structure mm_state where
  page_count : Nat → Nat
  page_mapcount : Nat → Nat
  swap_count : Nat → Nat
  mm_filepages : Int
  mm_anonpages : Int
  dst_pte : pte_slot → pte_t
  dst_tables : List table_ref
  n_table_alloc : Nat
  n_swap_duplicate : Nat
  n_swap_continuation : Nat

/-- The counter `f` with the count of `k` one higher. -/
def bump (f : Nat → Nat) (k : Nat) : Nat → Nat :=
  fun x => if x = k then f x + 1 else f x

/-- Modelled from the spec: `get_page` increments the page's reference count. -/
def get_page (st : mm_state) (page : Nat) : mm_state :=
  { st with page_count := bump st.page_count page }

/-- Modelled from the spec: `page_dup_rmap` registers one more reverse mapping
of the page. -/
def page_dup_rmap (st : mm_state) (page : Nat) : mm_state :=
  { st with page_mapcount := bump st.page_mapcount page }

/-- Modelled from the spec: `swap_duplicate` increments the reference count of
the swap record and returns 0, or fails and returns a negative value; the
boolean is `true` for the return value 0. -/
def swap_duplicate (E : walk_env) (st : mm_state) (entry : swp_entry_t) : Bool × mm_state :=
  if E.swap_duplicate_ok st.n_swap_duplicate then
    (true, { st with swap_count := bump st.swap_count entry.val,
                     n_swap_duplicate := st.n_swap_duplicate + 1 })
  else
    (false, { st with n_swap_duplicate := st.n_swap_duplicate + 1 })

/-- Modelled from the spec: `add_swap_count_continuation`; the boolean is
`true` for a return value that is not negative. -/
def add_swap_count_continuation (E : walk_env) (st : mm_state) : Bool × mm_state :=
  (E.swap_continuation_ok st.n_swap_continuation,
    { st with n_swap_continuation := st.n_swap_continuation + 1 })

/-- Modelled from the spec: `set_pte_at` stores the entry in the slot. -/
def set_pte_at (st : mm_state) (dst_pte : pte_slot) (pte : pte_t) : mm_state :=
  { st with dst_pte := fun s => if s = dst_pte then pte else st.dst_pte s }

/-- Modelled from the spec: `pud_alloc` (level 1), `pmd_alloc` (level 2) and
`pte_alloc_map_lock` (level 3) return the level of the state table that
translates `addr`, allocating it when it does not exist yet; the boolean is
`false` for the NULL result of a failed allocation. -/
def table_alloc (E : walk_env) (st : mm_state) (level root addr : Nat) : Bool × mm_state :=
  let t : table_ref := { root := root, level := level, index := E.table_index level addr }
  if t ∈ st.dst_tables then (true, st)
  else if E.table_alloc_ok st.n_table_alloc then
    (true, { st with dst_tables := t :: st.dst_tables,
                     n_table_alloc := st.n_table_alloc + 1 })
  else
    (false, { st with n_table_alloc := st.n_table_alloc + 1 })

/-- Source `add_mm_rss_vec`: every counter of `rss` that is not zero is added
to the counter of the process. -/
def add_mm_rss_vec (st : mm_state) (rss : rss_vec) : mm_state :=
  { st with
    mm_filepages := if rss.MM_FILEPAGES ≠ 0 then st.mm_filepages + rss.MM_FILEPAGES
                    else st.mm_filepages,
    mm_anonpages := if rss.MM_ANONPAGES ≠ 0 then st.mm_anonpages + rss.MM_ANONPAGES
                    else st.mm_anonpages }

/-- The statements `if (PageAnon(page)) rss[MM_ANONPAGES]++; else
rss[MM_FILEPAGES]++;` of `elfbac_copy_one_pte`. -/
def rss_credit (E : walk_env) (rss : rss_vec) (page : Nat) : rss_vec :=
  if E.PageAnon page then { rss with MM_ANONPAGES := rss.MM_ANONPAGES + 1 }
  else { rss with MM_FILEPAGES := rss.MM_FILEPAGES + 1 }

/-- The result of `elfbac_copy_one_pte`: the return value, the state and the
array `rss` after the call. -/
structure one_pte_result where
  retval : Nat
  st : mm_state
  rss : rss_vec

/-- Source `elfbac_copy_one_pte`.  `pte` is the value `*src_pte`. -/
def elfbac_copy_one_pte (E : walk_env) (st : mm_state) (dst_pte : pte_slot) (pte : pte_t)
    (vma : vm_area_struct) (addr : Nat) (rss : rss_vec) : one_pte_result :=
  match pte with
  | .not_present _ =>
    let entry := pte_to_swp_entry pte
    if non_swap_entry entry = false then
      match swap_duplicate E st entry with
      | (false, st1) => { retval := entry.val, st := st1, rss := rss }
      | (true, st1) => { retval := 0, st := set_pte_at st1 dst_pte pte, rss := rss }
    else if is_migration_entry entry then
      match entry with
      | .migration _ page =>
        { retval := 0, st := set_pte_at st dst_pte pte, rss := rss_credit E rss page }
      | _ => { retval := 0, st := set_pte_at st dst_pte pte, rss := rss }
    else
      { retval := 0, st := set_pte_at st dst_pte pte, rss := rss }
  | .present pfn =>
    match E.vm_normal_page vma addr pfn with
    | some page =>
      { retval := 0,
        st := set_pte_at (page_dup_rmap (get_page st page) page) dst_pte pte,
        rss := rss_credit E rss page }
    | none => { retval := 0, st := set_pte_at st dst_pte pte, rss := rss }

/-- How a run of the table walk ends: the function returns `ret` in state
`st`, or it dereferences an invalid table pointer, or the model runs out of
fuel. -/
inductive walk_exit
  | returned (ret : Int) (st : mm_state)
  | null_deref
  | no_fuel

/-- The return value of a run that returns. -/
def walk_exit.ret : walk_exit → Option Int
  | .returned ret _ => some ret
  | _ => none

/-- The state at the return of a run that returns. -/
def walk_exit.st : walk_exit → Option mm_state
  | .returned _ st => some st
  | _ => none

/-- The exit of the `do ... while` loop of `elfbac_copy_pte_range`: the local
`entry.val`, the state, the array `rss` and the local `addr`. -/
structure pte_loop_exit where
  entry_val : Nat
  st : mm_state
  rss : rss_vec
  addr : Nat

/-- The `do ... while` loop of `elfbac_copy_pte_range` (source lines 376 to
386), from the test of `*src_pte` at `addr`; `continue` and the end of the body
both evaluate `addr += PAGE_SIZE, addr != end`.  The first argument bounds the
number of iterations; `none` is a run that needs more. -/
def copy_pte_loop (E : walk_env) (A : Arch) (vma : vm_area_struct) (root end_ : Nat) :
    Nat → Nat → mm_state → rss_vec → Nat → Option pte_loop_exit
  | 0, _, _, _, _ => none
  | fuel + 1, entry_val, st, rss, addr =>
    if pte_none (E.src_pte addr) then
      if (addr + PAGE_SIZE A) % ULONG_MOD A ≠ end_ then
        copy_pte_loop E A vma root end_ fuel entry_val st rss ((addr + PAGE_SIZE A) % ULONG_MOD A)
      else
        some { entry_val := entry_val, st := st, rss := rss,
               addr := (addr + PAGE_SIZE A) % ULONG_MOD A }
    else
      let r := elfbac_copy_one_pte E st { root := root, addr := addr } (E.src_pte addr) vma
        addr rss
      if r.retval ≠ 0 then
        some { entry_val := r.retval, st := r.st, rss := r.rss, addr := addr }
      else if (addr + PAGE_SIZE A) % ULONG_MOD A ≠ end_ then
        copy_pte_loop E A vma root end_ fuel r.retval r.st r.rss
          ((addr + PAGE_SIZE A) % ULONG_MOD A)
      else
        some { entry_val := r.retval, st := r.st, rss := r.rss,
               addr := (addr + PAGE_SIZE A) % ULONG_MOD A }

/-- Source `elfbac_copy_pte_range`, from the label `again` with the locals
`entry.val` and `addr`; `root` names the state table that `dst_pmd` belongs to.
The first argument bounds the number of passes through `again` and `n` the
iterations of the inner loop. -/
def copy_pte_range_again (E : walk_env) (A : Arch) (vma : vm_area_struct) (root end_ n : Nat) :
    Nat → Nat → mm_state → Nat → walk_exit
  | 0, _, _, _ => .no_fuel
  | fuel + 1, entry_val, st, addr =>
    match table_alloc E st 3 root addr with
    | (false, st1) => .returned (-ENOMEM) st1
    | (true, st1) =>
      match copy_pte_loop E A vma root end_ n entry_val st1 init_rss_vec addr with
      | none => .no_fuel
      | some x =>
        if x.entry_val ≠ 0 then
          match add_swap_count_continuation E (add_mm_rss_vec x.st x.rss) with
          | (false, st2) => .returned (-ENOMEM) st2
          | (true, st2) =>
            if x.addr ≠ end_ then copy_pte_range_again E A vma root end_ n fuel x.entry_val st2 x.addr
            else .returned 0 st2
        else if x.addr ≠ end_ then
          copy_pte_range_again E A vma root end_ n fuel x.entry_val (add_mm_rss_vec x.st x.rss)
            x.addr
        else .returned 0 (add_mm_rss_vec x.st x.rss)

/-- Source `elfbac_copy_pte_range`: `entry` starts as the zero record. -/
def elfbac_copy_pte_range (E : walk_env) (A : Arch) (n : Nat) (st : mm_state) (root : Nat)
    (vma : vm_area_struct) (addr end_ : Nat) : walk_exit :=
  copy_pte_range_again E A vma root end_ n n 0 st addr

/-- The `do ... while` loop of `elfbac_copy_pmd_range`. -/
def copy_pmd_loop (E : walk_env) (A : Arch) (vma : vm_area_struct) (root end_ n : Nat) :
    Nat → mm_state → Nat → walk_exit
  | 0, _, _ => .no_fuel
  | fuel + 1, st, addr =>
    if E.pmd_none_or_clear_bad addr then
      if E.pmd_addr_end addr end_ ≠ end_ then
        copy_pmd_loop E A vma root end_ n fuel st (E.pmd_addr_end addr end_)
      else .returned 0 st
    else
      match elfbac_copy_pte_range E A n st root vma addr (E.pmd_addr_end addr end_) with
      | .returned ret st1 =>
        if ret ≠ 0 then .returned (-ENOMEM) st1
        else if E.pmd_addr_end addr end_ ≠ end_ then
          copy_pmd_loop E A vma root end_ n fuel st1 (E.pmd_addr_end addr end_)
        else .returned 0 st1
      | x => x

/-- Source `elfbac_copy_pmd_range`. -/
def elfbac_copy_pmd_range (E : walk_env) (A : Arch) (n : Nat) (st : mm_state) (root : Nat)
    (vma : vm_area_struct) (addr end_ : Nat) : walk_exit :=
  match table_alloc E st 2 root addr with
  | (false, st1) => .returned (-ENOMEM) st1
  | (true, st1) => copy_pmd_loop E A vma root end_ n n st1 addr

/-- The `do ... while` loop of `elfbac_copy_pud_range`. -/
def copy_pud_loop (E : walk_env) (A : Arch) (vma : vm_area_struct) (root end_ n : Nat) :
    Nat → mm_state → Nat → walk_exit
  | 0, _, _ => .no_fuel
  | fuel + 1, st, addr =>
    if E.pud_none_or_clear_bad addr then
      if E.pud_addr_end addr end_ ≠ end_ then
        copy_pud_loop E A vma root end_ n fuel st (E.pud_addr_end addr end_)
      else .returned 0 st
    else
      match elfbac_copy_pmd_range E A n st root vma addr (E.pud_addr_end addr end_) with
      | .returned ret st1 =>
        if ret ≠ 0 then .returned (-ENOMEM) st1
        else if E.pud_addr_end addr end_ ≠ end_ then
          copy_pud_loop E A vma root end_ n fuel st1 (E.pud_addr_end addr end_)
        else .returned 0 st1
      | x => x

/-- Source `elfbac_copy_pud_range`.  `dst_pgd` is `none` when the pointer was
computed from a NULL table root: either `pud_alloc` returns NULL for it and
the function returns `-ENOMEM`, or the invalid pointer is dereferenced. -/
def elfbac_copy_pud_range (E : walk_env) (A : Arch) (n : Nat) (st : mm_state)
    (dst_pgd : Option Nat) (vma : vm_area_struct) (addr end_ : Nat) : walk_exit :=
  match dst_pgd with
  | none => if E.pud_alloc_null addr then .returned (-ENOMEM) st else .null_deref
  | some root =>
    match table_alloc E st 1 root addr with
    | (false, st1) => .returned (-ENOMEM) st1
    | (true, st1) => copy_pud_loop E A vma root end_ n n st1 addr

/-- The `do ... while` loop of `elfbac_copy_page_range`: a failure of the level
below sets `ret = -ENOMEM` and leaves the loop. -/
def copy_pgd_loop (E : walk_env) (A : Arch) (vma : vm_area_struct) (dst_pgd : Option Nat)
    (end_ n : Nat) : Nat → mm_state → Nat → walk_exit
  | 0, _, _ => .no_fuel
  | fuel + 1, st, addr =>
    if E.pgd_none_or_clear_bad addr then
      if E.pgd_addr_end addr end_ ≠ end_ then
        copy_pgd_loop E A vma dst_pgd end_ n fuel st (E.pgd_addr_end addr end_)
      else .returned 0 st
    else
      match elfbac_copy_pud_range E A n st dst_pgd vma addr (E.pgd_addr_end addr end_) with
      | .returned ret st1 =>
        if ret ≠ 0 then .returned (-ENOMEM) st1
        else if E.pgd_addr_end addr end_ ≠ end_ then
          copy_pgd_loop E A vma dst_pgd end_ n fuel st1 (E.pgd_addr_end addr end_)
        else .returned 0 st1
      | x => x

/-- Source `elfbac_copy_page_range`.  `n` bounds the iterations of every loop
of the walk. -/
def elfbac_copy_page_range (E : walk_env) (A : Arch) (n : Nat) (st : mm_state)
    (dst_pgd : Option Nat) (vma : vm_area_struct) (addr end_ : Nat) : walk_exit :=
  if vma.vm_start > addr ∨ end_ > vma.vm_end then .returned (-EINVAL) st
  else if (vma.vm_flags &&& VM_PFNMAP) ≠ 0 ∧ E.track_pfn_copy vma ≠ 0 then
    .returned (E.track_pfn_copy vma) st
  else copy_pgd_loop E A vma dst_pgd end_ n n st addr

/-- Source `elfbac_copy_mapping`.  `policy->current_state->pgd` is read first:
with `current_state` NULL the function dereferences NULL. -/
def elfbac_copy_mapping (E : walk_env) (A : Arch) (n : Nat) (st : mm_state)
    (policy : elfbac_policy) (vma : vm_area_struct) (addr : Nat) : walk_exit :=
  match policy.current with
  | none => .null_deref
  | some s =>
    elfbac_copy_page_range E A n st s.pgd vma (elfbac_copy_mapping_range A addr).1
      (elfbac_copy_mapping_range A addr).2

/-- The generic macro `pgd_addr_end` for a directory entry that spans
`2 ^ shift` bytes: the next boundary after `addr`, or `end` when that comes
first, in `unsigned long` arithmetic. -/
def generic_addr_end (A : Arch) (shift addr end_ : Nat) : Nat :=
  let boundary := ((addr + 2 ^ shift) % ULONG_MOD A) / 2 ^ shift * 2 ^ shift
  if (boundary + ULONG_MOD A - 1) % ULONG_MOD A < (end_ + ULONG_MOD A - 1) % ULONG_MOD A
  then boundary else end_

/-- A sample canonical table of the 32-bit ARM target (two-level tables:
`pgd_addr_end` with 2 MiB directory entries, the two folded levels end at
`end`): the page at address 0x5000 maps page frame 7, the entry at 0x6000 holds
the swap record 42, every other leaf entry is empty; page frame `k` is page
`k`, page 7 is anonymous; every request to a kernel primitive succeeds. -/
def sample_env : walk_env :=
  { pgd_none_or_clear_bad := fun _ => false,
    pud_none_or_clear_bad := fun _ => false,
    pmd_none_or_clear_bad := fun _ => false,
    src_pte := fun addr =>
      if addr = 0x5000 then .present 7
      else if addr = 0x6000 then .not_present (.swap 42)
      else .not_present (.swap 0),
    pgd_addr_end := generic_addr_end arm32 21,
    pud_addr_end := fun _ end_ => end_,
    pmd_addr_end := fun _ end_ => end_,
    table_index := fun level addr => if level = 3 then addr / 2 ^ 21 else 0,
    vm_normal_page := fun _ _ pfn => some pfn,
    PageAnon := fun page => decide (page = 7),
    track_pfn_copy := fun _ => 0,
    table_alloc_ok := fun _ => true,
    swap_duplicate_ok := fun _ => true,
    swap_continuation_ok := fun _ => true,
    pud_alloc_null := fun addr => decide (addr / 2 ^ 21 = 0) }

/-- The sample canonical table with one more present entry: the page at
address 0xFFFFF000, the last page of the address space, maps page frame 7. -/
def high_env : walk_env :=
  { sample_env with
    src_pte := fun addr =>
      if addr = 0xFFFFF000 then .present 7 else sample_env.src_pte addr }

/-- A sample state: page 7 has reference count 1 and one reverse mapping, the
swap record 42 has reference count 1, the state tables are empty. -/
def sample_mm : mm_state :=
  { page_count := fun page => if page = 7 then 1 else 0,
    page_mapcount := fun page => if page = 7 then 1 else 0,
    swap_count := fun val => if val = 42 then 1 else 0,
    mm_filepages := 0,
    mm_anonpages := 1,
    dst_pte := fun _ => .not_present (.swap 0),
    dst_tables := [],
    n_table_alloc := 0,
    n_swap_duplicate := 0,
    n_swap_continuation := 0 }

/-- A sample memory area `[0x4000, 0x8000)`, readable and writable. -/
def sample_vma : vm_area_struct :=
  { vm_start := 0x4000, vm_end := 0x8000, vm_flags := 3 }

/-- A policy with one state whose table root is the table 1, and that state
current. -/
def rooted_policy : elfbac_policy :=
  { num_stacks := 1,
    states_list := [{ id := 0, stack_id := 0, sections_list := [], pgd := some 1 }],
    data_transitions_list := [],
    call_transitions_list := [],
    current_state := some 0 }

/-- A sample memory area `[0x1000, 0x2000)` at the bottom of the address
space. -/
def low_vma : vm_area_struct :=
  { vm_start := 0x1000, vm_end := 0x2000, vm_flags := 3 }

/-- One call of the accessibility probe: the arguments `type`, `addr` and
`size` of `access_ok`. -/
structure probe_request where
  type : Nat
  addr : Nat
  size : Nat
deriving DecidableEq

/-- The call `access_ok(VERIFY_READ, (void *)call_transition->address,
sizeof(unsigned long))` of source lines 139 and 140. -/
def call_transition_probe (A : Arch) (c : elfbac_call_transition) : probe_request :=
  { type := VERIFY_READ, addr := c.address, size := A.sizeof_ulong }

/-- Third loop of the validator, over the call transitions, together with the
calls of `access_ok` that it makes, in the order in which it makes them; the
boolean is `true` when `-EINVAL` is returned.  The test of `from` and `to`
comes first and makes no call. -/
def validate_call_transitions_probes (A : Arch) (access_ok : Nat → Nat → Nat → Bool)
    (num_states : Nat) : List elfbac_call_transition → Bool × List probe_request
  | [] => (false, [])
  | call_transition :: rest =>
    if call_transition.from_ > num_states ∨ call_transition.to_ > num_states then (true, [])
    else if access_ok VERIFY_READ call_transition.address A.sizeof_ulong = false then
      (true, [call_transition_probe A call_transition])
    else
      ((validate_call_transitions_probes A access_ok num_states rest).1,
        call_transition_probe A call_transition ::
          (validate_call_transitions_probes A access_ok num_states rest).2)

/-- A probe that refuses the read of one word at address 0x1004 and grants
every other request. -/
def access_ok_but_entry : Nat → Nat → Nat → Bool :=
  fun type addr size => !(decide (type = VERIFY_READ) && decide (addr = 0x1004) &&
    decide (size = 4))

/-- A sample memory area `[0x400000, 0x800000)`, whose addresses have a
`pgd_index` that is not 0 on the sample target. -/
def upper_vma : vm_area_struct :=
  { vm_start := 0x400000, vm_end := 0x800000, vm_flags := 3 }

/-- The number of nodes obtained from `kmalloc` during the call that the code
at `out` has not released when the function returns; every entry of
`released_nodes` is one `kfree` of a node of the call. -/
def live_count (kmalloc : Nat → Bool) (o : parse_outcome) : Nat :=
  allocated_count kmalloc o - (released_nodes o).length

/-! ## Words and bytes: basic facts -/

theorem store_ulong_length (n v : Nat) : (store_ulong n v).length = n := by
  induction n generalizing v with
  | zero => rfl
  | succ n ih => simp [store_ulong, ih]

theorem load_store_mod (n v : Nat) : load_ulong (store_ulong n v) = v % 256 ^ n := by
  induction n generalizing v with
  | zero => simp [store_ulong, load_ulong, Nat.mod_one]
  | succ n ih =>
    simp only [store_ulong, load_ulong, ih]
    rw [pow_succ, Nat.mul_comm (256 ^ n) 256, Nat.mod_mul]

theorem load_store (n v : Nat) (h : v < 256 ^ n) : load_ulong (store_ulong n v) = v := by
  rw [load_store_mod, Nat.mod_eq_of_lt h]

theorem load_ulong_lt (bs : List Byte) : load_ulong bs < 256 ^ bs.length := by
  induction bs with
  | nil => simp [load_ulong]
  | cons b bs ih =>
    have hb : b.val < 256 := b.isLt
    simp only [load_ulong, List.length_cons, pow_succ]
    omega

theorem store_load (bs : List Byte) : store_ulong bs.length (load_ulong bs) = bs := by
  induction bs with
  | nil => rfl
  | cons b bs ih =>
    have hb : b.val < 256 := b.isLt
    have h1 : (b.val + 256 * load_ulong bs) % 256 = b.val := by omega
    have h2 : (b.val + 256 * load_ulong bs) / 256 = load_ulong bs := by omega
    simp only [List.length_cons, store_ulong, load_ulong, h2, ih]
    congr 1
    exact Fin.ext h1

theorem parse_ulong_store (A : Arch) (v : Nat) (rest : List Byte) (h : v < ULONG_MOD A) :
    parse_ulong A (store_ulong A.sizeof_ulong v ++ rest) = some (v, rest) := by
  have hl := store_ulong_length A.sizeof_ulong v
  unfold parse_ulong
  rw [if_pos (by simp [hl])]
  rw [List.take_left' hl, List.drop_left' hl, load_store _ _ h]

theorem parse_ulong_some (A : Arch) (buf rest : List Byte) (v : Nat)
    (h : parse_ulong A buf = some (v, rest)) :
    buf = store_ulong A.sizeof_ulong v ++ rest ∧ v < ULONG_MOD A ∧
      rest.length + A.sizeof_ulong = buf.length := by
  unfold parse_ulong at h
  split at h
  · rename_i hle
    simp only [Option.some.injEq, Prod.mk.injEq] at h
    obtain ⟨hv, hr⟩ := h
    have htl : (buf.take A.sizeof_ulong).length = A.sizeof_ulong := by
      simp [List.length_take, hle]
    refine ⟨?_, ?_, ?_⟩
    · rw [← hv, ← hr]
      have := store_load (buf.take A.sizeof_ulong)
      rw [htl] at this
      rw [this, List.take_append_drop]
    · rw [← hv]
      have := load_ulong_lt (buf.take A.sizeof_ulong)
      rw [htl] at this
      exact this
    · rw [← hr, List.length_drop]
      omega
  · exact absurd h (by simp)

theorem parse_ulong_none (A : Arch) (buf : List Byte) :
    parse_ulong A buf = none ↔ buf.length < A.sizeof_ulong := by
  unfold parse_ulong
  split <;> simp <;> omega

/-! ## The record parsers on encoded words -/

theorem encode_words_length (A : Arch) (ws : List Nat) :
    (encode_words A ws).length = ws.length * A.sizeof_ulong := by
  induction ws with
  | nil => simp [encode_words]
  | cons w ws ih =>
    simp only [encode_words, List.length_append, store_ulong_length, ih, List.length_cons]
    rw [Nat.succ_mul]
    omega

theorem parse_state_encode (A : Arch) (stack_id : Nat) (rest : List Byte) (st : elfbac_state)
    (h : stack_id < ULONG_MOD A) :
    elfbac_parse_state A (encode_words A [stack_id] ++ rest) st =
      some ({ st with stack_id := stack_id, pgd := none }, rest) := by
  simp [elfbac_parse_state, encode_words, List.append_assoc, parse_ulong_store, h]

theorem parse_section_encode (A : Arch) (base size flags : Nat) (rest : List Byte)
    (h1 : base < ULONG_MOD A) (h2 : size < ULONG_MOD A) (h3 : flags < ULONG_MOD A) :
    elfbac_parse_section A (encode_words A [base, size, flags] ++ rest) =
      some ({ base := base, size := size, flags := flags }, rest) := by
  simp [elfbac_parse_section, encode_words, List.append_assoc, parse_ulong_store, h1, h2, h3]

theorem parse_data_transition_encode (A : Arch) (to_ from_ base size flags : Nat)
    (rest : List Byte)
    (h1 : to_ < ULONG_MOD A) (h2 : from_ < ULONG_MOD A) (h3 : base < ULONG_MOD A)
    (h4 : size < ULONG_MOD A) (h5 : flags < ULONG_MOD A) :
    elfbac_parse_data_transition A (encode_words A [to_, from_, base, size, flags] ++ rest) =
      some ({ to_ := to_, from_ := from_, base := base, size := size, flags := flags },
        rest) := by
  simp [elfbac_parse_data_transition, encode_words, List.append_assoc, parse_ulong_store,
    h1, h2, h3, h4, h5]

theorem parse_call_transition_encode (A : Arch)
    (to_ from_ address param_size return_size : Nat) (rest : List Byte)
    (h1 : to_ < ULONG_MOD A) (h2 : from_ < ULONG_MOD A) (h3 : address < ULONG_MOD A)
    (h4 : param_size < ULONG_MOD A) (h5 : return_size < ULONG_MOD A) :
    elfbac_parse_call_transition A
        (encode_words A [to_, from_, address, param_size, return_size] ++ rest) =
      some ({ to_ := to_, from_ := from_, address := address, param_size := param_size,
              return_size := return_size }, rest) := by
  simp [elfbac_parse_call_transition, encode_words, List.append_assoc, parse_ulong_store,
    h1, h2, h3, h4, h5]

theorem parse_state_some (A : Arch) (buf rest : List Byte) (st st1 : elfbac_state)
    (h : elfbac_parse_state A buf st = some (st1, rest)) :
    ∃ stack_id, stack_id < ULONG_MOD A ∧ buf = encode_words A [stack_id] ++ rest ∧
      st1 = { st with stack_id := stack_id, pgd := none } := by
  unfold elfbac_parse_state at h
  split at h
  · exact absurd h (by simp)
  · rename_i w b1 h1
    simp only [Option.some.injEq, Prod.mk.injEq] at h
    obtain ⟨e1, l1, -⟩ := parse_ulong_some A _ _ _ h1
    refine ⟨w, l1, ?_, h.1.symm⟩
    rw [e1, ← h.2]
    simp [encode_words]

theorem parse_section_some (A : Arch) (buf rest : List Byte) (sec : elfbac_section)
    (h : elfbac_parse_section A buf = some (sec, rest)) :
    sec.base < ULONG_MOD A ∧ sec.size < ULONG_MOD A ∧ sec.flags < ULONG_MOD A ∧
      buf = encode_words A [sec.base, sec.size, sec.flags] ++ rest := by
  unfold elfbac_parse_section at h
  split at h
  · exact absurd h (by simp)
  · rename_i w1 b1 h1
    split at h
    · exact absurd h (by simp)
    · rename_i w2 b2 h2
      split at h
      · exact absurd h (by simp)
      · rename_i w3 b3 h3
        simp only [Option.some.injEq, Prod.mk.injEq] at h
        obtain ⟨e1, l1, -⟩ := parse_ulong_some A _ _ _ h1
        obtain ⟨e2, l2, -⟩ := parse_ulong_some A _ _ _ h2
        obtain ⟨e3, l3, -⟩ := parse_ulong_some A _ _ _ h3
        obtain ⟨hs, hr⟩ := h
        subst hs
        subst hr
        refine ⟨l1, l2, l3, ?_⟩
        rw [e1, e2, e3]
        simp [encode_words]

theorem parse_data_transition_some (A : Arch) (buf rest : List Byte)
    (d : elfbac_data_transition)
    (h : elfbac_parse_data_transition A buf = some (d, rest)) :
    d.to_ < ULONG_MOD A ∧ d.from_ < ULONG_MOD A ∧ d.base < ULONG_MOD A ∧
      d.size < ULONG_MOD A ∧ d.flags < ULONG_MOD A ∧
      buf = encode_words A [d.to_, d.from_, d.base, d.size, d.flags] ++ rest := by
  unfold elfbac_parse_data_transition at h
  split at h
  · exact absurd h (by simp)
  · rename_i w1 b1 h1
    split at h
    · exact absurd h (by simp)
    · rename_i w2 b2 h2
      split at h
      · exact absurd h (by simp)
      · rename_i w3 b3 h3
        split at h
        · exact absurd h (by simp)
        · rename_i w4 b4 h4
          split at h
          · exact absurd h (by simp)
          · rename_i w5 b5 h5
            simp only [Option.some.injEq, Prod.mk.injEq] at h
            obtain ⟨e1, l1, -⟩ := parse_ulong_some A _ _ _ h1
            obtain ⟨e2, l2, -⟩ := parse_ulong_some A _ _ _ h2
            obtain ⟨e3, l3, -⟩ := parse_ulong_some A _ _ _ h3
            obtain ⟨e4, l4, -⟩ := parse_ulong_some A _ _ _ h4
            obtain ⟨e5, l5, -⟩ := parse_ulong_some A _ _ _ h5
            obtain ⟨hs, hr⟩ := h
            subst hs
            subst hr
            refine ⟨l1, l2, l3, l4, l5, ?_⟩
            rw [e1, e2, e3, e4, e5]
            simp [encode_words]

theorem parse_call_transition_some (A : Arch) (buf rest : List Byte)
    (c : elfbac_call_transition)
    (h : elfbac_parse_call_transition A buf = some (c, rest)) :
    c.to_ < ULONG_MOD A ∧ c.from_ < ULONG_MOD A ∧ c.address < ULONG_MOD A ∧
      c.param_size < ULONG_MOD A ∧ c.return_size < ULONG_MOD A ∧
      buf = encode_words A [c.to_, c.from_, c.address, c.param_size, c.return_size] ++
        rest := by
  unfold elfbac_parse_call_transition at h
  split at h
  · exact absurd h (by simp)
  · rename_i w1 b1 h1
    split at h
    · exact absurd h (by simp)
    · rename_i w2 b2 h2
      split at h
      · exact absurd h (by simp)
      · rename_i w3 b3 h3
        split at h
        · exact absurd h (by simp)
        · rename_i w4 b4 h4
          split at h
          · exact absurd h (by simp)
          · rename_i w5 b5 h5
            simp only [Option.some.injEq, Prod.mk.injEq] at h
            obtain ⟨e1, l1, -⟩ := parse_ulong_some A _ _ _ h1
            obtain ⟨e2, l2, -⟩ := parse_ulong_some A _ _ _ h2
            obtain ⟨e3, l3, -⟩ := parse_ulong_some A _ _ _ h3
            obtain ⟨e4, l4, -⟩ := parse_ulong_some A _ _ _ h4
            obtain ⟨e5, l5, -⟩ := parse_ulong_some A _ _ _ h5
            obtain ⟨hs, hr⟩ := h
            subst hs
            subst hr
            refine ⟨l1, l2, l3, l4, l5, ?_⟩
            rw [e1, e2, e3, e4, e5]
            simp [encode_words]

/-! ## One iteration of the loop, record by record -/

theorem ULONG_MOD_ge (A : Arch) : 256 ≤ ULONG_MOD A := by
  unfold ULONG_MOD
  calc 256 = 256 ^ 1 := by norm_num
    _ ≤ 256 ^ A.sizeof_ulong := Nat.pow_le_pow_right (by norm_num) A.sizeof_ulong_pos

theorem encode_words_cons (A : Arch) (w : Nat) (ws : List Nat) (rest : List Byte) :
    encode_words A (w :: ws) ++ rest =
      store_ulong A.sizeof_ulong w ++ (encode_words A ws ++ rest) := by
  simp [encode_words]

theorem parse_record_encode (A : Arch) (kmalloc : Nat → Bool) (r : wire_record)
    (rest : List Byte) (v : parse_vars) (hf : r.fits A) :
    parse_record A kmalloc (encode_words A r.words ++ rest) v =
      match record_step kmalloc v r with
      | .error (rv, v1, l) => .goto_out rv v1 l
      | .ok v1 => .next rest v1 := by
  have hM := ULONG_MOD_ge A
  cases r with
  | state stack_id =>
    simp only [wire_record.fits, wire_record.words, List.mem_cons, List.mem_singleton,
      List.not_mem_nil, or_false, forall_eq_or_imp, forall_eq] at hf
    obtain ⟨h0, h1⟩ := hf
    simp only [wire_record.words]
    rw [encode_words_cons]
    simp only [parse_record, parse_ulong_store A _ _ h0, record_step]
    rw [parse_state_encode A _ _ _ h1]
    by_cases hk : kmalloc v.nalloc = false <;> simp [hk, kmalloc_state]
  | section_ base size flags =>
    simp only [wire_record.fits, wire_record.words, List.mem_cons, List.mem_singleton,
      List.not_mem_nil, or_false, forall_eq_or_imp, forall_eq] at hf
    obtain ⟨h0, h1, h2, h3⟩ := hf
    simp only [wire_record.words]
    rw [encode_words_cons]
    simp only [parse_record, parse_ulong_store A _ _ h0, record_step]
    rw [parse_section_encode A _ _ _ _ h1 h2 h3]
    by_cases he : v.policy.states_list.isEmpty = true
    · simp [he]
    · by_cases hk : kmalloc v.nalloc = false <;> simp [hk, he]
  | data_transition to_ from_ base size flags =>
    simp only [wire_record.fits, wire_record.words, List.mem_cons, List.mem_singleton,
      List.not_mem_nil, or_false, forall_eq_or_imp, forall_eq] at hf
    obtain ⟨h0, h1, h2, h3, h4, h5⟩ := hf
    simp only [wire_record.words]
    rw [encode_words_cons]
    simp only [parse_record, parse_ulong_store A _ _ h0, record_step]
    rw [parse_data_transition_encode A _ _ _ _ _ _ h1 h2 h3 h4 h5]
    by_cases hk : kmalloc v.nalloc = false <;> simp [hk]
  | call_transition to_ from_ address param_size return_size =>
    simp only [wire_record.fits, wire_record.words, List.mem_cons, List.mem_singleton,
      List.not_mem_nil, or_false, forall_eq_or_imp, forall_eq] at hf
    obtain ⟨h0, h1, h2, h3, h4, h5⟩ := hf
    simp only [wire_record.words]
    rw [encode_words_cons]
    simp only [parse_record, parse_ulong_store A _ _ h0, record_step]
    rw [parse_call_transition_encode A _ _ _ _ _ _ h1 h2 h3 h4 h5]
    by_cases hk : kmalloc v.nalloc = false <;> simp [hk]

theorem parse_record_next (A : Arch) (kmalloc : Nat → Bool) (buf rest : List Byte)
    (v v1 : parse_vars) (h : parse_record A kmalloc buf v = .next rest v1) :
    ∃ r : wire_record, r.fits A ∧ buf = encode_words A r.words ++ rest := by
  have hM := ULONG_MOD_ge A
  unfold parse_record at h
  split at h
  · exact absurd h (by simp)
  · rename_i type b0 h0
    obtain ⟨e0, l0, -⟩ := parse_ulong_some A _ _ _ h0
    split at h
    · rename_i ht
      split at h
      · exact absurd h (by simp)
      · split at h
        · exact absurd h (by simp)
        · rename_i st b1 h1
          obtain ⟨sid, hs, e1, -⟩ := parse_state_some A _ _ _ _ h1
          simp only [iteration_exit.next.injEq] at h
          refine ⟨.state sid, ?_, ?_⟩
          · simp only [wire_record.fits, wire_record.words, List.mem_cons, List.mem_singleton,
              List.not_mem_nil, or_false, forall_eq_or_imp, forall_eq]
            exact ⟨by omega, hs⟩
          · rw [e0, e1, ht, ← h.1]
            simp [wire_record.words, encode_words]
    · split at h
      · rename_i ht
        split at h
        · exact absurd h (by simp)
        · split at h
          · exact absurd h (by simp)
          · split at h
            · exact absurd h (by simp)
            · rename_i sec b1 h1
              obtain ⟨l1, l2, l3, e1⟩ := parse_section_some A _ _ _ h1
              simp only [iteration_exit.next.injEq] at h
              refine ⟨.section_ sec.base sec.size sec.flags, ?_, ?_⟩
              · simp only [wire_record.fits, wire_record.words, List.mem_cons,
                  List.mem_singleton, List.not_mem_nil, or_false, forall_eq_or_imp, forall_eq]
                exact ⟨by omega, l1, l2, l3⟩
              · rw [e0, e1, ht, ← h.1]
                simp [wire_record.words, encode_words]
      · split at h
        · rename_i ht
          split at h
          · exact absurd h (by simp)
          · split at h
            · exact absurd h (by simp)
            · rename_i d b1 h1
              obtain ⟨l1, l2, l3, l4, l5, e1⟩ := parse_data_transition_some A _ _ _ h1
              simp only [iteration_exit.next.injEq] at h
              refine ⟨.data_transition d.to_ d.from_ d.base d.size d.flags, ?_, ?_⟩
              · simp only [wire_record.fits, wire_record.words, List.mem_cons,
                  List.mem_singleton, List.not_mem_nil, or_false, forall_eq_or_imp, forall_eq]
                exact ⟨by omega, l1, l2, l3, l4, l5⟩
              · rw [e0, e1, ht, ← h.1]
                simp [wire_record.words, encode_words]
        · split at h
          · rename_i ht
            split at h
            · exact absurd h (by simp)
            · split at h
              · exact absurd h (by simp)
              · rename_i c b1 h1
                obtain ⟨l1, l2, l3, l4, l5, e1⟩ := parse_call_transition_some A _ _ _ h1
                simp only [iteration_exit.next.injEq] at h
                refine ⟨.call_transition c.to_ c.from_ c.address c.param_size c.return_size,
                  ?_, ?_⟩
                · simp only [wire_record.fits, wire_record.words, List.mem_cons,
                    List.mem_singleton, List.not_mem_nil, or_false, forall_eq_or_imp,
                    forall_eq]
                  exact ⟨by omega, l1, l2, l3, l4, l5⟩
                · rw [e0, e1, ht, ← h.1]
                  simp [wire_record.words, encode_words]
          · exact absurd h (by simp)

theorem parse_record_next_step (A : Arch) (kmalloc : Nat → Bool) (buf rest : List Byte)
    (v v1 : parse_vars) (h : parse_record A kmalloc buf v = .next rest v1) :
    ∃ r : wire_record, r.fits A ∧ buf = encode_words A r.words ++ rest ∧
      record_step kmalloc v r = .ok v1 := by
  obtain ⟨r, hf, hb⟩ := parse_record_next A kmalloc buf rest v v1 h
  refine ⟨r, hf, hb, ?_⟩
  have h2 := parse_record_encode A kmalloc r rest v hf
  rw [← hb, h] at h2
  split at h2
  · exact absurd h2 (by simp)
  · rename_i v2 heq
    simp only [iteration_exit.next.injEq, true_and] at h2
    rw [heq, h2]

theorem words_length_pos (r : wire_record) : 0 < r.words.length := by
  cases r <;> simp [wire_record.words]

theorem encode_record_length_pos (A : Arch) (r : wire_record) :
    0 < (encode_words A r.words).length := by
  rw [encode_words_length]
  exact Nat.mul_pos (words_length_pos r) A.sizeof_ulong_pos

theorem parse_record_next_length (A : Arch) (kmalloc : Nat → Bool) (buf rest : List Byte)
    (v v1 : parse_vars) (h : parse_record A kmalloc buf v = .next rest v1) :
    rest.length < buf.length := by
  obtain ⟨r, -, hb⟩ := parse_record_next A kmalloc buf rest v v1 h
  have := encode_record_length_pos A r
  rw [hb, List.length_append]
  omega

/-! ## The whole loop -/

theorem parse_loop_returns (A : Arch) (kmalloc : Nat → Bool) (fuel : Nat) :
    ∀ (buf : List Byte) (v : parse_vars), buf.length ≤ fuel →
      ∃ e, parse_loop A kmalloc fuel buf v = some e := by
  induction fuel with
  | zero =>
    intro buf v h
    have h0 : buf.length = 0 := by omega
    exact ⟨.finished v, by simp [parse_loop, h0]⟩
  | succ fuel ih =>
    intro buf v h
    by_cases h0 : buf.length = 0
    · exact ⟨.finished v, by simp [parse_loop, h0]⟩
    · cases hr : parse_record A kmalloc buf v with
      | goto_out rv v1 l => exact ⟨.goto_out rv v1 l, by simp [parse_loop, h0, hr]⟩
      | next rest v1 =>
        have hl := parse_record_next_length A kmalloc buf rest v v1 hr
        obtain ⟨e, he⟩ := ih rest v1 (by omega)
        exact ⟨e, by simp [parse_loop, h0, hr, he]⟩

theorem parse_loop_fuel_succ (A : Arch) (kmalloc : Nat → Bool) (fuel : Nat) :
    ∀ (buf : List Byte) (v : parse_vars) (e : loop_exit),
      parse_loop A kmalloc fuel buf v = some e →
      parse_loop A kmalloc (fuel + 1) buf v = some e := by
  induction fuel with
  | zero =>
    intro buf v e h
    by_cases h0 : buf.length = 0
    · simpa [parse_loop, h0] using h
    · simp [parse_loop, h0] at h
  | succ fuel ih =>
    intro buf v e h
    by_cases h0 : buf.length = 0
    · simpa [parse_loop, h0] using h
    · rw [parse_loop, if_neg h0] at h
      rw [parse_loop, if_neg h0]
      cases hr : parse_record A kmalloc buf v with
      | goto_out rv v1 l => simpa [hr] using h
      | next rest v1 =>
        rw [hr] at h
        exact ih rest v1 e h

theorem parse_loop_fuel_le (A : Arch) (kmalloc : Nat → Bool) (f1 f2 : Nat) (h : f1 ≤ f2)
    (buf : List Byte) (v : parse_vars) (e : loop_exit)
    (h1 : parse_loop A kmalloc f1 buf v = some e) :
    parse_loop A kmalloc f2 buf v = some e := by
  induction h with
  | refl => exact h1
  | step _ ih => exact parse_loop_fuel_succ A kmalloc _ buf v e ih

theorem parse_loop_fuel_eq (A : Arch) (kmalloc : Nat → Bool) (f1 f2 : Nat)
    (buf : List Byte) (v : parse_vars) (e1 e2 : loop_exit)
    (h1 : parse_loop A kmalloc f1 buf v = some e1)
    (h2 : parse_loop A kmalloc f2 buf v = some e2) : e1 = e2 := by
  rcases Nat.le_total f1 f2 with h | h
  · have := parse_loop_fuel_le A kmalloc f1 f2 h buf v e1 h1
    rw [h2] at this
    exact (Option.some.inj this).symm
  · have := parse_loop_fuel_le A kmalloc f2 f1 h buf v e2 h2
    rw [h1] at this
    exact Option.some.inj this

theorem parse_loop_encode (A : Arch) (kmalloc : Nat → Bool) (recs : List wire_record) :
    ∀ (fuel : Nat) (tail : List Byte) (v : parse_vars), (∀ r ∈ recs, r.fits A) →
      parse_loop A kmalloc (recs.length + fuel) (encode_records A recs ++ tail) v =
        match run_records kmalloc v recs with
        | .error (rv, v1, l) => some (.goto_out rv v1 l)
        | .ok v1 => parse_loop A kmalloc fuel tail v1 := by
  induction recs with
  | nil =>
    intro fuel tail v _
    simp [encode_records, run_records]
  | cons r rs ih =>
    intro fuel tail v hf
    have hr : r.fits A := hf r (List.mem_cons_self _ _)
    have hrs : ∀ x ∈ rs, x.fits A := fun x hx => hf x (List.mem_cons_of_mem _ hx)
    have hpos := encode_record_length_pos A r
    have hne : ¬ (encode_records A (r :: rs) ++ tail).length = 0 := by
      simp only [encode_records, List.length_append]
      omega
    have hfuel : (r :: rs).length + fuel = (rs.length + fuel) + 1 := by
      simp only [List.length_cons]
      omega
    rw [hfuel, parse_loop, if_neg hne]
    have hb : encode_records A (r :: rs) ++ tail =
        encode_words A r.words ++ (encode_records A rs ++ tail) := by
      simp [encode_records]
    rw [hb, parse_record_encode A kmalloc r _ v hr]
    simp only [run_records]
    cases hs : record_step kmalloc v r with
    | error e =>
      obtain ⟨rv, v1, l⟩ := e
      rfl
    | ok v1 => exact ih fuel tail v1 hrs

theorem parse_loop_finished (A : Arch) (kmalloc : Nat → Bool) (fuel : Nat) :
    ∀ (buf : List Byte) (v v1 : parse_vars),
      parse_loop A kmalloc fuel buf v = some (.finished v1) →
      ∃ recs : List wire_record, (∀ r ∈ recs, r.fits A) ∧ buf = encode_records A recs ∧
        run_records kmalloc v recs = .ok v1 := by
  induction fuel with
  | zero =>
    intro buf v v1 h
    by_cases h0 : buf.length = 0
    · simp only [parse_loop, h0, if_true, Option.some.injEq, loop_exit.finished.injEq] at h
      refine ⟨[], by simp, ?_, by simp [run_records, h]⟩
      simpa [encode_records] using h0
    · simp [parse_loop, h0] at h
  | succ fuel ih =>
    intro buf v v1 h
    by_cases h0 : buf.length = 0
    · simp only [parse_loop, h0, if_true, Option.some.injEq, loop_exit.finished.injEq] at h
      refine ⟨[], by simp, ?_, by simp [run_records, h]⟩
      simpa [encode_records] using h0
    · rw [parse_loop, if_neg h0] at h
      cases hr : parse_record A kmalloc buf v with
      | goto_out rv v2 l => simp [hr] at h
      | next rest v2 =>
        rw [hr] at h
        obtain ⟨r, hf, hb, hs⟩ := parse_record_next_step A kmalloc buf rest v v2 hr
        obtain ⟨recs, hfs, hbs, hrun⟩ := ih rest v2 v1 h
        refine ⟨r :: recs, ?_, ?_, ?_⟩
        · intro x hx
          rcases List.mem_cons.mp hx with rfl | hx
          · exact hf
          · exact hfs x hx
        · rw [hb, hbs]
          simp [encode_records]
        · simp [run_records, hs, hrun]

theorem parse_record_goto_out (A : Arch) (kmalloc : Nat → Bool) (buf : List Byte)
    (v v1 : parse_vars) (rv : Int) (l : parse_locals)
    (h : parse_record A kmalloc buf v = .goto_out rv v1 l) :
    rv = -EINVAL ∨ rv = -ENOMEM := by
  unfold parse_record at h
  repeat' split at h
  all_goals
    first
    | (injection h with h1
       first
       | exact Or.inl h1.symm
       | exact Or.inr h1.symm)
    | cases h

theorem parse_loop_goto_out (A : Arch) (kmalloc : Nat → Bool) (fuel : Nat) :
    ∀ (buf : List Byte) (v v1 : parse_vars) (rv : Int) (l : parse_locals),
      parse_loop A kmalloc fuel buf v = some (.goto_out rv v1 l) →
      rv = -EINVAL ∨ rv = -ENOMEM := by
  induction fuel with
  | zero =>
    intro buf v v1 rv l h
    by_cases h0 : buf.length = 0 <;> simp [parse_loop, h0] at h
  | succ fuel ih =>
    intro buf v v1 rv l h
    by_cases h0 : buf.length = 0
    · simp [parse_loop, h0] at h
    · rw [parse_loop, if_neg h0] at h
      cases hr : parse_record A kmalloc buf v with
      | goto_out rv2 v2 l2 =>
        rw [hr] at h
        simp only [Option.some.injEq, loop_exit.goto_out.injEq] at h
        have := parse_record_goto_out A kmalloc buf v v2 rv2 l2 hr
        rw [← h.1]
        exact this
      | next rest v2 =>
        rw [hr] at h
        exact ih rest v2 v1 rv l h

theorem neg_EINVAL_ne_zero : (-EINVAL : Int) ≠ 0 := by decide

theorem neg_ENOMEM_ne_zero : (-ENOMEM : Int) ≠ 0 := by decide

/-- The variables of the record loop at its first iteration. -/
theorem parse_loop_serial (A : Arch) (kmalloc : Nat → Bool) (recs : List wire_record)
    (v : parse_vars) (hf : ∀ r ∈ recs, r.fits A) :
    parse_loop A kmalloc (encode_records A recs).length (encode_records A recs) v =
      some (match run_records kmalloc v recs with
        | .error (rv, v1, l) => .goto_out rv v1 l
        | .ok v1 => .finished v1) := by
  obtain ⟨e, he⟩ := parse_loop_returns A kmalloc (encode_records A recs).length
    (encode_records A recs) v (Nat.le_refl _)
  have h2 := parse_loop_encode A kmalloc recs 0 [] v hf
  rw [List.append_nil] at h2
  rw [he]
  cases hrun : run_records kmalloc v recs with
  | error x =>
    obtain ⟨rv, v1, l⟩ := x
    rw [hrun] at h2
    simp only at h2
    exact congrArg some (parse_loop_fuel_eq A kmalloc _ _ _ v _ _ he h2)
  | ok v1 =>
    rw [hrun] at h2
    simp only [parse_loop, List.length_nil, if_true] at h2
    exact congrArg some (parse_loop_fuel_eq A kmalloc _ _ _ v _ _ he h2)

theorem parse_policy_returns (A : Arch) (access_ok : Nat → Nat → Nat → Bool)
    (kmalloc : Nat → Bool) (buf : List Byte) (out : policy_object) :
    ∃ r, elfbac_parse_policy A access_ok kmalloc buf out = some r := by
  unfold elfbac_parse_policy
  cases h0 : parse_ulong A buf with
  | none => exact ⟨_, rfl⟩
  | some x =>
    obtain ⟨ns, b1⟩ := x
    obtain ⟨e, he⟩ := parse_loop_returns A kmalloc b1.length b1
      { policy := init_policy ns, cur_state_id := 0, nalloc := 0 } (Nat.le_refl _)
    simp only [he]
    cases e with
    | goto_out rv v1 l => exact ⟨_, rfl⟩
    | finished v1 =>
      by_cases hv : elfbac_validate_policy A access_ok v1.policy ≠ 0
      · simp only [if_pos hv]
        exact ⟨_, rfl⟩
      · simp only [if_neg hv]
        exact ⟨_, rfl⟩

theorem parse_policy_accept (A : Arch) (access_ok : Nat → Nat → Nat → Bool)
    (kmalloc : Nat → Bool) (buf : List Byte) (out : policy_object) (r : parse_outcome)
    (h : elfbac_parse_policy A access_ok kmalloc buf out = some r) (hr : r.retval = 0) :
    ∃ (num_stacks : Nat) (recs : List wire_record) (v1 : parse_vars),
      num_stacks < ULONG_MOD A ∧ (∀ x ∈ recs, x.fits A) ∧
      buf = serialize A num_stacks recs ∧
      run_records kmalloc { policy := init_policy num_stacks, cur_state_id := 0, nalloc := 0 }
        recs = .ok v1 ∧
      elfbac_validate_policy A access_ok v1.policy = 0 ∧
      r.out = .head_copy { v1.policy with current_state := some 0 } ∧
      r.policy = { v1.policy with current_state := some 0 } ∧
      r.locals = no_locals ∧ r.nalloc = v1.nalloc := by
  unfold elfbac_parse_policy at h
  cases h0 : parse_ulong A buf with
  | none =>
    rw [h0] at h
    simp only [Option.some.injEq] at h
    rw [← h] at hr
    exact absurd hr neg_EINVAL_ne_zero
  | some x =>
    obtain ⟨ns, b1⟩ := x
    rw [h0] at h
    simp only at h
    obtain ⟨e0, l0, -⟩ := parse_ulong_some A _ _ _ h0
    cases hl : parse_loop A kmalloc b1.length b1
        { policy := init_policy ns, cur_state_id := 0, nalloc := 0 } with
    | none => simp [hl] at h
    | some e =>
      rw [hl] at h
      cases e with
      | goto_out rv v1 l =>
        simp only [Option.some.injEq] at h
        rw [← h] at hr
        simp only at hr
        rcases parse_loop_goto_out A kmalloc _ _ _ _ _ _ hl with h1 | h1
        · rw [h1] at hr
          exact absurd hr neg_EINVAL_ne_zero
        · rw [h1] at hr
          exact absurd hr neg_ENOMEM_ne_zero
      | finished v1 =>
        simp only at h
        obtain ⟨recs, hfs, hbs, hrun⟩ := parse_loop_finished A kmalloc _ _ _ _ hl
        by_cases hv : elfbac_validate_policy A access_ok v1.policy ≠ 0
        · rw [if_pos hv] at h
          simp only [Option.some.injEq] at h
          rw [← h] at hr
          exact absurd hr neg_EINVAL_ne_zero
        · rw [if_neg hv] at h
          simp only [Option.some.injEq] at h
          refine ⟨ns, recs, v1, l0, hfs, ?_, hrun, not_not.mp hv, ?_, ?_, ?_, ?_⟩
          · rw [e0, hbs]
            rfl
          · rw [← h]
          · rw [← h]
          · rw [← h]
          · rw [← h]

theorem parse_policy_serialize (A : Arch) (access_ok : Nat → Nat → Nat → Bool)
    (kmalloc : Nat → Bool) (num_stacks : Nat) (recs : List wire_record) (out : policy_object)
    (hn : num_stacks < ULONG_MOD A) (hf : ∀ r ∈ recs, r.fits A) :
    elfbac_parse_policy A access_ok kmalloc (serialize A num_stacks recs) out =
      some (match run_records kmalloc
          { policy := init_policy num_stacks, cur_state_id := 0, nalloc := 0 } recs with
        | .error (rv, v1, l) =>
          { retval := rv, out := out, policy := v1.policy, locals := l, nalloc := v1.nalloc }
        | .ok v1 =>
          if elfbac_validate_policy A access_ok v1.policy ≠ 0 then
            { retval := -EINVAL, out := out, policy := v1.policy, locals := no_locals,
              nalloc := v1.nalloc }
          else
            { retval := 0, out := .head_copy { v1.policy with current_state := some 0 },
              policy := { v1.policy with current_state := some 0 }, locals := no_locals,
              nalloc := v1.nalloc }) := by
  unfold elfbac_parse_policy serialize
  rw [parse_ulong_store A _ _ hn]
  simp only
  rw [parse_loop_serial A kmalloc recs _ hf]
  cases hrun : run_records kmalloc
      { policy := init_policy num_stacks, cur_state_id := 0, nalloc := 0 } recs with
  | error x =>
    obtain ⟨rv, v1, l⟩ := x
    rfl
  | ok v1 =>
    simp only
    by_cases hv : elfbac_validate_policy A access_ok v1.policy ≠ 0
    · simp only [if_pos hv]
    · simp only [if_neg hv]

/-! ## What the loop builds from a record sequence -/

theorem add_section_append_singleton (l : List elfbac_state) (st : elfbac_state)
    (sec : elfbac_section) :
    add_section_to_last_state (l ++ [st]) sec =
      l ++ [{ st with sections_list := st.sections_list ++ [sec] }] := by
  induction l with
  | nil => rfl
  | cons a l ih =>
    cases l with
    | nil => rfl
    | cons b l =>
      simp only [List.cons_append] at ih ⊢
      simp only [add_section_to_last_state, ih]

theorem add_sections_nil (secs : List elfbac_section) :
    secs.foldl add_section_to_last_state [] = [] := by
  induction secs with
  | nil => rfl
  | cons a secs ih => simpa [List.foldl, add_section_to_last_state] using ih

theorem add_sections_append_singleton (secs : List elfbac_section) :
    ∀ (l : List elfbac_state) (st : elfbac_state),
      secs.foldl add_section_to_last_state (l ++ [st]) =
        l ++ [{ st with sections_list := st.sections_list ++ secs }] := by
  induction secs with
  | nil => intro l st; simp
  | cons a secs ih =>
    intro l st
    simp only [List.foldl, add_section_append_singleton, ih]
    simp

theorem run_records_lists (kmalloc : Nat → Bool) (recs : List wire_record) :
    ∀ (v v1 : parse_vars), run_records kmalloc v recs = .ok v1 →
      v1.policy.num_stacks = v.policy.num_stacks ∧
      v1.policy.current_state = v.policy.current_state ∧
      v1.policy.states_list =
        (sections_until_state recs).foldl add_section_to_last_state v.policy.states_list ++
          states_of_records v.cur_state_id recs ∧
      v1.policy.data_transitions_list =
        v.policy.data_transitions_list ++ data_transitions_of_records recs ∧
      v1.policy.call_transitions_list =
        v.policy.call_transitions_list ++ call_transitions_of_records recs := by
  induction recs with
  | nil =>
    intro v v1 h
    simp only [run_records, Except.ok.injEq] at h
    subst h
    simp [sections_until_state, states_of_records, data_transitions_of_records,
      call_transitions_of_records]
  | cons r rs ih =>
    intro v v1 h
    simp only [run_records] at h
    cases hs : record_step kmalloc v r with
    | error e => simp [hs] at h
    | ok v2 =>
      rw [hs] at h
      simp only at h
      obtain ⟨i1, i2, i3, i4, i5⟩ := ih v2 v1 h
      cases r with
      | state stack_id =>
        simp only [record_step] at hs
        split at hs
        · exact absurd hs (by simp)
        · simp only [Except.ok.injEq] at hs
          subst hs
          simp only at i1 i2 i3 i4 i5
          refine ⟨i1, i2, ?_, ?_, ?_⟩
          · rw [i3, add_sections_append_singleton]
            simp [sections_until_state, states_of_records]
          · simpa [data_transitions_of_records] using i4
          · simpa [call_transitions_of_records] using i5
      | section_ base size flags =>
        simp only [record_step] at hs
        split at hs
        · exact absurd hs (by simp)
        · split at hs
          · exact absurd hs (by simp)
          · simp only [Except.ok.injEq] at hs
            subst hs
            simp only at i1 i2 i3 i4 i5
            refine ⟨i1, i2, ?_, ?_, ?_⟩
            · rw [i3]
              simp [sections_until_state, states_of_records]
            · simpa [data_transitions_of_records] using i4
            · simpa [call_transitions_of_records] using i5
      | data_transition to_ from_ base size flags =>
        simp only [record_step] at hs
        split at hs
        · exact absurd hs (by simp)
        · simp only [Except.ok.injEq] at hs
          subst hs
          simp only at i1 i2 i3 i4 i5
          refine ⟨i1, i2, ?_, ?_, ?_⟩
          · rw [i3]
            simp [sections_until_state, states_of_records]
          · simpa [data_transitions_of_records] using i4
          · simpa [call_transitions_of_records] using i5
      | call_transition to_ from_ address param_size return_size =>
        simp only [record_step] at hs
        split at hs
        · exact absurd hs (by simp)
        · simp only [Except.ok.injEq] at hs
          subst hs
          simp only at i1 i2 i3 i4 i5
          refine ⟨i1, i2, ?_, ?_, ?_⟩
          · rw [i3]
            simp [sections_until_state, states_of_records]
          · simpa [data_transitions_of_records] using i4
          · simpa [call_transitions_of_records] using i5

theorem run_records_init_lists (kmalloc : Nat → Bool) (recs : List wire_record)
    (num_stacks : Nat) (v1 : parse_vars)
    (h : run_records kmalloc
      { policy := init_policy num_stacks, cur_state_id := 0, nalloc := 0 } recs = .ok v1) :
    v1.policy = { num_stacks := num_stacks, states_list := states_of_records 0 recs,
                  data_transitions_list := data_transitions_of_records recs,
                  call_transitions_list := call_transitions_of_records recs,
                  current_state := none } := by
  obtain ⟨i1, i2, i3, i4, i5⟩ := run_records_lists kmalloc recs _ v1 h
  simp only [init_policy, add_sections_nil, List.nil_append] at i1 i2 i3 i4 i5
  cases hp : v1.policy with
  | mk a b c d e =>
    rw [hp] at i1 i2 i3 i4 i5
    simp only at i1 i2 i3 i4 i5
    rw [i1, i2, i3, i4, i5]

/-! ## The record code is uniquely decodable -/

theorem store_append_inj (A : Arch) (a b : Nat) (X Y : List Byte)
    (ha : a < ULONG_MOD A) (hb : b < ULONG_MOD A) :
    store_ulong A.sizeof_ulong a ++ X = store_ulong A.sizeof_ulong b ++ Y ↔ a = b ∧ X = Y := by
  constructor
  · intro h
    have hl : (store_ulong A.sizeof_ulong a).length = (store_ulong A.sizeof_ulong b).length := by
      simp [store_ulong_length]
    obtain ⟨h1, h2⟩ := List.append_inj h hl
    refine ⟨?_, h2⟩
    have := congrArg load_ulong h1
    rwa [load_store _ _ ha, load_store _ _ hb] at this
  · rintro ⟨rfl, rfl⟩
    rfl

theorem encode_record_inj (A : Arch) (r r1 : wire_record) (x y : List Byte)
    (hf : r.fits A) (hf1 : r1.fits A)
    (h : encode_words A r.words ++ x = encode_words A r1.words ++ y) : r = r1 ∧ x = y := by
  have hM := ULONG_MOD_ge A
  have t1 : 1 < ULONG_MOD A := by omega
  have t2 : 2 < ULONG_MOD A := by omega
  have t3 : 3 < ULONG_MOD A := by omega
  have t4 : 4 < ULONG_MOD A := by omega
  cases r <;> cases r1 <;>
    simp only [wire_record.fits, wire_record.words, List.mem_cons, List.mem_singleton,
      List.not_mem_nil, or_false, forall_eq_or_imp, forall_eq] at hf hf1 <;>
    simp only [wire_record.words, encode_words, List.append_assoc, List.nil_append] at h <;>
    simp [store_append_inj, *] at h ⊢ <;>
    simp [*]

theorem encode_records_length_mod (A : Arch) (recs : List wire_record) :
    (encode_records A recs).length % A.sizeof_ulong = 0 := by
  induction recs with
  | nil => simp [encode_records]
  | cons r rs ih =>
    simp only [encode_records, List.length_append, encode_words_length]
    rw [Nat.add_mod, ih]
    simp

theorem well_framed_length (A : Arch) (buf : List Byte) (h : well_framed A buf) :
    A.sizeof_ulong ≤ buf.length ∧ buf.length % A.sizeof_ulong = 0 := by
  obtain ⟨ns, recs, -, -, rfl⟩ := h
  have h1 := encode_records_length_mod A recs
  simp only [serialize, List.length_append, store_ulong_length]
  refine ⟨by omega, ?_⟩
  rw [Nat.add_mod, h1]
  simp

/-! ## Buffers that end in something that is not a record -/

theorem run_records_error_code (kmalloc : Nat → Bool) (recs : List wire_record) :
    ∀ (v v1 : parse_vars) (rv : Int) (l : parse_locals),
      run_records kmalloc v recs = .error (rv, v1, l) → rv = -EINVAL ∨ rv = -ENOMEM := by
  induction recs with
  | nil => intro v v1 rv l h; simp [run_records] at h
  | cons r rs ih =>
    intro v v1 rv l h
    simp only [run_records] at h
    cases hs : record_step kmalloc v r with
    | ok v2 =>
      rw [hs] at h
      exact ih v2 v1 rv l h
    | error e =>
      rw [hs] at h
      simp only [Except.error.injEq] at h
      subst h
      cases r <;> simp only [record_step] at hs <;> repeat' split at hs
      all_goals
        first
        | (injection hs with h1
           injection h1 with h2
           first
           | exact Or.inl h2.symm
           | exact Or.inr h2.symm)
        | cases hs

theorem parse_policy_bad_tail (A : Arch) (access_ok : Nat → Nat → Nat → Bool)
    (kmalloc : Nat → Bool) (num_stacks : Nat) (recs : List wire_record) (tail : List Byte)
    (out : policy_object) (hn : num_stacks < ULONG_MOD A) (hf : ∀ r ∈ recs, r.fits A)
    (ht : tail ≠ [])
    (hbad : ∀ v1, run_records kmalloc
        { policy := init_policy num_stacks, cur_state_id := 0, nalloc := 0 } recs = .ok v1 →
      ∃ rv v2 l, parse_record A kmalloc tail v1 = .goto_out rv v2 l) :
    ∃ r, elfbac_parse_policy A access_ok kmalloc (serialize A num_stacks recs ++ tail) out =
        some r ∧ r.out = out ∧
      ((∃ rv v1 l, run_records kmalloc
          { policy := init_policy num_stacks, cur_state_id := 0, nalloc := 0 } recs =
            .error (rv, v1, l) ∧ r.retval = rv) ∨
       (∃ v1 rv v2 l, run_records kmalloc
          { policy := init_policy num_stacks, cur_state_id := 0, nalloc := 0 } recs = .ok v1 ∧
            parse_record A kmalloc tail v1 = .goto_out rv v2 l ∧ r.retval = rv)) := by
  have hlen : tail.length ≠ 0 := by
    intro h
    exact ht (List.length_eq_zero.mp h)
  unfold elfbac_parse_policy serialize
  rw [List.append_assoc, parse_ulong_store A _ _ hn]
  simp only
  obtain ⟨e, he⟩ := parse_loop_returns A kmalloc (encode_records A recs ++ tail).length
    (encode_records A recs ++ tail)
    { policy := init_policy num_stacks, cur_state_id := 0, nalloc := 0 } (Nat.le_refl _)
  have h2 := parse_loop_encode A kmalloc recs 1 tail
    { policy := init_policy num_stacks, cur_state_id := 0, nalloc := 0 } hf
  rw [he]
  cases hrun : run_records kmalloc
      { policy := init_policy num_stacks, cur_state_id := 0, nalloc := 0 } recs with
  | error x =>
    obtain ⟨rv, v1, l⟩ := x
    rw [hrun] at h2
    simp only at h2
    have := parse_loop_fuel_eq A kmalloc _ _ _ _ _ _ he h2
    subst this
    exact ⟨_, rfl, rfl, Or.inl ⟨rv, v1, l, rfl, rfl⟩⟩
  | ok v1 =>
    rw [hrun] at h2
    simp only at h2
    obtain ⟨rv, v2, l, hp⟩ := hbad v1 hrun
    have h3 : parse_loop A kmalloc 1 tail v1 = some (.goto_out rv v2 l) := by
      rw [parse_loop, if_neg hlen, hp]
    rw [h3] at h2
    have := parse_loop_fuel_eq A kmalloc _ _ _ _ _ _ he h2
    subst this
    exact ⟨_, rfl, rfl, Or.inr ⟨v1, rv, v2, l, rfl, hp, rfl⟩⟩

theorem parse_policy_bad_tail_nonzero (A : Arch) (access_ok : Nat → Nat → Nat → Bool)
    (kmalloc : Nat → Bool) (num_stacks : Nat) (recs : List wire_record) (tail : List Byte)
    (out : policy_object) (hn : num_stacks < ULONG_MOD A) (hf : ∀ r ∈ recs, r.fits A)
    (ht : tail ≠ [])
    (hbad : ∀ v1, run_records kmalloc
        { policy := init_policy num_stacks, cur_state_id := 0, nalloc := 0 } recs = .ok v1 →
      ∃ rv v2 l, parse_record A kmalloc tail v1 = .goto_out rv v2 l) :
    ∃ r, elfbac_parse_policy A access_ok kmalloc (serialize A num_stacks recs ++ tail) out =
        some r ∧ r.retval ≠ 0 := by
  obtain ⟨r, hr, -, h⟩ := parse_policy_bad_tail A access_ok kmalloc num_stacks recs tail out
    hn hf ht hbad
  refine ⟨r, hr, ?_⟩
  rcases h with ⟨rv, v1, l, hrun, hrv⟩ | ⟨v1, rv, v2, l, -, hp, hrv⟩
  · rw [hrv]
    rcases run_records_error_code kmalloc recs _ _ _ _ hrun with h | h <;> rw [h] <;> decide
  · rw [hrv]
    rcases parse_record_goto_out A kmalloc _ _ _ _ _ hp with h | h <;> rw [h] <;> decide

theorem parse_record_unknown_tag (A : Arch) (kmalloc : Nat → Bool) (tag : Nat)
    (rest : List Byte) (v : parse_vars) (ht : tag < ULONG_MOD A)
    (h1 : tag ≠ 1) (h2 : tag ≠ 2) (h3 : tag ≠ 3) (h4 : tag ≠ 4) :
    parse_record A kmalloc (store_ulong A.sizeof_ulong tag ++ rest) v =
      .goto_out (-EINVAL) v no_locals := by
  simp [parse_record, parse_ulong_store A _ _ ht, h1, h2, h3, h4]

theorem parse_record_cut_short (A : Arch) (kmalloc : Nat → Bool) (r : wire_record)
    (t u : List Byte) (v : parse_vars) (hf : r.fits A) (hu : u ≠ [])
    (h : encode_words A r.words = t ++ u) :
    ∃ rv v2 l, parse_record A kmalloc t v = .goto_out rv v2 l := by
  cases hp : parse_record A kmalloc t v with
  | goto_out rv v2 l => exact ⟨rv, v2, l, rfl⟩
  | next rest v1 =>
    exfalso
    obtain ⟨r1, hf1, hb⟩ := parse_record_next A kmalloc t rest v v1 hp
    have h2 : encode_words A r.words ++ [] = encode_words A r1.words ++ (rest ++ u) := by
      rw [List.append_nil, h, hb, List.append_assoc]
    obtain ⟨-, h3⟩ := encode_record_inj A r r1 _ _ hf hf1 h2
    have : u = [] := (List.append_eq_nil.mp h3.symm).2
    exact hu this

theorem states_of_records_ids (recs : List wire_record) :
    ∀ k, (states_of_records k recs).map (fun st => st.id) =
      List.range' k (states_of_records k recs).length := by
  induction recs with
  | nil => intro k; simp [states_of_records]
  | cons r rs ih =>
    intro k
    cases r <;> simp [states_of_records, List.range'_succ, ih]

theorem parse_policy_out (A : Arch) (access_ok : Nat → Nat → Nat → Bool)
    (kmalloc : Nat → Bool) (buf : List Byte) (out : policy_object) (r : parse_outcome)
    (h : elfbac_parse_policy A access_ok kmalloc buf out = some r) :
    (r.retval ≠ 0 → r.out = out) ∧ (r.retval = 0 → r.out = .head_copy r.policy) := by
  unfold elfbac_parse_policy at h
  split at h
  · simp only [Option.some.injEq] at h
    subst h
    exact ⟨fun _ => rfl, fun h => absurd h neg_EINVAL_ne_zero⟩
  · split at h
    · exact absurd h (by simp)
    · rename_i rv v l hl
      simp only [Option.some.injEq] at h
      subst h
      refine ⟨fun _ => rfl, fun h => ?_⟩
      simp only at h
      rcases parse_loop_goto_out A kmalloc _ _ _ _ _ _ hl with h1 | h1
      · rw [h1] at h
        exact absurd h neg_EINVAL_ne_zero
      · rw [h1] at h
        exact absurd h neg_ENOMEM_ne_zero
    · split at h
      · simp only [Option.some.injEq] at h
        subst h
        exact ⟨fun _ => rfl, fun h => absurd h neg_EINVAL_ne_zero⟩
      · simp only [Option.some.injEq] at h
        subst h
        exact ⟨fun h => absurd rfl h, fun _ => rfl⟩

/-! ## The validator -/

theorem validate_states_some (access_ok : Nat → Nat → Nat → Bool) (num_stacks : Nat)
    (l : List elfbac_state) :
    ∀ n m, validate_states access_ok num_stacks l n = some m →
      m = n + l.length ∧
      ∀ st ∈ l, st.stack_id < num_stacks ∧
        validate_sections access_ok st.sections_list = false := by
  induction l with
  | nil =>
    intro n m h
    simp only [validate_states, Option.some.injEq] at h
    simp [h]
  | cons st rest ih =>
    intro n m h
    simp only [validate_states] at h
    split at h
    · exact absurd h (by simp)
    · rename_i h1
      split at h
      · exact absurd h (by simp)
      · rename_i h2
        obtain ⟨e, hall⟩ := ih (n + 1) m h
        refine ⟨by simp only [List.length_cons]; omega, ?_⟩
        intro x hx
        rcases List.mem_cons.mp hx with rfl | hx
        · exact ⟨by omega, by simpa using h2⟩
        · exact hall x hx

theorem validate_policy_codes (A : Arch) (access_ok : Nat → Nat → Nat → Bool)
    (p : elfbac_policy) :
    elfbac_validate_policy A access_ok p = 0 ∨ elfbac_validate_policy A access_ok p = -EINVAL := by
  unfold elfbac_validate_policy
  repeat' split
  all_goals first | exact Or.inl rfl | exact Or.inr rfl

theorem validate_policy_accept (A : Arch) (access_ok : Nat → Nat → Nat → Bool)
    (p : elfbac_policy) (h : elfbac_validate_policy A access_ok p = 0) :
    p.states_list ≠ [] ∧ (∀ st ∈ p.states_list, st.stack_id < p.num_stacks) ∧
      p.num_stacks ≤ p.states_list.length := by
  unfold elfbac_validate_policy at h
  split at h
  · exact absurd h neg_EINVAL_ne_zero
  · rename_i m hm
    obtain ⟨e, hall⟩ := validate_states_some access_ok _ _ _ _ hm
    split at h
    · exact absurd h neg_EINVAL_ne_zero
    · rename_i h1
      split at h
      · exact absurd h neg_EINVAL_ne_zero
      · rename_i h2
        refine ⟨?_, fun st hst => (hall st hst).1, by omega⟩
        intro hnil
        rw [hnil] at e
        simp at e
        exact h1 e

theorem validate_states_decoded (access_ok : Nat → Nat → Nat → Bool) (num_stacks : Nat)
    (l : List elfbac_state) :
    ∀ n, validate_states access_ok num_stacks (l.map decoded_state) n =
      validate_states access_ok num_stacks l n := by
  induction l with
  | nil => intro n; rfl
  | cons st rest ih =>
    intro n
    simp only [List.map_cons, validate_states, decoded_state, ih]

theorem validate_policy_decoded (A : Arch) (access_ok : Nat → Nat → Nat → Bool)
    (p : elfbac_policy) (cur : Option Nat) :
    elfbac_validate_policy A access_ok
        { p with states_list := p.states_list.map decoded_state, current_state := cur } =
      elfbac_validate_policy A access_ok p := by
  simp only [elfbac_validate_policy, validate_states_decoded]

/-! ## Page arithmetic -/

theorem page_size_pos (A : Arch) : 0 < PAGE_SIZE A := by
  unfold PAGE_SIZE
  exact Nat.pos_pow_of_pos _ (by norm_num)

theorem ulong_mod_pages (A : Arch) : ∃ K, 2 ≤ K ∧ ULONG_MOD A = PAGE_SIZE A * K := by
  have h := A.PAGE_SHIFT_lt
  refine ⟨2 ^ (8 * A.sizeof_ulong - A.PAGE_SHIFT), ?_, ?_⟩
  · calc 2 = 2 ^ 1 := by norm_num
      _ ≤ 2 ^ (8 * A.sizeof_ulong - A.PAGE_SHIFT) :=
        Nat.pow_le_pow_right (by norm_num) (by omega)
  · unfold ULONG_MOD PAGE_SIZE
    rw [← pow_add]
    have : A.PAGE_SHIFT + (8 * A.sizeof_ulong - A.PAGE_SHIFT) = 8 * A.sizeof_ulong := by omega
    rw [this, pow_mul]
    norm_num

theorem page_range_arith (P K a : Nat) (hP : 0 < P) (hK : 2 ≤ K) (ha : a < P * K) :
    (a - a % P) % P = 0 ∧ a - a % P ≤ a ∧ a - (a - a % P) < P ∧
    (if a - a % P = (((a + (P - 1)) % (P * K)) / P * P) % (P * K)
      then ((((a + (P - 1)) % (P * K)) / P * P) % (P * K) + P) % (P * K)
      else (((a + (P - 1)) % (P * K)) / P * P) % (P * K)) =
      ((a - a % P) + P) % (P * K) := by
  have hr : a % P < P := Nat.mod_lt _ hP
  have hle : a % P ≤ a := Nat.mod_le _ _
  have hdm : P * (a / P) + a % P = a := Nat.div_add_mod a P
  have hstart : a - a % P = P * (a / P) := by omega
  have hq : a / P < K := by
    rw [Nat.div_lt_iff_lt_mul hP, Nat.mul_comm]
    exact ha
  refine ⟨?_, Nat.sub_le _ _, by omega, ?_⟩
  · rw [hstart]
    exact Nat.mul_mod_right _ _
  · rw [hstart]
    generalize hqd : a / P = q at *
    generalize hrd : a % P = r at *
    have hsucc : P * (q + 1) = P * q + P := Nat.mul_succ P q
    have hqK : P * (q + 1) ≤ P * K := Nat.mul_le_mul_left P (by omega)
    by_cases hr0 : r = 0
    · -- page-aligned address
      have h1 : a + (P - 1) = P * q + (P - 1) := by omega
      have h2 : (a + (P - 1)) % (P * K) = P * q + (P - 1) := by
        rw [h1]
        exact Nat.mod_eq_of_lt (by omega)
      have h3 : (P * q + (P - 1)) / P = q := by
        rw [Nat.mul_add_div hP, Nat.div_eq_of_lt (by omega)]
        rfl
      have h4 : q * P % (P * K) = P * q := by
        rw [Nat.mul_comm q P]
        exact Nat.mod_eq_of_lt (by omega)
      rw [h2, h3, h4, if_pos rfl]
    · by_cases hlast : q + 1 = K
      · -- last page of the address space
        have h1 : a + (P - 1) = P * K + (r - 1) := by
          rw [← hlast]
          omega
        have h2 : (a + (P - 1)) % (P * K) = r - 1 := by
          rw [h1, Nat.add_mod, Nat.mod_self, Nat.zero_add, Nat.mod_mod]
          exact Nat.mod_eq_of_lt (by omega)
        have h3 : (r - 1) / P = 0 := Nat.div_eq_of_lt (by omega)
        have h5 : P * q ≠ 0 := by
          have : 1 ≤ q := by omega
          have := Nat.mul_le_mul_left P this
          omega
        have h6 : (P * q + P) % (P * K) = 0 := by
          rw [← hsucc, hlast]
          exact Nat.mod_self _
        rw [h2, h3, Nat.zero_mul, Nat.zero_mod, if_neg h5, h6]
      · have hq2 : P * (q + 2) ≤ P * K := Nat.mul_le_mul_left P (by omega)
        have hsucc2 : P * (q + 2) = P * q + P + P := by
          rw [show q + 2 = (q + 1) + 1 from rfl, Nat.mul_succ, hsucc]
        have h1 : a + (P - 1) = P * (q + 1) + (r - 1) := by omega
        have h2 : (a + (P - 1)) % (P * K) = P * (q + 1) + (r - 1) := by
          rw [h1]
          exact Nat.mod_eq_of_lt (by omega)
        have h3 : (P * (q + 1) + (r - 1)) / P = q + 1 := by
          rw [Nat.mul_add_div hP, Nat.div_eq_of_lt (by omega)]
        have h4 : (q + 1) * P % (P * K) = P * q + P := by
          rw [Nat.mul_comm (q + 1) P, hsucc]
          exact Nat.mod_eq_of_lt (by omega)
        have h5 : P * q ≠ P * q + P := by omega
        have h6 : (P * q + P) % (P * K) = P * q + P := Nat.mod_eq_of_lt (by omega)
        rw [h2, h3, h4, if_neg h5, h6]

/-! ## Record sequences that the loop runs through -/

theorem record_step_nalloc (kmalloc : Nat → Bool) (v v1 : parse_vars) (r : wire_record)
    (h : record_step kmalloc v r = .ok v1) : v1.nalloc = v.nalloc + 1 := by
  cases r <;> simp only [record_step] at h <;> repeat' split at h
  all_goals
    first
    | (simp only [Except.ok.injEq] at h
       subst h
       rfl)
    | cases h

theorem add_section_ne_nil (l : List elfbac_state) (sec : elfbac_section) (h : l ≠ []) :
    add_section_to_last_state l sec ≠ [] := by
  cases l with
  | nil => exact absurd rfl h
  | cons a l =>
    cases l with
    | nil => simp [add_section_to_last_state]
    | cons b l => simp [add_section_to_last_state]

/-- With every allocation succeeding, the loop runs through a record sequence
unless a SECTION record comes while the state list is empty. -/
theorem run_records_ok (kmalloc : Nat → Bool) (recs : List wire_record) :
    ∀ v : parse_vars,
      (∀ n, v.nalloc ≤ n → n < v.nalloc + recs.length → kmalloc n = true) →
      (v.policy.states_list ≠ [] ∨ sections_until_state recs = []) →
      ∃ v1, run_records kmalloc v recs = .ok v1 := by
  induction recs with
  | nil => intro v _ _; exact ⟨v, rfl⟩
  | cons r rs ih =>
    intro v hk hs
    have hk0 : kmalloc v.nalloc = true := hk v.nalloc (Nat.le_refl _) (by simp)
    have hstep : ∃ v2, record_step kmalloc v r = .ok v2 ∧
        (v2.policy.states_list ≠ [] ∨ sections_until_state rs = []) := by
      cases hrs : record_step kmalloc v r with
      | error e =>
        exfalso
        cases r with
        | state stack_id => simp [record_step, hk0] at hrs
        | section_ base size flags =>
          rcases hs with h | h
          · have he : v.policy.states_list.isEmpty = false := by
              cases hl : v.policy.states_list with
              | nil => exact absurd hl h
              | cons a l => rfl
            simp [record_step, hk0, he] at hrs
          · simp [sections_until_state] at h
        | data_transition to_ from_ base size flags => simp [record_step, hk0] at hrs
        | call_transition to_ from_ address param_size return_size =>
          simp [record_step, hk0] at hrs
      | ok v2 =>
        refine ⟨v2, rfl, ?_⟩
        cases r with
        | state stack_id =>
          simp only [record_step, hk0, Bool.true_eq_false, if_false, Except.ok.injEq] at hrs
          rw [← hrs]
          exact Or.inl (by simp)
        | section_ base size flags =>
          have hne : v.policy.states_list ≠ [] := by
            rcases hs with h | h
            · exact h
            · simp [sections_until_state] at h
          have he : v.policy.states_list.isEmpty = false := by
            cases hl : v.policy.states_list with
            | nil => exact absurd hl hne
            | cons a l => rfl
          simp only [record_step, hk0, he, Bool.true_eq_false, Bool.false_eq_true, if_false,
            Except.ok.injEq] at hrs
          rw [← hrs]
          exact Or.inl (add_section_ne_nil _ _ hne)
        | data_transition to_ from_ base size flags =>
          simp only [record_step, hk0, Bool.true_eq_false, if_false, Except.ok.injEq] at hrs
          rw [← hrs]
          rcases hs with h | h
          · exact Or.inl h
          · exact Or.inr (by simpa [sections_until_state] using h)
        | call_transition to_ from_ address param_size return_size =>
          simp only [record_step, hk0, Bool.true_eq_false, if_false, Except.ok.injEq] at hrs
          rw [← hrs]
          rcases hs with h | h
          · exact Or.inl h
          · exact Or.inr (by simpa [sections_until_state] using h)
    obtain ⟨v2, h2, hs2⟩ := hstep
    have hn := record_step_nalloc kmalloc v v2 r h2
    obtain ⟨v1, h1⟩ := ih v2 (fun n h3 h4 => hk n (by omega) (by
      simp only [List.length_cons]
      omega)) hs2
    exact ⟨v1, by simp [run_records, h2, h1]⟩

/-- On transition records only, the loop leaves the state list alone and can
fail only with `-ENOMEM`, on a failed allocation. -/
theorem run_records_transitions (kmalloc : Nat → Bool) (recs : List wire_record) :
    ∀ v : parse_vars, (∀ x ∈ recs, x.is_transition = true) →
      (∀ v1, run_records kmalloc v recs = .ok v1 →
        v1.policy.states_list = v.policy.states_list) ∧
      (∀ rv v1 l, run_records kmalloc v recs = .error (rv, v1, l) →
        rv = -ENOMEM ∧ ∃ n, v.nalloc ≤ n ∧ n < v.nalloc + recs.length ∧ kmalloc n = false) := by
  induction recs with
  | nil =>
    intro v _
    refine ⟨fun v1 h => ?_, fun rv v1 l h => ?_⟩
    · simp only [run_records, Except.ok.injEq] at h
      rw [h]
    · simp [run_records] at h
  | cons r rs ih =>
    intro v ht
    have hr : r.is_transition = true := ht r (List.mem_cons_self _ _)
    have hrs : ∀ x ∈ rs, x.is_transition = true := fun x hx => ht x (List.mem_cons_of_mem _ hx)
    have hstep : (kmalloc v.nalloc = false ∧
          ∃ v2 l, record_step kmalloc v r = .error (-ENOMEM, v2, l)) ∨
        (∃ v2, record_step kmalloc v r = .ok v2 ∧
          v2.policy.states_list = v.policy.states_list ∧ v2.nalloc = v.nalloc + 1) := by
      cases r with
      | state stack_id => simp [wire_record.is_transition] at hr
      | section_ base size flags => simp [wire_record.is_transition] at hr
      | data_transition to_ from_ base size flags =>
        by_cases hk : kmalloc v.nalloc = false
        · refine Or.inl ⟨hk, { v with nalloc := v.nalloc + 1 }, no_locals, ?_⟩
          simp [record_step, hk]
        · refine Or.inr ⟨{ v with
              policy := { v.policy with
                data_transitions_list := v.policy.data_transitions_list ++
                  [{ to_ := to_, from_ := from_, base := base, size := size,
                     flags := flags }] },
              nalloc := v.nalloc + 1 }, ?_, rfl, rfl⟩
          simp [record_step, hk]
      | call_transition to_ from_ address param_size return_size =>
        by_cases hk : kmalloc v.nalloc = false
        · refine Or.inl ⟨hk, { v with nalloc := v.nalloc + 1 }, no_locals, ?_⟩
          simp [record_step, hk]
        · refine Or.inr ⟨{ v with
              policy := { v.policy with
                call_transitions_list := v.policy.call_transitions_list ++
                  [{ to_ := to_, from_ := from_, address := address,
                     param_size := param_size, return_size := return_size }] },
              nalloc := v.nalloc + 1 }, ?_, rfl, rfl⟩
          simp [record_step, hk]
    rcases hstep with ⟨hk, v2, l2, h2⟩ | ⟨v2, h2, hs2, hn2⟩
    · refine ⟨fun v1 h => ?_, fun rv v1 l h => ?_⟩
      · simp [run_records, h2] at h
      · simp only [run_records, h2, Except.error.injEq, Prod.mk.injEq] at h
        exact ⟨h.1.symm, v.nalloc, Nat.le_refl _, by simp, hk⟩
    · obtain ⟨i1, i2⟩ := ih v2 hrs
      refine ⟨fun v1 h => ?_, fun rv v1 l h => ?_⟩
      · simp only [run_records, h2] at h
        rw [i1 v1 h, hs2]
      · simp only [run_records, h2] at h
        obtain ⟨e, n, hn1, hn3, hn4⟩ := i2 rv v1 l h
        exact ⟨e, n, by omega, by simp only [List.length_cons]; omega, hn4⟩

theorem parse_record_section_no_state (A : Arch) (kmalloc : Nat → Bool) (rest : List Byte)
    (v : parse_vars) (h : v.policy.states_list = []) :
    parse_record A kmalloc (store_ulong A.sizeof_ulong SECTION ++ rest) v =
      .goto_out (-EINVAL) v no_locals := by
  have hM := ULONG_MOD_ge A
  have h2 : SECTION < ULONG_MOD A := by
    show 2 < ULONG_MOD A
    omega
  simp [parse_record, parse_ulong_store A _ _ h2, h]

theorem parse_policy_accept_lists (A : Arch) (access_ok : Nat → Nat → Nat → Bool)
    (kmalloc : Nat → Bool) (buf : List Byte) (out : policy_object) (r : parse_outcome)
    (h : elfbac_parse_policy A access_ok kmalloc buf out = some r) (h0 : r.retval = 0)
    (num_stacks : Nat) (recs : List wire_record) (hn : num_stacks < ULONG_MOD A)
    (hf : ∀ x ∈ recs, x.fits A) (hb : buf = serialize A num_stacks recs) :
    r.policy = { num_stacks := num_stacks, states_list := states_of_records 0 recs,
                 data_transitions_list := data_transitions_of_records recs,
                 call_transitions_list := call_transitions_of_records recs,
                 current_state := some 0 } ∧
    states_of_records 0 recs ≠ [] := by
  have h2 := parse_policy_serialize A access_ok kmalloc num_stacks recs out hn hf
  rw [← hb, h] at h2
  simp only [Option.some.injEq] at h2
  cases hrun : run_records kmalloc
      { policy := init_policy num_stacks, cur_state_id := 0, nalloc := 0 } recs with
  | error x =>
    exfalso
    obtain ⟨rv, v1, l⟩ := x
    rw [hrun] at h2
    simp only at h2
    rw [h2] at h0
    simp only at h0
    rcases run_records_error_code kmalloc recs _ _ _ _ hrun with h3 | h3
    · rw [h3] at h0
      exact neg_EINVAL_ne_zero h0
    · rw [h3] at h0
      exact neg_ENOMEM_ne_zero h0
  | ok v1 =>
    rw [hrun] at h2
    simp only at h2
    have hp := run_records_init_lists kmalloc recs num_stacks v1 hrun
    by_cases hv : elfbac_validate_policy A access_ok v1.policy ≠ 0
    · rw [if_pos hv] at h2
      rw [h2] at h0
      exact absurd h0 neg_EINVAL_ne_zero
    · rw [if_neg hv] at h2
      have hacc := (validate_policy_accept A access_ok v1.policy (not_not.mp hv)).1
      rw [hp] at hacc
      rw [h2, hp]
      exact ⟨rfl, hacc⟩

theorem states_of_records_head (recs : List wire_record) :
    ∀ (k : Nat) (st : elfbac_state) (t : List elfbac_state),
      states_of_records k recs = st :: t →
      ∃ pre stack_id post, recs = pre ++ .state stack_id :: post ∧
        (∀ x ∈ pre, x.is_state = false) ∧
        st = { id := k, stack_id := stack_id, sections_list := sections_until_state post,
               pgd := none } := by
  induction recs with
  | nil => intro k st t h; simp [states_of_records] at h
  | cons r rs ih =>
    intro k st t h
    cases r with
    | state stack_id =>
      simp only [states_of_records, List.cons.injEq] at h
      exact ⟨[], stack_id, rs, rfl, by simp, h.1.symm⟩
    | section_ base size flags =>
      simp only [states_of_records] at h
      obtain ⟨pre, sid, post, h1, h2, h3⟩ := ih k st t h
      refine ⟨.section_ base size flags :: pre, sid, post, by simp [h1], ?_, h3⟩
      intro x hx
      rcases List.mem_cons.mp hx with rfl | hx
      · rfl
      · exact h2 x hx
    | data_transition to_ from_ base size flags =>
      simp only [states_of_records] at h
      obtain ⟨pre, sid, post, h1, h2, h3⟩ := ih k st t h
      refine ⟨.data_transition to_ from_ base size flags :: pre, sid, post, by simp [h1], ?_, h3⟩
      intro x hx
      rcases List.mem_cons.mp hx with rfl | hx
      · rfl
      · exact h2 x hx
    | call_transition to_ from_ address param_size return_size =>
      simp only [states_of_records] at h
      obtain ⟨pre, sid, post, h1, h2, h3⟩ := ih k st t h
      refine ⟨.call_transition to_ from_ address param_size return_size :: pre, sid, post,
        by simp [h1], ?_, h3⟩
      intro x hx
      rcases List.mem_cons.mp hx with rfl | hx
      · rfl
      · exact h2 x hx

/-! ## The wire image of a policy graph -/

theorem sections_until_state_sections (l : List elfbac_section) (rest : List wire_record) :
    sections_until_state (l.map section_record ++ rest) = l ++ sections_until_state rest := by
  induction l with
  | nil => rfl
  | cons s l ih => simpa [section_record, sections_until_state] using ih

theorem states_of_records_sections (l : List elfbac_section) (rest : List wire_record) (k : Nat) :
    states_of_records k (l.map section_record ++ rest) = states_of_records k rest := by
  induction l with
  | nil => rfl
  | cons s l ih => simpa [section_record, states_of_records] using ih

theorem data_of_sections (l : List elfbac_section) (rest : List wire_record) :
    data_transitions_of_records (l.map section_record ++ rest) =
      data_transitions_of_records rest := by
  induction l with
  | nil => rfl
  | cons s l ih => simpa [section_record, data_transitions_of_records] using ih

theorem call_of_sections (l : List elfbac_section) (rest : List wire_record) :
    call_transitions_of_records (l.map section_record ++ rest) =
      call_transitions_of_records rest := by
  induction l with
  | nil => rfl
  | cons s l ih => simpa [section_record, call_transitions_of_records] using ih

theorem transitions_tail (ds : List elfbac_data_transition) (cs : List elfbac_call_transition) :
    sections_until_state
        (ds.map data_transition_record ++ cs.map call_transition_record) = [] ∧
    (∀ k, states_of_records k
        (ds.map data_transition_record ++ cs.map call_transition_record) = []) ∧
    data_transitions_of_records
        (ds.map data_transition_record ++ cs.map call_transition_record) = ds ∧
    call_transitions_of_records
        (ds.map data_transition_record ++ cs.map call_transition_record) = cs := by
  induction ds with
  | nil =>
    induction cs with
    | nil => exact ⟨rfl, fun _ => rfl, rfl, rfl⟩
    | cons c cs ih =>
      obtain ⟨i1, i2, i3, i4⟩ := ih
      simp only [List.map_nil, List.nil_append, List.map_cons] at i1 i2 i3 i4 ⊢
      refine ⟨?_, fun k => ?_, ?_, ?_⟩
      · simpa [call_transition_record, sections_until_state] using i1
      · simpa [call_transition_record, states_of_records] using i2 k
      · simpa [call_transition_record, data_transitions_of_records] using i3
      · simp [call_transition_record, call_transitions_of_records, i4]
  | cons d ds ih =>
    obtain ⟨i1, i2, i3, i4⟩ := ih
    simp only [List.map_cons, List.cons_append]
    refine ⟨?_, fun k => ?_, ?_, ?_⟩
    · simpa [data_transition_record, sections_until_state] using i1
    · simpa [data_transition_record, states_of_records] using i2 k
    · simp [data_transition_record, data_transitions_of_records, i3]
    · simpa [data_transition_record, call_transitions_of_records] using i4

theorem policy_records_lists (sts : List elfbac_state) (T : List wire_record)
    (hT : sections_until_state T = []) (hT2 : ∀ k, states_of_records k T = []) :
    sections_until_state (states_records sts ++ T) = [] ∧
    (∀ k, sts.map (fun st => st.id) = List.range' k sts.length →
      states_of_records k (states_records sts ++ T) = sts.map decoded_state) ∧
    data_transitions_of_records (states_records sts ++ T) = data_transitions_of_records T ∧
    call_transitions_of_records (states_records sts ++ T) = call_transitions_of_records T := by
  induction sts with
  | nil => exact ⟨hT, fun k _ => hT2 k, rfl, rfl⟩
  | cons st rest ih =>
    obtain ⟨i1, i2, i3, i4⟩ := ih
    have hshape : states_records (st :: rest) ++ T =
        .state st.stack_id ::
          (st.sections_list.map section_record ++ (states_records rest ++ T)) := by
      simp [states_records, state_records]
    rw [hshape]
    refine ⟨rfl, fun k hk => ?_, ?_, ?_⟩
    · simp only [List.map_cons, List.length_cons, List.range'_succ, List.cons.injEq] at hk
      simp only [states_of_records, sections_until_state_sections, i1, List.append_nil,
        states_of_records_sections, i2 (k + 1) hk.2, List.map_cons, decoded_state,
        List.cons.injEq, and_true]
      rw [← hk.1]
    · simp only [data_transitions_of_records, data_of_sections, i3]
    · simp only [call_transitions_of_records, call_of_sections, i4]

theorem policy_records_fits (A : Arch) (p : elfbac_policy) (h : policy_fits A p) :
    ∀ r ∈ policy_records p, r.fits A := by
  have hM := ULONG_MOD_ge A
  obtain ⟨-, hs, hd, hc⟩ := h
  have hst : ∀ sts : List elfbac_state,
      (∀ st ∈ sts, st.stack_id < ULONG_MOD A ∧ ∀ s ∈ st.sections_list,
        s.base < ULONG_MOD A ∧ s.size < ULONG_MOD A ∧ s.flags < ULONG_MOD A) →
      ∀ r ∈ states_records sts, r.fits A := by
    intro sts
    induction sts with
    | nil => intro _ r hr; simp [states_records] at hr
    | cons st rest ih =>
      intro hall r hr
      simp only [states_records, state_records, List.cons_append, List.mem_cons,
        List.mem_append, List.mem_map] at hr
      rcases hr with rfl | ⟨s, hs1, rfl⟩ | hr
      · have := (hall st (List.mem_cons_self _ _)).1
        simp only [wire_record.fits, wire_record.words, List.mem_cons, List.mem_singleton,
          List.not_mem_nil, or_false, forall_eq_or_imp, forall_eq]
        exact ⟨by omega, this⟩
      · obtain ⟨b1, b2, b3⟩ := (hall st (List.mem_cons_self _ _)).2 s hs1
        simp only [section_record, wire_record.fits, wire_record.words, List.mem_cons,
          List.mem_singleton, List.not_mem_nil, or_false, forall_eq_or_imp, forall_eq]
        exact ⟨by omega, b1, b2, b3⟩
      · exact ih (fun x hx => hall x (List.mem_cons_of_mem _ hx)) r hr
  intro r hr
  simp only [policy_records, List.mem_append, List.mem_map] at hr
  rcases hr with hr | ⟨d, hd1, rfl⟩ | ⟨c, hc1, rfl⟩
  · exact hst _ hs r hr
  · obtain ⟨b1, b2, b3, b4, b5⟩ := hd d hd1
    simp only [data_transition_record, wire_record.fits, wire_record.words, List.mem_cons,
      List.mem_singleton, List.not_mem_nil, or_false, forall_eq_or_imp, forall_eq]
    exact ⟨by omega, b1, b2, b3, b4, b5⟩
  · obtain ⟨b1, b2, b3, b4, b5⟩ := hc c hc1
    simp only [call_transition_record, wire_record.fits, wire_record.words, List.mem_cons,
      List.mem_singleton, List.not_mem_nil, or_false, forall_eq_or_imp, forall_eq]
    exact ⟨by omega, b1, b2, b3, b4, b5⟩

theorem parse_serialize_records (A : Arch) (access_ok : Nat → Nat → Nat → Bool)
    (kmalloc : Nat → Bool) (p : elfbac_policy) (out : policy_object) (recs : List wire_record)
    (hk : ∀ n, kmalloc n = true)
    (hv : elfbac_validate_policy A access_ok p = 0)
    (hn : p.num_stacks < ULONG_MOD A) (hf : ∀ x ∈ recs, x.fits A)
    (h1 : sections_until_state recs = [])
    (h2 : states_of_records 0 recs = p.states_list.map decoded_state)
    (h3 : data_transitions_of_records recs = p.data_transitions_list)
    (h4 : call_transitions_of_records recs = p.call_transitions_list) :
    ∃ n, elfbac_parse_policy A access_ok kmalloc (serialize A p.num_stacks recs) out =
      some { retval := 0, out := .head_copy (decoded_policy p), policy := decoded_policy p,
             locals := no_locals, nalloc := n } := by
  obtain ⟨v1, hrun⟩ := run_records_ok kmalloc recs
    { policy := init_policy p.num_stacks, cur_state_id := 0, nalloc := 0 }
    (fun n _ _ => hk n) (Or.inr h1)
  have hp := run_records_init_lists kmalloc _ _ v1 hrun
  have hp2 : v1.policy = { p with states_list := p.states_list.map decoded_state,
                                  current_state := none } := by
    rw [hp, h2, h3, h4]
  have hv2 : elfbac_validate_policy A access_ok v1.policy = 0 := by
    rw [hp2, validate_policy_decoded]
    exact hv
  refine ⟨v1.nalloc, ?_⟩
  rw [parse_policy_serialize A access_ok kmalloc p.num_stacks _ out hn hf, hrun]
  simp only [hv2, ne_eq, not_true_eq_false, if_false]
  rw [hp2]
  rfl

theorem policy_records_describe (p : elfbac_policy)
    (hid : p.states_list.map (fun st => st.id) = List.range p.states_list.length) :
    sections_until_state (policy_records p) = [] ∧
    states_of_records 0 (policy_records p) = p.states_list.map decoded_state ∧
    data_transitions_of_records (policy_records p) = p.data_transitions_list ∧
    call_transitions_of_records (policy_records p) = p.call_transitions_list := by
  obtain ⟨t1, t2, t3, t4⟩ :=
    transitions_tail p.data_transitions_list p.call_transitions_list
  obtain ⟨l1, l2, l3, l4⟩ := policy_records_lists p.states_list _ t1 t2
  rw [List.range_eq_range'] at hid
  have l2 := l2 0 hid
  rw [t3] at l3
  rw [t4] at l4
  exact ⟨l1, l2, l3, l4⟩

/-! ## The validator and the accessibility probe -/

theorem range_refused_eq (access_ok : Nat → Nat → Nat → Bool) (flags base size : Nat) :
    range_refused access_ok flags base size =
      !probed_range_accessible access_ok flags base size := by
  unfold range_refused probed_range_accessible
  by_cases hw : (flags &&& VM_WRITE) ≠ 0 <;>
    cases hW : access_ok VERIFY_WRITE base size <;>
    cases hR : access_ok VERIFY_READ base size <;> simp [hw]

theorem probed_of_spec (access_ok : Nat → Nat → Nat → Bool) (flags base size : Nat)
    (hwr : ∀ b s, access_ok VERIFY_WRITE b s = true → access_ok VERIFY_READ b s = true)
    (h : spec_range_accessible access_ok flags base size = true) :
    probed_range_accessible access_ok flags base size = true := by
  unfold spec_range_accessible at h
  unfold probed_range_accessible
  by_cases hw : (flags &&& VM_WRITE) ≠ 0
  · rw [if_pos hw] at h
    simp [hw, h, hwr base size h]
  · rw [if_neg hw] at h
    simp [hw, h]

theorem validate_sections_ok (access_ok : Nat → Nat → Nat → Bool) (l : List elfbac_section)
    (h : ∀ s ∈ l, probed_range_accessible access_ok s.flags s.base s.size = true) :
    validate_sections access_ok l = false := by
  induction l with
  | nil => rfl
  | cons s rest ih =>
    have hs := h s (List.mem_cons_self _ _)
    simp only [validate_sections, range_refused_eq, hs, Bool.not_true, Bool.false_eq_true,
      if_false]
    exact ih (fun x hx => h x (List.mem_cons_of_mem _ hx))

theorem validate_states_ok (access_ok : Nat → Nat → Nat → Bool) (num_stacks : Nat)
    (l : List elfbac_state) :
    ∀ n, (∀ st ∈ l, st.stack_id < num_stacks) →
      (∀ st ∈ l, ∀ s ∈ st.sections_list,
        probed_range_accessible access_ok s.flags s.base s.size = true) →
      validate_states access_ok num_stacks l n = some (n + l.length) := by
  induction l with
  | nil => intro n _ _; rfl
  | cons st rest ih =>
    intro n h1 h2
    have hs := h1 st (List.mem_cons_self _ _)
    have hsec := validate_sections_ok access_ok st.sections_list
      (h2 st (List.mem_cons_self _ _))
    simp only [validate_states, ge_iff_le, Nat.not_le.mpr hs, if_false, hsec,
      Bool.false_eq_true]
    rw [ih (n + 1) (fun x hx => h1 x (List.mem_cons_of_mem _ hx))
      (fun x hx => h2 x (List.mem_cons_of_mem _ hx))]
    simp only [List.length_cons]
    congr 1
    omega

theorem validate_data_transitions_ok (access_ok : Nat → Nat → Nat → Bool) (n : Nat)
    (l : List elfbac_data_transition)
    (h1 : ∀ d ∈ l, d.from_ ≤ n ∧ d.to_ ≤ n)
    (h2 : ∀ d ∈ l, probed_range_accessible access_ok d.flags d.base d.size = true) :
    validate_data_transitions access_ok n l = false := by
  induction l with
  | nil => rfl
  | cons d rest ih =>
    have hd := h1 d (List.mem_cons_self _ _)
    have hp := h2 d (List.mem_cons_self _ _)
    have hnot : ¬ (d.from_ > n ∨ d.to_ > n) := by omega
    simp only [validate_data_transitions, hnot, if_false, range_refused_eq, hp, Bool.not_true,
      Bool.false_eq_true]
    exact ih (fun x hx => h1 x (List.mem_cons_of_mem _ hx))
      (fun x hx => h2 x (List.mem_cons_of_mem _ hx))

theorem validate_call_transitions_ok (A : Arch) (access_ok : Nat → Nat → Nat → Bool) (n : Nat)
    (l : List elfbac_call_transition)
    (h1 : ∀ c ∈ l, c.from_ ≤ n ∧ c.to_ ≤ n)
    (h2 : ∀ c ∈ l, access_ok VERIFY_READ c.address A.sizeof_ulong = true) :
    validate_call_transitions A access_ok n l = false := by
  induction l with
  | nil => rfl
  | cons c rest ih =>
    have hc := h1 c (List.mem_cons_self _ _)
    have hp := h2 c (List.mem_cons_self _ _)
    have hnot : ¬ (c.from_ > n ∨ c.to_ > n) := by omega
    simp only [validate_call_transitions, hnot, if_false, hp, Bool.true_eq_false]
    exact ih (fun x hx => h1 x (List.mem_cons_of_mem _ hx))
      (fun x hx => h2 x (List.mem_cons_of_mem _ hx))

theorem validate_policy_of_probed (A : Arch) (access_ok : Nat → Nat → Nat → Bool)
    (p : elfbac_policy) (h : probed_policy_valid A access_ok p) :
    elfbac_validate_policy A access_ok p = 0 := by
  obtain ⟨h1, h2, h3, h4, h5, h5c, h6, h7⟩ := h
  unfold elfbac_validate_policy
  rw [validate_states_ok access_ok p.num_stacks p.states_list 0 h2 h4]
  simp only [Nat.zero_add]
  have hne : ¬ p.states_list.length = 0 := by omega
  have hle : ¬ p.num_stacks > p.states_list.length := by omega
  rw [if_neg hne, if_neg hle,
    validate_data_transitions_ok access_ok _ _
      (fun d hd => ⟨Nat.le_of_lt (h5 d hd).1, Nat.le_of_lt (h5 d hd).2⟩) h6,
    validate_call_transitions_ok A access_ok _ _
      (fun c hc => ⟨Nat.le_of_lt (h5c c hc).1, Nat.le_of_lt (h5c c hc).2⟩) h7]
  simp

theorem probed_valid_of_spec_valid (A : Arch) (access_ok : Nat → Nat → Nat → Bool)
    (p : elfbac_policy)
    (hwr : ∀ b s, access_ok VERIFY_WRITE b s = true → access_ok VERIFY_READ b s = true)
    (h : spec_policy_valid A access_ok p) : probed_policy_valid A access_ok p := by
  obtain ⟨h1, h2, h3, h4, h5, h5c, h6, h7⟩ := h
  exact ⟨h1, h2, h3, fun st hst s hs => probed_of_spec access_ok _ _ _ hwr (h4 st hst s hs),
    h5, h5c, fun d hd => probed_of_spec access_ok _ _ _ hwr (h6 d hd), h7⟩

theorem validate_call_transitions_checked (A : Arch) (access_ok : Nat → Nat → Nat → Bool)
    (n : Nat) (l1 : List elfbac_call_transition) :
    ∀ l2 : List elfbac_call_transition,
      l1.map call_transition_checked = l2.map call_transition_checked →
      validate_call_transitions A access_ok n l1 =
        validate_call_transitions A access_ok n l2 := by
  induction l1 with
  | nil =>
    intro l2 h
    cases l2 with
    | nil => rfl
    | cons c rest => simp at h
  | cons c1 r1 ih =>
    intro l2 h
    cases l2 with
    | nil => simp at h
    | cons c2 r2 =>
      simp only [List.map_cons, List.cons.injEq, call_transition_checked, Prod.mk.injEq] at h
      obtain ⟨⟨e1, e2, e3⟩, hr⟩ := h
      simp only [validate_call_transitions, e1, e2, e3, ih r2 hr]

theorem validate_call_transitions_probe (A : Arch) (ok1 ok2 : Nat → Nat → Nat → Bool)
    (n : Nat) (l : List elfbac_call_transition)
    (h : ∀ c ∈ l, ok1 VERIFY_READ c.address A.sizeof_ulong =
      ok2 VERIFY_READ c.address A.sizeof_ulong) :
    validate_call_transitions A ok1 n l = validate_call_transitions A ok2 n l := by
  induction l with
  | nil => rfl
  | cons c rest ih =>
    simp only [validate_call_transitions, h c (List.mem_cons_self _ _),
      ih (fun x hx => h x (List.mem_cons_of_mem _ hx))]

/-! ## Nodes of a policy -/

theorem state_nodes_linked (l : List elfbac_state) :
    ∀ i, node_ref.unlinked ∉ state_nodes i l := by
  induction l with
  | nil => intro i; simp [state_nodes]
  | cons st rest ih =>
    intro i
    simp only [state_nodes, List.cons_append, List.mem_cons, List.mem_append, List.mem_map,
      List.mem_range, not_or]
    exact ⟨by simp, by simp, ih (i + 1)⟩

theorem linked_nodes_linked (p : elfbac_policy) : node_ref.unlinked ∉ linked_nodes p := by
  have := state_nodes_linked p.states_list 0
  simp [linked_nodes, this]

theorem released_nodes_subset (o : parse_outcome) (n : node_ref) (h : n ∈ released_nodes o) :
    n = .unlinked ∨
      (n = .state (o.policy.states_list.length - 1) ∧ o.locals.state = .last_state ∨
        o.locals.section_ = .last_state ∨ o.locals.data_transition = .last_state ∨
        o.locals.call_transition = .last_state) := by
  simp only [released_nodes, elfbac_policy_destroy, List.nil_append, List.mem_append] at h
  rcases h with h | h | h | h
  · cases hs : o.locals.state <;> rw [hs] at h <;> simp [kfree] at h
    · exact Or.inl h
    · exact Or.inr (Or.inl ⟨h, rfl⟩)
  · cases hs : o.locals.section_ <;> rw [hs] at h <;> simp [kfree] at h
    · exact Or.inl h
    · exact Or.inr (Or.inr (Or.inl rfl))
  · cases hs : o.locals.data_transition <;> rw [hs] at h <;> simp [kfree] at h
    · exact Or.inl h
    · exact Or.inr (Or.inr (Or.inr (Or.inl rfl)))
  · cases hs : o.locals.call_transition <;> rw [hs] at h <;> simp [kfree] at h
    · exact Or.inl h
    · exact Or.inr (Or.inr (Or.inr (Or.inr rfl)))

theorem parse_record_locals (A : Arch) (kmalloc : Nat → Bool) (buf : List Byte)
    (v v1 : parse_vars) (rv : Int) (l : parse_locals)
    (h : parse_record A kmalloc buf v = .goto_out rv v1 l) :
    l.section_ ≠ .last_state ∧ l.data_transition ≠ .last_state ∧
      l.call_transition ≠ .last_state ∧
      (l.state = .last_state → v1.policy.states_list ≠ []) := by
  unfold parse_record at h
  repeat' split at h
  all_goals
    first
    | (injection h with h1 h2 h3
       subst h2
       subst h3
       refine ⟨by decide, by decide, by decide, ?_⟩
       first
       | (intro hc
          exact absurd hc (by decide))
       | (intro _ hnil
          simp_all))
    | cases h

theorem parse_loop_locals (A : Arch) (kmalloc : Nat → Bool) (fuel : Nat) :
    ∀ (buf : List Byte) (v v1 : parse_vars) (rv : Int) (l : parse_locals),
      parse_loop A kmalloc fuel buf v = some (.goto_out rv v1 l) →
      l.section_ ≠ .last_state ∧ l.data_transition ≠ .last_state ∧
        l.call_transition ≠ .last_state ∧
        (l.state = .last_state → v1.policy.states_list ≠ []) := by
  induction fuel with
  | zero =>
    intro buf v v1 rv l h
    by_cases h0 : buf.length = 0 <;> simp [parse_loop, h0] at h
  | succ fuel ih =>
    intro buf v v1 rv l h
    by_cases h0 : buf.length = 0
    · simp [parse_loop, h0] at h
    · rw [parse_loop, if_neg h0] at h
      cases hr : parse_record A kmalloc buf v with
      | goto_out rv2 v2 l2 =>
        rw [hr] at h
        simp only [Option.some.injEq, loop_exit.goto_out.injEq] at h
        obtain ⟨-, e2, e3⟩ := h
        subst e2
        subst e3
        exact parse_record_locals A kmalloc buf v v2 rv2 l2 hr
      | next rest v2 =>
        rw [hr] at h
        exact ih rest v2 v1 rv l h

theorem no_locals_facts :
    no_locals.state ≠ .last_state ∧ no_locals.section_ ≠ .last_state ∧
      no_locals.data_transition ≠ .last_state ∧ no_locals.call_transition ≠ .last_state ∧
      has_unlinked no_locals = false := by
  decide

theorem parse_policy_locals (A : Arch) (access_ok : Nat → Nat → Nat → Bool)
    (kmalloc : Nat → Bool) (buf : List Byte) (out : policy_object) (r : parse_outcome)
    (h : elfbac_parse_policy A access_ok kmalloc buf out = some r) :
    r.locals.section_ ≠ .last_state ∧ r.locals.data_transition ≠ .last_state ∧
      r.locals.call_transition ≠ .last_state ∧
      (r.locals.state = .last_state → r.policy.states_list ≠ []) ∧
      (r.retval = 0 → r.locals = no_locals) := by
  obtain ⟨n1, n2, n3, n4, -⟩ := no_locals_facts
  unfold elfbac_parse_policy at h
  split at h
  · simp only [Option.some.injEq] at h
    subst h
    exact ⟨n2, n3, n4, fun hc => absurd hc n1, fun _ => rfl⟩
  · split at h
    · exact absurd h (by simp)
    · rename_i rv v l hl
      simp only [Option.some.injEq] at h
      subst h
      obtain ⟨l1, l2, l3, l4⟩ := parse_loop_locals A kmalloc _ _ _ _ _ _ hl
      refine ⟨l1, l2, l3, l4, fun h0 => ?_⟩
      simp only at h0
      rcases parse_loop_goto_out A kmalloc _ _ _ _ _ _ hl with h1 | h1
      · rw [h1] at h0
        exact absurd h0 neg_EINVAL_ne_zero
      · rw [h1] at h0
        exact absurd h0 neg_ENOMEM_ne_zero
    · split at h
      · simp only [Option.some.injEq] at h
        subst h
        exact ⟨n2, n3, n4, fun hc => absurd hc n1, fun _ => rfl⟩
      · simp only [Option.some.injEq] at h
        subst h
        exact ⟨n2, n3, n4, fun hc => absurd hc n1, fun _ => rfl⟩

theorem unlinked_not_live (o : parse_outcome) : node_ref.unlinked ∉ live_nodes o := by
  intro h
  simp only [live_nodes, List.mem_filter, decide_eq_true_eq] at h
  obtain ⟨h1, h2⟩ := h
  simp only [held_nodes, List.mem_append] at h1
  rcases h1 with h1 | h1
  · exact linked_nodes_linked o.policy h1
  · apply h2
    by_cases hu : has_unlinked o.locals = true
    · simp only [has_unlinked, Bool.or_eq_true, decide_eq_true_eq] at hu
      simp only [released_nodes, elfbac_policy_destroy, List.nil_append, List.mem_append]
      rcases hu with ((hu | hu) | hu) | hu
      · exact Or.inl (by rw [hu]; simp [kfree])
      · exact Or.inr (Or.inl (by rw [hu]; simp [kfree]))
      · exact Or.inr (Or.inr (Or.inl (by rw [hu]; simp [kfree])))
      · exact Or.inr (Or.inr (Or.inr (by rw [hu]; simp [kfree])))
    · simp [hu] at h1

theorem linked_node_live (o : parse_outcome) (n : node_ref)
    (hs : o.locals.section_ ≠ .last_state) (hd : o.locals.data_transition ≠ .last_state)
    (hc : o.locals.call_transition ≠ .last_state)
    (hn : n ∈ linked_nodes o.policy)
    (hlast : o.locals.state = .last_state → n ≠ .state (o.policy.states_list.length - 1)) :
    n ∈ live_nodes o := by
  simp only [live_nodes, List.mem_filter, decide_eq_true_eq]
  refine ⟨by simp [held_nodes, hn], fun hr => ?_⟩
  rcases released_nodes_subset o n hr with h | ⟨h1, h2⟩ | h | h | h
  · rw [h] at hn
    exact linked_nodes_linked o.policy hn
  · exact hlast h2 h1
  · exact hs h
  · exact hd h
  · exact hc h

theorem live_nodes_eq_linked (o : parse_outcome)
    (h1 : o.locals.state ≠ .last_state)
    (hs : o.locals.section_ ≠ .last_state) (hd : o.locals.data_transition ≠ .last_state)
    (hc : o.locals.call_transition ≠ .last_state) :
    live_nodes o = linked_nodes o.policy := by
  have hlinked : ∀ n ∈ linked_nodes o.policy, decide (n ∉ released_nodes o) = true := by
    intro n hn
    have := linked_node_live o n hs hd hc hn (fun h => absurd h h1)
    simp only [live_nodes, List.mem_filter] at this
    exact this.2
  unfold live_nodes held_nodes
  rw [List.filter_append, List.filter_eq_self.mpr hlinked]
  have hrest : List.filter (fun n => decide (n ∉ released_nodes o))
      (if has_unlinked o.locals = true then [node_ref.unlinked] else []) = [] := by
    by_cases hu : has_unlinked o.locals = true
    · rw [if_pos hu]
      have hmem : node_ref.unlinked ∈ released_nodes o := by
        simp only [has_unlinked, Bool.or_eq_true, decide_eq_true_eq] at hu
        simp only [released_nodes, elfbac_policy_destroy, List.nil_append, List.mem_append]
        rcases hu with ((hu | hu) | hu) | hu
        · exact Or.inl (by rw [hu]; simp [kfree])
        · exact Or.inr (Or.inl (by rw [hu]; simp [kfree]))
        · exact Or.inr (Or.inr (Or.inl (by rw [hu]; simp [kfree])))
        · exact Or.inr (Or.inr (Or.inr (by rw [hu]; simp [kfree])))
      simp [hmem]
    · simp [hu]
  rw [hrest, List.append_nil]

/-! ## Page-table synchronizer: basic facts -/

theorem list_for_each_entry_own {α : Type} (nodes : List α) :
    ∀ (fuel k : Nat), k ≤ nodes.length → nodes.length - k < fuel →
      list_for_each_entry .out_head nodes fuel
        (if k < nodes.length then .node k else .out_head) = some (nodes.drop k) := by
  intro fuel
  induction fuel with
  | zero => intro k _ h; omega
  | succ fuel ih =>
    intro k hk hf
    by_cases hlt : k < nodes.length
    · rw [if_pos hlt, list_for_each_entry, List.get?_eq_getElem?, List.getElem?_eq_getElem hlt]
      simp only [node_next]
      rw [ih (k + 1) (by omega) (by omega)]
      simp only [Option.map_some']
      rw [List.drop_eq_getElem_cons hlt]
    · rw [if_neg hlt, list_for_each_entry]
      have : k = nodes.length := by omega
      rw [this, List.drop_length]

theorem list_for_each_entry_dead {α : Type} (nodes : List α) :
    ∀ (fuel : Nat) (pos : list_addr), pos ≠ .out_head →
      list_for_each_entry .local_head nodes fuel pos = none := by
  intro fuel
  induction fuel with
  | zero => intro pos _; rfl
  | succ fuel ih =>
    intro pos hpos
    cases pos with
    | out_head => exact absurd rfl hpos
    | local_head => rfl
    | node i =>
      rw [list_for_each_entry]
      cases nodes.get? i with
      | none => rfl
      | some x =>
        simp only
        rw [ih]
        · rfl
        · simp only [node_next]
          split <;> simp

theorem traverse_intact {α : Type} (p : elfbac_policy) (nodes : List α) :
    (policy_object.intact p).traverse nodes = some nodes := by
  have h := list_for_each_entry_own nodes (nodes.length + 1) 0 (Nat.zero_le _) (by omega)
  simp only [List.drop_zero] at h
  unfold policy_object.traverse policy_object.anchor head_next
  rw [← h]
  by_cases h0 : nodes.length = 0
  · simp [h0]
  · have : 0 < nodes.length := by omega
    simp [h0, this]

theorem traverse_head_copy {α : Type} (p : elfbac_policy) (nodes : List α) :
    (policy_object.head_copy p).traverse nodes = none := by
  unfold policy_object.traverse policy_object.anchor
  apply list_for_each_entry_dead
  simp only [head_next]
  split <;> simp

theorem head_copy_lists (p : elfbac_policy) :
    (policy_object.head_copy p).states = none ∧
    (policy_object.head_copy p).data_transitions = none ∧
    (policy_object.head_copy p).call_transitions = none ∧
    (policy_object.intact p).states = some p.states_list ∧
    (policy_object.intact p).data_transitions = some p.data_transitions_list ∧
    (policy_object.intact p).call_transitions = some p.call_transitions_list :=
  ⟨traverse_head_copy p _, traverse_head_copy p _, traverse_head_copy p _,
   traverse_intact p _, traverse_intact p _, traverse_intact p _⟩

/-! ## Every granted allocation is held at `out` -/

theorem state_nodes_length (l : List elfbac_state) :
    ∀ i, (state_nodes i l).length = (l.map (fun st => 1 + st.sections_list.length)).sum := by
  induction l with
  | nil => intro i; rfl
  | cons st rest ih =>
    intro i
    simp only [state_nodes, List.cons_append, List.length_cons, List.length_append,
      List.length_map, List.length_range, List.map_cons, List.sum_cons, ih (i + 1)]
    omega

theorem linked_nodes_length (p : elfbac_policy) :
    (linked_nodes p).length =
      (p.states_list.map (fun st => 1 + st.sections_list.length)).sum +
        (p.data_transitions_list.length + p.call_transitions_list.length) := by
  simp [linked_nodes, state_nodes_length]

theorem add_section_length (l : List elfbac_state) (sec : elfbac_section) :
    (add_section_to_last_state l sec).length = l.length := by
  induction l with
  | nil => rfl
  | cons st rest ih =>
    cases rest with
    | nil => rfl
    | cons st2 rest2 =>
      simp only [add_section_to_last_state, List.length_cons] at ih ⊢
      omega

theorem add_section_node_count (l : List elfbac_state) (sec : elfbac_section) (h : l ≠ []) :
    ((add_section_to_last_state l sec).map (fun st => st.sections_list.length)).sum =
      (l.map (fun st => st.sections_list.length)).sum + 1 := by
  induction l with
  | nil => exact absurd rfl h
  | cons st rest ih =>
    cases rest with
    | nil => simp [add_section_to_last_state]
    | cons st2 rest2 =>
      have := ih (by simp)
      simp only [add_section_to_last_state, List.map_cons, List.sum_cons] at this ⊢
      omega

theorem parse_record_conserves (A : Arch) (kmalloc : Nat → Bool) (buf : List Byte)
    (v : parse_vars)
    (hv : granted_requests kmalloc v.nalloc = (linked_nodes v.policy).length) :
    (∀ rest v1, parse_record A kmalloc buf v = .next rest v1 →
      granted_requests kmalloc v1.nalloc = (linked_nodes v1.policy).length) ∧
    (∀ rv v1 l, parse_record A kmalloc buf v = .goto_out rv v1 l →
      granted_requests kmalloc v1.nalloc =
        (linked_nodes v1.policy).length + (if has_unlinked l then 1 else 0)) := by
  rw [linked_nodes_length] at hv
  constructor
  · intro rest v1 h
    unfold parse_record at h
    repeat' split at h
    all_goals
      first
      | (injection h with h1 h2
         subst h2
         simp_all [granted_requests, linked_nodes_length, add_section_node_count,
           add_section_length, List.isEmpty_iff]
         try omega)
      | cases h
  · intro rv v1 l h
    unfold parse_record at h
    repeat' split at h
    all_goals
      first
      | (injection h with h1 h2 h3
         subst h2
         subst h3
         simp_all [granted_requests, linked_nodes_length, has_unlinked, no_locals])
      | cases h

theorem parse_loop_conserves (A : Arch) (kmalloc : Nat → Bool) (fuel : Nat) :
    ∀ (buf : List Byte) (v : parse_vars),
      granted_requests kmalloc v.nalloc = (linked_nodes v.policy).length →
      (∀ v1, parse_loop A kmalloc fuel buf v = some (.finished v1) →
        granted_requests kmalloc v1.nalloc = (linked_nodes v1.policy).length) ∧
      (∀ rv v1 l, parse_loop A kmalloc fuel buf v = some (.goto_out rv v1 l) →
        granted_requests kmalloc v1.nalloc =
          (linked_nodes v1.policy).length + (if has_unlinked l then 1 else 0)) := by
  induction fuel with
  | zero =>
    intro buf v hv
    by_cases h0 : buf.length = 0
    · simp only [parse_loop, h0, if_true, Option.some.injEq, loop_exit.finished.injEq]
      exact ⟨fun v1 h => h ▸ hv, fun rv v1 l h => by cases h⟩
    · simp [parse_loop, h0]
  | succ fuel ih =>
    intro buf v hv
    by_cases h0 : buf.length = 0
    · simp only [parse_loop, h0, if_true, Option.some.injEq, loop_exit.finished.injEq]
      exact ⟨fun v1 h => h ▸ hv, fun rv v1 l h => by cases h⟩
    · obtain ⟨c1, c2⟩ := parse_record_conserves A kmalloc buf v hv
      rw [parse_loop, if_neg h0]
      cases hr : parse_record A kmalloc buf v with
      | goto_out rv2 v2 l2 =>
        refine ⟨fun v1 h => (by cases h), fun rv v1 l h => ?_⟩
        injection h with h
        injection h with e1 e2 e3
        subst e2
        subst e3
        exact c2 rv2 v2 l2 hr
      | next rest v2 =>
        exact ih rest v2 (c1 rest v2 hr)

theorem linked_nodes_current (p : elfbac_policy) (c : Option Nat) :
    linked_nodes { p with current_state := c } = linked_nodes p :=
  rfl

theorem parse_policy_conserves (A : Arch) (access_ok : Nat → Nat → Nat → Bool)
    (kmalloc : Nat → Bool) (buf : List Byte) (out : policy_object) (r : parse_outcome)
    (h : elfbac_parse_policy A access_ok kmalloc buf out = some r) :
    allocated_count kmalloc r = (held_nodes r).length := by
  unfold allocated_count held_nodes
  unfold elfbac_parse_policy at h
  split at h
  · simp only [Option.some.injEq] at h
    subst h
    rfl
  · rename_i ns b1 _
    obtain ⟨c1, c2⟩ := parse_loop_conserves A kmalloc b1.length b1
      { policy := init_policy ns, cur_state_id := 0, nalloc := 0 } rfl
    split at h
    · exact absurd h (by simp)
    · rename_i rv v l hl
      simp only [Option.some.injEq] at h
      subst h
      simp only [List.length_append]
      rw [c2 rv v l hl]
      split <;> rfl
    · rename_i v hl
      have hfin := c1 v hl
      split at h
      · simp only [Option.some.injEq] at h
        subst h
        simp only [List.length_append]
        rw [hfin]
        rfl
      · simp only [Option.some.injEq] at h
        subst h
        simp only [List.length_append, linked_nodes_current]
        rw [hfin]
        rfl

theorem state_mem_state_nodes (l : List elfbac_state) :
    ∀ (k i : Nat), i < l.length → node_ref.state (k + i) ∈ state_nodes k l := by
  induction l with
  | nil => intro k i h; simp at h
  | cons st rest ih =>
    intro k i h
    cases i with
    | zero => simp [state_nodes]
    | succ i =>
      have := ih (k + 1) i (by simpa using h)
      simp only [state_nodes, List.cons_append, List.mem_cons, List.mem_append]
      refine Or.inr (Or.inr ?_)
      have e : k + (i + 1) = k + 1 + i := by omega
      rw [e]
      exact this

theorem last_state_linked (p : elfbac_policy) (h : p.states_list ≠ []) :
    node_ref.state (p.states_list.length - 1) ∈ linked_nodes p := by
  have hpos : 0 < p.states_list.length := List.length_pos.mpr h
  have := state_mem_state_nodes p.states_list 0 (p.states_list.length - 1) (by omega)
  simp only [Nat.zero_add] at this
  simp [linked_nodes, this]

/-! ## The probes of the loop over the call transitions -/

theorem validate_call_transitions_probes_fst (A : Arch) (access_ok : Nat → Nat → Nat → Bool)
    (n : Nat) (l : List elfbac_call_transition) :
    (validate_call_transitions_probes A access_ok n l).1 =
      validate_call_transitions A access_ok n l := by
  induction l with
  | nil => rfl
  | cons c rest ih =>
    simp only [validate_call_transitions_probes, validate_call_transitions]
    split
    · rfl
    · split
      · rfl
      · exact ih

theorem validate_call_transitions_probes_snd (A : Arch) (access_ok : Nat → Nat → Nat → Bool)
    (n : Nat) (l : List elfbac_call_transition) :
    (∃ k, k ≤ l.length ∧
      (validate_call_transitions_probes A access_ok n l).2 =
        (l.take k).map (call_transition_probe A)) ∧
    ((validate_call_transitions_probes A access_ok n l).1 = false →
      (validate_call_transitions_probes A access_ok n l).2 =
        l.map (call_transition_probe A)) := by
  induction l with
  | nil => exact ⟨⟨0, Nat.le_refl _, rfl⟩, fun _ => rfl⟩
  | cons c rest ih =>
    obtain ⟨⟨k, hk, e⟩, hall⟩ := ih
    simp only [validate_call_transitions_probes]
    split
    · exact ⟨⟨0, Nat.zero_le _, rfl⟩, fun h => absurd h (by simp)⟩
    · split
      · exact ⟨⟨1, by simp, rfl⟩, fun h => absurd h (by simp)⟩
      · refine ⟨⟨k + 1, by simpa using hk, ?_⟩, fun h => ?_⟩
        · simp only [List.take_succ_cons, List.map_cons, e]
        · simp only [List.map_cons, hall h]

theorem validate_call_transitions_refused (A : Arch) (access_ok : Nat → Nat → Nat → Bool)
    (n : Nat) (l : List elfbac_call_transition)
    (h : ∀ c ∈ l, c.from_ ≤ n ∧ c.to_ ≤ n) :
    validate_call_transitions A access_ok n l = true ↔
      ∃ c ∈ l, access_ok VERIFY_READ c.address A.sizeof_ulong = false := by
  induction l with
  | nil => simp [validate_call_transitions]
  | cons c rest ih =>
    have hc := h c (List.mem_cons_self _ _)
    have hnot : ¬ (c.from_ > n ∨ c.to_ > n) := by omega
    have ih2 := ih (fun x hx => h x (List.mem_cons_of_mem _ hx))
    simp only [validate_call_transitions, hnot, if_false, List.mem_cons, exists_eq_or_imp]
    by_cases hp : access_ok VERIFY_READ c.address A.sizeof_ulong = false
    · simp [hp]
    · have hp2 : access_ok VERIFY_READ c.address A.sizeof_ulong = true := by simpa using hp
      simp only [hp2, Bool.true_eq_false, if_false, false_or]
      exact ih2

theorem validate_call_transitions_false (A : Arch) (access_ok : Nat → Nat → Nat → Bool)
    (n : Nat) (l : List elfbac_call_transition)
    (h : validate_call_transitions A access_ok n l = false) :
    ∀ c ∈ l, access_ok VERIFY_READ c.address A.sizeof_ulong = true := by
  induction l with
  | nil => intro c hc; simp at hc
  | cons c rest ih =>
    simp only [validate_call_transitions] at h
    split at h
    · exact absurd h (by simp)
    · split at h
      · exact absurd h (by simp)
      · rename_i hp
        intro x hx
        simp only [List.mem_cons] at hx
        rcases hx with rfl | hx
        · simpa using hp
        · exact ih h x hx

theorem validate_policy_call_probes (A : Arch) (access_ok : Nat → Nat → Nat → Bool)
    (p : elfbac_policy) (h : elfbac_validate_policy A access_ok p = 0) :
    ∀ c ∈ p.call_transitions_list, access_ok VERIFY_READ c.address A.sizeof_ulong = true := by
  unfold elfbac_validate_policy at h
  split at h
  · exact absurd h neg_EINVAL_ne_zero
  · split at h
    · exact absurd h neg_EINVAL_ne_zero
    · split at h
      · exact absurd h neg_EINVAL_ne_zero
      · split at h
        · exact absurd h neg_EINVAL_ne_zero
        · split at h
          · exact absurd h neg_EINVAL_ne_zero
          · rename_i hcall
            exact validate_call_transitions_false A access_ok _ _ (by simpa using hcall)

/-- A state as the decoder leaves it has a NULL table root.  On the sample
target a call of `elfbac_copy_mapping` for such a state returns `-ENOMEM` with
no table level allocated when `pgd_index` of the address is 0, and runs into
the invalid pointer otherwise. -/
theorem copy_mapping_null_root :
    one_section_policy.current.map (fun s => s.pgd) = some none ∧
    (elfbac_copy_mapping sample_env arm32 1 sample_mm one_section_policy sample_vma
      0x5123).ret = some (-ENOMEM) ∧
    ((elfbac_copy_mapping sample_env arm32 1 sample_mm one_section_policy sample_vma
      0x5123).st.map (fun st => st.dst_tables.length)) = some 0 ∧
    (elfbac_copy_mapping sample_env arm32 1 sample_mm one_section_policy upper_vma
      0x400123).ret = none := by
  decide

/-- The local pointers at `out`, as the paths through the loop leave them. -/
theorem parse_record_locals_cases (A : Arch) (kmalloc : Nat → Bool) (buf : List Byte)
    (v v1 : parse_vars) (rv : Int) (l : parse_locals)
    (h : parse_record A kmalloc buf v = .goto_out rv v1 l) :
    l = no_locals ∨ l = { no_locals with state := .unlinked } ∨
      l = { no_locals with state := .last_state } ∨
      l = { no_locals with state := .last_state, section_ := .unlinked } ∨
      l = { no_locals with data_transition := .unlinked } ∨
      l = { no_locals with call_transition := .unlinked } := by
  unfold parse_record at h
  repeat' split at h
  all_goals
    first
    | (injection h with h1 h2 h3
       subst h3
       decide)
    | cases h

theorem parse_loop_locals_cases (A : Arch) (kmalloc : Nat → Bool) (fuel : Nat) :
    ∀ (buf : List Byte) (v v1 : parse_vars) (rv : Int) (l : parse_locals),
      parse_loop A kmalloc fuel buf v = some (.goto_out rv v1 l) →
      l = no_locals ∨ l = { no_locals with state := .unlinked } ∨
        l = { no_locals with state := .last_state } ∨
        l = { no_locals with state := .last_state, section_ := .unlinked } ∨
        l = { no_locals with data_transition := .unlinked } ∨
        l = { no_locals with call_transition := .unlinked } := by
  induction fuel with
  | zero =>
    intro buf v v1 rv l h
    by_cases h0 : buf.length = 0 <;> simp [parse_loop, h0] at h
  | succ fuel ih =>
    intro buf v v1 rv l h
    by_cases h0 : buf.length = 0
    · simp [parse_loop, h0] at h
    · rw [parse_loop, if_neg h0] at h
      cases hr : parse_record A kmalloc buf v with
      | goto_out rv2 v2 l2 =>
        rw [hr] at h
        simp only [Option.some.injEq, loop_exit.goto_out.injEq] at h
        obtain ⟨-, -, e3⟩ := h
        subst e3
        exact parse_record_locals_cases A kmalloc buf v v2 rv2 l2 hr
      | next rest v2 =>
        rw [hr] at h
        exact ih rest v2 v1 rv l h

theorem parse_policy_locals_cases (A : Arch) (access_ok : Nat → Nat → Nat → Bool)
    (kmalloc : Nat → Bool) (buf : List Byte) (out : policy_object) (r : parse_outcome)
    (h : elfbac_parse_policy A access_ok kmalloc buf out = some r) :
    r.locals = no_locals ∨ r.locals = { no_locals with state := .unlinked } ∨
      r.locals = { no_locals with state := .last_state } ∨
      r.locals = { no_locals with state := .last_state, section_ := .unlinked } ∨
      r.locals = { no_locals with data_transition := .unlinked } ∨
      r.locals = { no_locals with call_transition := .unlinked } := by
  unfold elfbac_parse_policy at h
  split at h
  · simp only [Option.some.injEq] at h
    subst h
    exact Or.inl rfl
  · split at h
    · exact absurd h (by simp)
    · rename_i rv v l hl
      simp only [Option.some.injEq] at h
      subst h
      exact parse_loop_locals_cases A kmalloc _ _ _ _ _ _ hl
    · split at h
      · simp only [Option.some.injEq] at h
        subst h
        exact Or.inl rfl
      · simp only [Option.some.injEq] at h
        subst h
        exact Or.inl rfl

theorem released_nodes_length (o : parse_outcome)
    (h : o.locals = no_locals ∨ o.locals = { no_locals with state := .unlinked } ∨
      o.locals = { no_locals with state := .last_state } ∨
      o.locals = { no_locals with state := .last_state, section_ := .unlinked } ∨
      o.locals = { no_locals with data_transition := .unlinked } ∨
      o.locals = { no_locals with call_transition := .unlinked }) :
    (released_nodes o).length =
      (if has_unlinked o.locals then 1 else 0) +
        (if o.locals.state = .last_state then 1 else 0) := by
  unfold released_nodes
  rcases h with h | h | h | h | h | h <;> rw [h] <;> rfl

theorem live_count_eq (A : Arch) (access_ok : Nat → Nat → Nat → Bool)
    (kmalloc : Nat → Bool) (buf : List Byte) (out : policy_object) (r : parse_outcome)
    (h : elfbac_parse_policy A access_ok kmalloc buf out = some r) :
    live_count kmalloc r + (if r.locals.state = .last_state then 1 else 0) =
      (linked_nodes r.policy).length := by
  have hc := parse_policy_conserves A access_ok kmalloc buf out r h
  have hr := released_nodes_length r (parse_policy_locals_cases A access_ok kmalloc buf out r h)
  obtain ⟨-, -, -, hlast, -⟩ := parse_policy_locals A access_ok kmalloc buf out r h
  unfold live_count
  rw [hc, hr]
  simp only [held_nodes, List.length_append]
  by_cases hl : r.locals.state = .last_state
  · have hne := last_state_linked r.policy (hlast hl)
    have hpos : 0 < (linked_nodes r.policy).length := List.length_pos_of_mem hne
    simp only [hl, if_true]
    split <;> simp <;> omega
  · simp only [hl, if_false]
    split <;> simp

/-! ## Claims -/

/-- C1, the round trip and the object that is returned.  Take a policy graph
that `elfbac_validate_policy` accepts, whose states carry the ids `0 .. n-1` in
list order and whose fields are values of `unsigned long`; serialise it in the
wire format (header word `num_stacks`, every STATE record directly followed
by the SECTION records of that state, then the transition records).  With no
allocation failing, `elfbac_parse_policy` returns 0 on these bytes, and the
graph that the call has built in its local `policy` is the round trip: the same
`num_stacks`, the same number of states with the same ids, stack ids and
section lists in the same order, the same data and call transition lists, and
`current_state` pointing to the first state.  What the call leaves at `*out`
is the structure copy of that local: its fields are those of the round trip,
and it is not the well-formed policy, since a traversal of any of its three
lists leaves the nodes for the list head of the dead local instead of ending
at the list head it started from, whereas the traversal of the well-formed
policy visits the states of the graph.  The same holds for every other record
sequence that describes the graph, wherever its transition records stand. -/
theorem parse_serialize_roundtrip (A : Arch) (access_ok : Nat → Nat → Nat → Bool)
    (kmalloc : Nat → Bool) (p : elfbac_policy) (out : policy_object)
    (hk : ∀ n, kmalloc n = true)
    (hv : elfbac_validate_policy A access_ok p = 0)
    (hid : p.states_list.map (fun st => st.id) = List.range p.states_list.length)
    (hfit : policy_fits A p) :
    (∃ r, elfbac_parse_policy A access_ok kmalloc (serialize_policy A p) out = some r ∧
      r.retval = 0 ∧
      r.policy.num_stacks = p.num_stacks ∧
      r.policy.states_list.length = p.states_list.length ∧
      r.policy.states_list.map (fun st => st.id) = p.states_list.map (fun st => st.id) ∧
      r.policy.states_list.map (fun st => st.stack_id) =
        p.states_list.map (fun st => st.stack_id) ∧
      r.policy.states_list.map (fun st => st.sections_list) =
        p.states_list.map (fun st => st.sections_list) ∧
      r.policy.data_transitions_list = p.data_transitions_list ∧
      r.policy.call_transitions_list = p.call_transitions_list ∧
      r.policy.current_state = some 0 ∧
      r.policy.current = r.policy.states_list.head? ∧
      r.policy = decoded_policy p ∧
      r.out = .head_copy (decoded_policy p) ∧
      r.out.fields = decoded_policy p ∧
      r.out ≠ .intact (decoded_policy p) ∧
      r.out.states = none ∧ r.out.data_transitions = none ∧
      r.out.call_transitions = none ∧
      (policy_object.intact (decoded_policy p)).states =
        some (decoded_policy p).states_list) ∧
    (∀ recs : List wire_record, (∀ x ∈ recs, x.fits A) →
      sections_until_state recs = [] →
      states_of_records 0 recs = p.states_list.map decoded_state →
      data_transitions_of_records recs = p.data_transitions_list →
      call_transitions_of_records recs = p.call_transitions_list →
      ∃ r, elfbac_parse_policy A access_ok kmalloc (serialize A p.num_stacks recs) out =
          some r ∧ r.retval = 0 ∧ r.policy = decoded_policy p ∧
        r.out = .head_copy (decoded_policy p) ∧ r.out.states = none) := by
  obtain ⟨d1, d2, d3, d4⟩ := policy_records_describe p hid
  obtain ⟨t1, t2, t3, t4, -, -⟩ := head_copy_lists (decoded_policy p)
  constructor
  · obtain ⟨n, hn⟩ := parse_serialize_records A access_ok kmalloc p out (policy_records p) hk
      hv hfit.1 (policy_records_fits A p hfit) d1 d2 d3 d4
    refine ⟨_, hn, rfl, rfl, ?_, ?_, ?_, ?_, rfl, rfl, rfl, ?_, rfl, rfl, rfl, ?_, t1, t2,
      t3, t4⟩
    · simp [decoded_policy]
    · simp [decoded_policy, decoded_state, Function.comp_def]
    · simp [decoded_policy, decoded_state, Function.comp_def]
    · simp [decoded_policy, decoded_state, Function.comp_def]
    · simp only [decoded_policy, elfbac_policy.current]
      cases p.states_list <;> rfl
    · intro hc
      cases hc
  · intro recs hf h1 h2 h3 h4
    obtain ⟨n, hn⟩ := parse_serialize_records A access_ok kmalloc p out recs hk hv hfit.1 hf
      h1 h2 h3 h4
    exact ⟨_, hn, rfl, rfl, rfl, t1⟩

/-- Witness of C1 on the 32-bit ARM target: for `sample_policy`, whose first
state has a page-table root and whose `current_state` points to the second
state, the local graph comes back with every root NULL and `current_state` at
the first state, and the object at `*out` is its structure copy, whose state
list cannot be traversed. -/
theorem parse_serialize_roundtrip_witness :
    ((∀ n, kmalloc_ok n = true) ∧
      elfbac_validate_policy arm32 access_ok_all sample_policy = 0 ∧
      sample_policy.states_list.map (fun st => st.id) =
        List.range sample_policy.states_list.length ∧
      policy_fits arm32 sample_policy) ∧
    (∃ r, elfbac_parse_policy arm32 access_ok_all kmalloc_ok
        (serialize_policy arm32 sample_policy) blank_policy = some r ∧
      r.retval = 0 ∧ r.policy = decoded_policy sample_policy ∧
      r.out = .head_copy (decoded_policy sample_policy) ∧
      r.out ≠ .intact (decoded_policy sample_policy) ∧ r.out.states = none) ∧
    (∃ r, elfbac_parse_policy arm32 access_ok_all kmalloc_ok
        (serialize arm32 sample_policy.num_stacks mixed_records) blank_policy = some r ∧
      r.retval = 0 ∧ r.policy = decoded_policy sample_policy ∧
      r.out = .head_copy (decoded_policy sample_policy) ∧ r.out.states = none) :=
  ⟨⟨fun _ => rfl, by decide, by decide, by decide⟩,
   (match (parse_serialize_roundtrip arm32 access_ok_all kmalloc_ok sample_policy
        blank_policy (fun _ => rfl) (by decide) (by decide) (by decide)).1 with
    | ⟨r, h1, h2, _, _, _, _, _, _, _, _, _, h3, h4, _, h5, h6, _, _, _⟩ =>
      ⟨r, h1, h2, h3, h4, h5, h6⟩),
   (parse_serialize_roundtrip arm32 access_ok_all kmalloc_ok sample_policy blank_policy
      (fun _ => rfl) (by decide) (by decide) (by decide)).2 mixed_records
      (by decide) (by decide) (by decide) (by decide) (by decide)⟩

/-- C2, evaluated at a failing input: `loose_policy` has a data transition
with `from = 1` and a call transition with `to = 1` while only the state id 0
exists, and yet `elfbac_validate_policy` returns 0 and `elfbac_parse_policy`
accepts its wire image. -/
theorem validate_policy_accepts_state_count_index :
    (∃ d ∈ loose_policy.data_transitions_list,
      ¬ d.from_ < loose_policy.states_list.length) ∧
    (∃ c ∈ loose_policy.call_transitions_list,
      ¬ c.to_ < loose_policy.states_list.length) ∧
    elfbac_validate_policy arm32 access_ok_all loose_policy = 0 ∧
    (elfbac_parse_policy arm32 access_ok_all kmalloc_ok
      (serialize_policy arm32 loose_policy) blank_policy).map (fun r => r.retval) = some 0 := by
  decide

/-- C3: a policy that `elfbac_validate_policy` accepts has at least one state,
has `stack_id < num_stacks` in every state, and has `num_stacks` at most the
number of states; a policy that breaks one of the three is rejected with
`-EINVAL`, for instance one with 2 states and `num_stacks = 3`. -/
theorem validate_policy_state_invariants (A : Arch) (access_ok : Nat → Nat → Nat → Bool)
    (p : elfbac_policy) :
    (elfbac_validate_policy A access_ok p = 0 →
      1 ≤ p.states_list.length ∧ (∀ st ∈ p.states_list, st.stack_id < p.num_stacks) ∧
        p.num_stacks ≤ p.states_list.length) ∧
    (p.states_list.length = 0 ∨ (∃ st ∈ p.states_list, st.stack_id ≥ p.num_stacks) ∨
        p.num_stacks > p.states_list.length →
      elfbac_validate_policy A access_ok p = -EINVAL) ∧
    (p.states_list.length = 2 → p.num_stacks = 3 →
      elfbac_validate_policy A access_ok p = -EINVAL) := by
  have acc : elfbac_validate_policy A access_ok p = 0 →
      1 ≤ p.states_list.length ∧ (∀ st ∈ p.states_list, st.stack_id < p.num_stacks) ∧
        p.num_stacks ≤ p.states_list.length := by
    intro h
    obtain ⟨h1, h2, h3⟩ := validate_policy_accept A access_ok p h
    exact ⟨List.length_pos.mpr h1, h2, h3⟩
  have rej : p.states_list.length = 0 ∨ (∃ st ∈ p.states_list, st.stack_id ≥ p.num_stacks) ∨
        p.num_stacks > p.states_list.length →
      elfbac_validate_policy A access_ok p = -EINVAL := by
    intro hbad
    rcases validate_policy_codes A access_ok p with h | h
    · exfalso
      obtain ⟨h1, h2, h3⟩ := acc h
      rcases hbad with hb | ⟨st, hst, hb⟩ | hb
      · omega
      · have := h2 st hst
        omega
      · omega
    · exact h
  exact ⟨acc, rej, fun h2 h3 => rej (Or.inr (Or.inr (by omega)))⟩

/-- Witness of C3: a one-state policy that is accepted, and the policy of
Scenario C (2 states, `num_stacks = 3`) that is rejected. -/
theorem validate_policy_state_invariants_witness :
    (elfbac_validate_policy arm32 access_ok_all
        { num_stacks := 1,
          states_list := [{ id := 0, stack_id := 0, sections_list := [], pgd := none }],
          data_transitions_list := [], call_transitions_list := [],
          current_state := none } = 0 ∧
      1 ≤ 1 ∧ (∀ st ∈ [({ id := 0, stack_id := 0, sections_list := [], pgd := none } :
        elfbac_state)], st.stack_id < 1) ∧ 1 ≤ 1) ∧
    elfbac_validate_policy arm32 access_ok_all
        { num_stacks := 3,
          states_list := [{ id := 0, stack_id := 0, sections_list := [], pgd := none },
                          { id := 1, stack_id := 1, sections_list := [], pgd := none }],
          data_transitions_list := [], call_transitions_list := [],
          current_state := none } = -EINVAL :=
  ⟨⟨by decide,
    (validate_policy_state_invariants arm32 access_ok_all
      { num_stacks := 1,
        states_list := [{ id := 0, stack_id := 0, sections_list := [], pgd := none }],
        data_transitions_list := [], call_transitions_list := [],
        current_state := none }).1 (by decide)⟩,
   (validate_policy_state_invariants arm32 access_ok_all
      { num_stacks := 3,
        states_list := [{ id := 0, stack_id := 0, sections_list := [], pgd := none },
                        { id := 1, stack_id := 1, sections_list := [], pgd := none }],
        data_transitions_list := [], call_transitions_list := [],
        current_state := none }).2.2 (by decide) (by decide)⟩

/-- C4, counterexample: in a validated policy whose only state has no section
and no transition, the reference procedure of section 4.3 denies a read of
address `0x5000`, and `elfbac_access_ok` allows it. -/
theorem access_ok_differs_from_reference :
    spec_evaluate_access bare_policy 0x5000 VM_READ = .Deny ∧
    decision_of_access_ok (elfbac_access_ok bare_policy 0x5000 VM_READ) = .Allow ∧
    ¬ (∀ (p : elfbac_policy) (address mask : Nat),
        decision_of_access_ok (elfbac_access_ok p address mask) =
          spec_evaluate_access p address mask) := by
  refine ⟨by decide, by decide, fun h => ?_⟩
  have := h bare_policy 0x5000 VM_READ
  revert this
  decide

/-- C4, amended: `elfbac_access_ok` decides Allow with no transition for every
policy, address and mask; hence it equals the reference procedure of section
4.3 exactly on the accesses where the address lies in a section of the current
state whose flags satisfy the mask. -/
theorem access_ok_equals_reference_iff (p : elfbac_policy) (address mask : Nat) :
    decision_of_access_ok (elfbac_access_ok p address mask) = .Allow ∧
    (decision_of_access_ok (elfbac_access_ok p address mask) =
        spec_evaluate_access p address mask ↔
      ∃ cur, p.current = some cur ∧
        ∃ s ∈ cur.sections_list,
          range_contains s.base s.size address = true ∧ flags_satisfy s.flags mask = true) := by
  refine ⟨rfl, ?_⟩
  simp only [elfbac_access_ok, decision_of_access_ok, spec_evaluate_access]
  cases hc : p.current with
  | none => simp
  | some cur =>
    simp only [Option.some.injEq, exists_eq_left']
    by_cases hs : cur.sections_list.any
        (fun s => range_contains s.base s.size address && flags_satisfy s.flags mask) = true
    · rw [if_pos hs]
      simp only [true_iff]
      obtain ⟨s, hs1, hs2⟩ := List.any_eq_true.mp hs
      exact ⟨s, hs1, by simpa using hs2⟩
    · rw [if_neg hs]
      constructor
      · intro h
        exfalso
        split at h
        · cases h
        · split at h <;> cases h
      · rintro ⟨s, hs1, hs2, hs3⟩
        exfalso
        apply hs
        exact List.any_eq_true.mpr ⟨s, hs1, by simp [hs2, hs3]⟩

/-- C5: `elfbac_parse_policy` returns an error for every buffer that is not one
header word followed by zero or more complete records (tag 1 to 4 with 1, 3, 5,
5 payload words).  In particular it rejects the empty buffer, a buffer whose
next record has an unknown tag, a buffer that ends inside a record, and a
buffer whose length is not a whole number of words. -/
theorem parse_policy_rejects_malformed (A : Arch) (access_ok : Nat → Nat → Nat → Bool)
    (kmalloc : Nat → Bool) (out : policy_object) :
    (∀ buf, ¬ well_framed A buf →
      ∃ r, elfbac_parse_policy A access_ok kmalloc buf out = some r ∧ r.retval ≠ 0) ∧
    (∃ r, elfbac_parse_policy A access_ok kmalloc [] out = some r ∧ r.retval ≠ 0) ∧
    (∀ num_stacks recs tag rest, num_stacks < ULONG_MOD A → (∀ x ∈ recs, x.fits A) →
      tag < ULONG_MOD A → tag ≠ 1 → tag ≠ 2 → tag ≠ 3 → tag ≠ 4 →
      ∃ r, elfbac_parse_policy A access_ok kmalloc
          (serialize A num_stacks recs ++ (store_ulong A.sizeof_ulong tag ++ rest)) out =
            some r ∧ r.retval ≠ 0) ∧
    (∀ num_stacks recs (x : wire_record) t u, num_stacks < ULONG_MOD A →
      (∀ x ∈ recs, x.fits A) → x.fits A → t ≠ [] → u ≠ [] →
      encode_words A x.words = t ++ u →
      ∃ r, elfbac_parse_policy A access_ok kmalloc (serialize A num_stacks recs ++ t) out =
            some r ∧ r.retval ≠ 0) ∧
    (∀ buf, buf.length % A.sizeof_ulong ≠ 0 →
      ∃ r, elfbac_parse_policy A access_ok kmalloc buf out = some r ∧ r.retval ≠ 0) := by
  have general : ∀ buf, ¬ well_framed A buf →
      ∃ r, elfbac_parse_policy A access_ok kmalloc buf out = some r ∧ r.retval ≠ 0 := by
    intro buf hnf
    obtain ⟨r, hr⟩ := parse_policy_returns A access_ok kmalloc buf out
    refine ⟨r, hr, fun h0 => hnf ?_⟩
    obtain ⟨ns, recs, v1, h1, h2, h3, -⟩ :=
      parse_policy_accept A access_ok kmalloc buf out r hr h0
    exact ⟨ns, recs, h1, h2, h3⟩
  refine ⟨general, ?_, ?_, ?_, ?_⟩
  · apply general
    intro h
    have := (well_framed_length A [] h).1
    have := A.sizeof_ulong_pos
    simp at *
    omega
  · intro ns recs tag rest hn hf ht h1 h2 h3 h4
    have hne : store_ulong A.sizeof_ulong tag ++ rest ≠ [] := by
      intro h
      have := congrArg List.length h
      have := A.sizeof_ulong_pos
      simp [store_ulong_length] at *
      omega
    exact parse_policy_bad_tail_nonzero A access_ok kmalloc ns recs _ out hn hf hne
      (fun v1 _ => ⟨_, _, _, parse_record_unknown_tag A kmalloc tag rest v1 ht h1 h2 h3 h4⟩)
  · intro ns recs x t u hn hf hx ht hu he
    exact parse_policy_bad_tail_nonzero A access_ok kmalloc ns recs t out hn hf ht
      (fun v1 _ => parse_record_cut_short A kmalloc x t u v1 hx hu he)
  · intro buf hb
    apply general
    intro h
    exact hb (well_framed_length A buf h).2

/-- Witness of C5 on the 32-bit ARM target: a five-byte buffer has a trailing
remainder shorter than a word. -/
theorem parse_policy_rejects_malformed_witness :
    [(1 : Byte), 0, 0, 0, 1].length % arm32.sizeof_ulong ≠ 0 ∧
    ∃ r, elfbac_parse_policy arm32 access_ok_all kmalloc_ok [1, 0, 0, 0, 1] blank_policy =
      some r ∧ r.retval ≠ 0 :=
  ⟨by decide,
   (parse_policy_rejects_malformed arm32 access_ok_all kmalloc_ok blank_policy).2.2.2.2
     [1, 0, 0, 0, 1] (by decide)⟩

/-- C6: a buffer in which a SECTION tag comes before any STATE record (only
complete transition records stand between the header and that tag) is
rejected whatever follows the tag: the return value is not zero and `*out` is
untouched; it is `-EINVAL` when the allocations for the transition records in
front succeed, and it is `-ENOMEM` only when one of them failed. -/
theorem parse_policy_section_before_state (A : Arch) (access_ok : Nat → Nat → Nat → Bool)
    (kmalloc : Nat → Bool) (num_stacks : Nat) (pre : List wire_record) (rest : List Byte)
    (out : policy_object) (hn : num_stacks < ULONG_MOD A) (hf : ∀ x ∈ pre, x.fits A)
    (ht : ∀ x ∈ pre, x.is_transition = true) :
    ∃ r, elfbac_parse_policy A access_ok kmalloc
        (serialize A num_stacks pre ++ (store_ulong A.sizeof_ulong SECTION ++ rest)) out =
          some r ∧
      r.retval ≠ 0 ∧ r.out = out ∧
      (r.retval = -EINVAL ∨
        (r.retval = -ENOMEM ∧ ∃ n, n < pre.length ∧ kmalloc n = false)) ∧
      ((∀ n, n < pre.length → kmalloc n = true) → r.retval = -EINVAL) := by
  have hne : store_ulong A.sizeof_ulong SECTION ++ rest ≠ [] := by
    intro h
    have := congrArg List.length h
    have := A.sizeof_ulong_pos
    simp [store_ulong_length] at *
    omega
  obtain ⟨i1, i2⟩ := run_records_transitions kmalloc pre
    { policy := init_policy num_stacks, cur_state_id := 0, nalloc := 0 } ht
  have hbad : ∀ v1, run_records kmalloc
        { policy := init_policy num_stacks, cur_state_id := 0, nalloc := 0 } pre = .ok v1 →
      parse_record A kmalloc (store_ulong A.sizeof_ulong SECTION ++ rest) v1 =
        .goto_out (-EINVAL) v1 no_locals := by
    intro v1 h1
    exact parse_record_section_no_state A kmalloc rest v1 (by rw [i1 v1 h1]; rfl)
  obtain ⟨r, hr, hout, hcase⟩ := parse_policy_bad_tail A access_ok kmalloc num_stacks pre _ out
    hn hf hne (fun v1 h1 => ⟨_, _, _, hbad v1 h1⟩)
  refine ⟨r, hr, ?_, hout, ?_, ?_⟩
  · rcases hcase with ⟨rv, v1, l, hrun, hrv⟩ | ⟨v1, rv, v2, l, hrun, hp, hrv⟩
    · rw [hrv, (i2 rv v1 l hrun).1]
      exact neg_ENOMEM_ne_zero
    · rw [hbad v1 hrun] at hp
      injection hp with hp1
      rw [hrv, ← hp1]
      exact neg_EINVAL_ne_zero
  · rcases hcase with ⟨rv, v1, l, hrun, hrv⟩ | ⟨v1, rv, v2, l, hrun, hp, hrv⟩
    · obtain ⟨e, n, -, hn2, hn3⟩ := i2 rv v1 l hrun
      simp only [Nat.zero_add] at hn2
      exact Or.inr ⟨by rw [hrv, e], n, hn2, hn3⟩
    · rw [hbad v1 hrun] at hp
      injection hp with hp1
      exact Or.inl (by rw [hrv, ← hp1])
  · intro hk
    rcases hcase with ⟨rv, v1, l, hrun, hrv⟩ | ⟨v1, rv, v2, l, hrun, hp, hrv⟩
    · exfalso
      obtain ⟨-, n, -, hn2, hn3⟩ := i2 rv v1 l hrun
      simp only [Nat.zero_add] at hn2
      rw [hk n hn2] at hn3
      exact Bool.noConfusion hn3
    · rw [hbad v1 hrun] at hp
      injection hp with hp1
      rw [hrv, ← hp1]

/-- Witness of C6 on the 32-bit ARM target: a SECTION tag behind one call
transition record and in front of the first STATE record. -/
theorem parse_policy_section_before_state_witness :
    ((1 : Nat) < ULONG_MOD arm32 ∧
      (∀ x ∈ [wire_record.call_transition 0 0 0x1004 8 4], x.fits arm32) ∧
      (∀ x ∈ [wire_record.call_transition 0 0 0x1004 8 4], x.is_transition = true)) ∧
    (∃ r, elfbac_parse_policy arm32 access_ok_all kmalloc_ok
        (serialize arm32 1 [.call_transition 0 0 0x1004 8 4] ++
          (store_ulong arm32.sizeof_ulong SECTION ++
            encode_records arm32 [.state 0])) blank_policy = some r ∧
      r.retval ≠ 0 ∧ r.out = blank_policy ∧
      (r.retval = -EINVAL ∨
        (r.retval = -ENOMEM ∧
          ∃ n, n < [wire_record.call_transition 0 0 0x1004 8 4].length ∧
            kmalloc_ok n = false)) ∧
      ((∀ n, n < [wire_record.call_transition 0 0 0x1004 8 4].length → kmalloc_ok n = true) →
        r.retval = -EINVAL)) :=
  ⟨⟨by decide, by decide, by decide⟩,
   parse_policy_section_before_state arm32 access_ok_all kmalloc_ok 1
     [.call_transition 0 0 0x1004 8 4] (encode_records arm32 [.state 0]) blank_policy
     (by decide) (by decide) (by decide)⟩

/-- C7: a call of `elfbac_parse_policy` returns, and when the return value is
not zero the caller-visible `*out` is what it was before the call; `*out` is
assigned only on the path that returns 0, where it receives the structure
copy of the local policy. -/
theorem parse_policy_failure_leaves_out (A : Arch) (access_ok : Nat → Nat → Nat → Bool)
    (kmalloc : Nat → Bool) (buf : List Byte) (out : policy_object) :
    ∃ r, elfbac_parse_policy A access_ok kmalloc buf out = some r ∧
      (r.retval ≠ 0 → r.out = out) ∧
      (r.out ≠ out → r.retval = 0 ∧ r.out = .head_copy r.policy) := by
  obtain ⟨r, hr⟩ := parse_policy_returns A access_ok kmalloc buf out
  obtain ⟨h1, h2⟩ := parse_policy_out A access_ok kmalloc buf out r hr
  refine ⟨r, hr, h1, fun hne => ?_⟩
  have h0 : r.retval = 0 := by
    by_contra h
    exact hne (h1 h)
  exact ⟨h0, h2 h0⟩

/-- C8, with the defect of the returned object: when `elfbac_parse_policy`
returns 0, `current_state` of the object at `*out` points to the first node of
the state list, which is the state made from the first STATE record of the
buffer and has id 0.  For the bytes of Scenario A, with the section range
readable and both allocations succeeding, the call returns 0, the graph built
in the local `policy` has exactly one state that holds exactly one section, and
`current_state` of `*out` is that state; but the object at `*out` is the
structure copy of the local, and a traversal of its state list, which is how
the number of its states is found, leaves that one node for the list head of
the dead local instead of ending, whereas the well-formed policy holds
exactly the one state. -/
theorem parse_policy_current_state (A : Arch) (access_ok : Nat → Nat → Nat → Bool)
    (kmalloc : Nat → Bool) (out : policy_object) :
    (∀ buf r, elfbac_parse_policy A access_ok kmalloc buf out = some r → r.retval = 0 →
      well_framed A buf ∧ r.out.fields.current_state = some 0 ∧
      (∃ st, r.out.fields.current = some st ∧ r.out.fields.states_list.head? = some st ∧
        st.id = 0) ∧
      ∀ num_stacks recs, num_stacks < ULONG_MOD A → (∀ x ∈ recs, x.fits A) →
        buf = serialize A num_stacks recs →
        ∃ pre stack_id post, recs = pre ++ .state stack_id :: post ∧
          (∀ x ∈ pre, x.is_state = false) ∧
          r.out.fields.current = some { id := 0, stack_id := stack_id,
                                        sections_list := sections_until_state post,
                                        pgd := none }) ∧
    (0x1000 < ULONG_MOD A → access_ok VERIFY_READ 0x1000 0x1000 = true →
      kmalloc 0 = true → kmalloc 1 = true →
      ∃ r, elfbac_parse_policy A access_ok kmalloc (scenario_A A) out = some r ∧
        r.retval = 0 ∧ r.policy = one_section_policy ∧
        r.policy.states_list.length = 1 ∧
        r.policy.states_list.map (fun st => st.sections_list.length) = [1] ∧
        r.out = .head_copy one_section_policy ∧
        r.out.fields.current = r.out.fields.states_list.head? ∧
        r.out.fields.current =
          some { id := 0, stack_id := 0,
                 sections_list := [{ base := 0x1000, size := 0x1000, flags := VM_READ }],
                 pgd := none } ∧
        r.out.states = none ∧
        (policy_object.intact one_section_policy).states =
          some one_section_policy.states_list) := by
  constructor
  · intro buf r h h0
    have hout : r.out.fields = r.policy := by
      rw [(parse_policy_out A access_ok kmalloc buf out r h).2 h0]
      rfl
    have key : ∀ num_stacks recs, num_stacks < ULONG_MOD A → (∀ x ∈ recs, x.fits A) →
        buf = serialize A num_stacks recs →
        r.out.fields.current_state = some 0 ∧
        ∃ pre stack_id post, recs = pre ++ .state stack_id :: post ∧
          (∀ x ∈ pre, x.is_state = false) ∧
          r.out.fields.states_list.head? =
            some { id := 0, stack_id := stack_id,
                   sections_list := sections_until_state post, pgd := none } ∧
          r.out.fields.current =
            some { id := 0, stack_id := stack_id,
                   sections_list := sections_until_state post, pgd := none } := by
      intro ns recs hn hf hb
      obtain ⟨e, hne⟩ := parse_policy_accept_lists A access_ok kmalloc buf out r h h0 ns recs
        hn hf hb
      cases hs : states_of_records 0 recs with
      | nil => exact absurd hs hne
      | cons st t =>
        obtain ⟨pre, sid, post, h1, h2, h3⟩ := states_of_records_head recs 0 st t hs
        rw [hout, e, hs, h3]
        exact ⟨rfl, pre, sid, post, h1, h2, rfl, rfl⟩
    obtain ⟨ns, recs, v1, h1, h2, h3, -⟩ :=
      parse_policy_accept A access_ok kmalloc buf out r h h0
    obtain ⟨hc, pre, sid, post, -, -, hh, hcur⟩ := key ns recs h1 h2 h3
    refine ⟨⟨ns, recs, h1, h2, h3⟩, hc, ⟨_, hcur, hh, rfl⟩, ?_⟩
    intro ns2 recs2 hn2 hf2 hb2
    obtain ⟨-, pre2, sid2, post2, e1, e2, -, e3⟩ := key ns2 recs2 hn2 hf2 hb2
    exact ⟨pre2, sid2, post2, e1, e2, e3⟩
  · intro hw hacc hk0 hk1
    have hM := ULONG_MOD_ge A
    have hf : ∀ x ∈ [wire_record.state 0, .section_ 0x1000 0x1000 VM_READ], x.fits A := by
      intro x hx
      simp only [List.mem_cons, List.mem_singleton, List.not_mem_nil, or_false] at hx
      rcases hx with rfl | rfl <;>
        simp only [wire_record.fits, wire_record.words, List.mem_cons, List.mem_singleton,
          List.not_mem_nil, or_false, forall_eq_or_imp, forall_eq, VM_READ] <;>
        omega
    have h := parse_policy_serialize A access_ok kmalloc 1
      [.state 0, .section_ 0x1000 0x1000 VM_READ] out (by omega) hf
    obtain ⟨t1, -, -, t4, -, -⟩ := head_copy_lists one_section_policy
    refine ⟨_, h, ?_⟩
    simp [run_records, record_step, init_policy, hk0, hk1, add_section_to_last_state,
      elfbac_validate_policy, validate_states, validate_sections, range_refused,
      validate_data_transitions, validate_call_transitions, hacc, VM_READ, VM_WRITE,
      one_section_policy, elfbac_policy.current, policy_object.fields]
    exact ⟨by simpa [one_section_policy, VM_READ] using t1,
      by simpa [one_section_policy, VM_READ] using t4⟩

/-- Witness of C8 on the 32-bit ARM target: Scenario A with every range
readable and an allocator that does not fail. -/
theorem parse_policy_current_state_witness :
    (0x1000 < ULONG_MOD arm32 ∧ access_ok_all VERIFY_READ 0x1000 0x1000 = true ∧
      kmalloc_ok 0 = true ∧ kmalloc_ok 1 = true) ∧
    ∃ r, elfbac_parse_policy arm32 access_ok_all kmalloc_ok (scenario_A arm32) blank_policy =
        some r ∧
      r.retval = 0 ∧ r.policy = one_section_policy ∧
      r.policy.states_list.length = 1 ∧
      r.policy.states_list.map (fun st => st.sections_list.length) = [1] ∧
      r.out = .head_copy one_section_policy ∧
      r.out.fields.current = r.out.fields.states_list.head? ∧
      r.out.fields.current =
        some { id := 0, stack_id := 0,
               sections_list := [{ base := 0x1000, size := 0x1000, flags := VM_READ }],
               pgd := none } ∧
      r.out.states = none ∧
      (policy_object.intact one_section_policy).states =
        some one_section_policy.states_list :=
  ⟨⟨by decide, by decide, by decide, by decide⟩,
   (parse_policy_current_state arm32 access_ok_all kmalloc_ok blank_policy).2
     (by decide) (by decide) (by decide) (by decide)⟩

/-- C9: when `elfbac_parse_policy` accepts a buffer, the buffer is a header word
followed by records, and for every such reading of the buffer the states that
the call has linked into the state list of its local `policy` are those of the
STATE records in wire order, the one of STATE record number `k` having id `k`
and holding exactly the SECTION records between it and the next STATE record,
in wire order; the data and call transition lists of the local `policy` are
the DATA_TRANSITION and CALL_TRANSITION records in wire order, wherever they
stand among the other records.  The object at `*out` is the structure copy of
that local: its list heads lead to these nodes, in this order. -/
theorem parse_policy_record_placement (A : Arch) (access_ok : Nat → Nat → Nat → Bool)
    (kmalloc : Nat → Bool) (buf : List Byte) (out : policy_object) (r : parse_outcome)
    (h : elfbac_parse_policy A access_ok kmalloc buf out = some r) (h0 : r.retval = 0) :
    well_framed A buf ∧
    (r.policy.states_list.map (fun st => st.id) = List.range r.policy.states_list.length) ∧
    (∀ num_stacks recs, num_stacks < ULONG_MOD A → (∀ x ∈ recs, x.fits A) →
      buf = serialize A num_stacks recs →
      r.policy.states_list = states_of_records 0 recs ∧
      r.policy.data_transitions_list = data_transitions_of_records recs ∧
      r.policy.call_transitions_list = call_transitions_of_records recs) ∧
    r.out = .head_copy r.policy ∧ r.out.fields = r.policy := by
  have key : ∀ num_stacks recs, num_stacks < ULONG_MOD A → (∀ x ∈ recs, x.fits A) →
      buf = serialize A num_stacks recs →
      r.policy.states_list = states_of_records 0 recs ∧
      r.policy.data_transitions_list = data_transitions_of_records recs ∧
      r.policy.call_transitions_list = call_transitions_of_records recs := by
    intro ns recs hn hf hb
    obtain ⟨e, -⟩ := parse_policy_accept_lists A access_ok kmalloc buf out r h h0 ns recs
      hn hf hb
    rw [e]
    exact ⟨rfl, rfl, rfl⟩
  have hout := (parse_policy_out A access_ok kmalloc buf out r h).2 h0
  obtain ⟨ns, recs, v1, h1, h2, h3, -⟩ := parse_policy_accept A access_ok kmalloc buf out r h h0
  refine ⟨⟨ns, recs, h1, h2, h3⟩, ?_, key, hout, ?_⟩
  · rw [(key ns recs h1 h2 h3).1, List.range_eq_range']
    exact states_of_records_ids recs 0
  · rw [hout]
    rfl

/-- Witness of C9 on the 32-bit ARM target: `mixed_records` has a data
transition record in front of the first STATE record and a call transition
record between two SECTION records of the first state. -/
theorem parse_policy_record_placement_witness :
    (elfbac_parse_policy arm32 access_ok_all kmalloc_ok (serialize arm32 2 mixed_records)
        blank_policy = some mixed_outcome ∧
      mixed_outcome.retval = 0) ∧
    (well_framed arm32 (serialize arm32 2 mixed_records) ∧
      (mixed_outcome.policy.states_list.map (fun st => st.id) =
        List.range mixed_outcome.policy.states_list.length) ∧
      (∀ num_stacks recs, num_stacks < ULONG_MOD arm32 → (∀ x ∈ recs, x.fits arm32) →
        serialize arm32 2 mixed_records = serialize arm32 num_stacks recs →
        mixed_outcome.policy.states_list = states_of_records 0 recs ∧
        mixed_outcome.policy.data_transitions_list = data_transitions_of_records recs ∧
        mixed_outcome.policy.call_transitions_list = call_transitions_of_records recs) ∧
      mixed_outcome.out = .head_copy mixed_outcome.policy ∧
      mixed_outcome.out.fields = mixed_outcome.policy) :=
  ⟨⟨by decide, rfl⟩,
   parse_policy_record_placement arm32 access_ok_all kmalloc_ok
     (serialize arm32 2 mixed_records) blank_policy mixed_outcome (by decide) rfl⟩

/-- C10: for every address of the word size, the range `[start, end)` that
`elfbac_copy_mapping` hands to `elfbac_copy_page_range` is the one page that
holds the address: `start` is a multiple of `PAGE_SIZE`, `start <= addr`,
`addr - start < PAGE_SIZE`, and `end` is `start + PAGE_SIZE` in `unsigned
long` arithmetic: the sum itself, except in the last page of the address
space, where the sum is `2 ^ w` and `end` is 0.  The address may be
page-aligned or not. -/
theorem copy_mapping_range_one_page (A : Arch) (addr : Nat) (h : addr < ULONG_MOD A) :
    (elfbac_copy_mapping_range A addr).1 % PAGE_SIZE A = 0 ∧
    (elfbac_copy_mapping_range A addr).1 ≤ addr ∧
    addr - (elfbac_copy_mapping_range A addr).1 < PAGE_SIZE A ∧
    (elfbac_copy_mapping_range A addr).2 =
      ((elfbac_copy_mapping_range A addr).1 + PAGE_SIZE A) % ULONG_MOD A ∧
    (((elfbac_copy_mapping_range A addr).1 + PAGE_SIZE A < ULONG_MOD A ∧
        (elfbac_copy_mapping_range A addr).2 =
          (elfbac_copy_mapping_range A addr).1 + PAGE_SIZE A) ∨
      ((elfbac_copy_mapping_range A addr).1 + PAGE_SIZE A = ULONG_MOD A ∧
        (elfbac_copy_mapping_range A addr).2 = 0)) := by
  obtain ⟨K, hK, hM⟩ := ulong_mod_pages A
  rw [hM] at h
  obtain ⟨h1, h2, h3, h4⟩ := page_range_arith (PAGE_SIZE A) K addr (page_size_pos A) hK h
  have hfst : (elfbac_copy_mapping_range A addr).1 = addr - addr % PAGE_SIZE A := by
    unfold elfbac_copy_mapping_range rounddown
    simp only
    split <;> rfl
  have hsnd : (elfbac_copy_mapping_range A addr).2 =
      (if addr - addr % PAGE_SIZE A =
          (((addr + (PAGE_SIZE A - 1)) % (PAGE_SIZE A * K)) / PAGE_SIZE A * PAGE_SIZE A) %
            (PAGE_SIZE A * K)
        then ((((addr + (PAGE_SIZE A - 1)) % (PAGE_SIZE A * K)) / PAGE_SIZE A * PAGE_SIZE A) %
            (PAGE_SIZE A * K) + PAGE_SIZE A) % (PAGE_SIZE A * K)
        else (((addr + (PAGE_SIZE A - 1)) % (PAGE_SIZE A * K)) / PAGE_SIZE A * PAGE_SIZE A) %
            (PAGE_SIZE A * K)) := by
    unfold elfbac_copy_mapping_range rounddown roundup
    simp only [hM]
    split <;> rfl
  rw [hfst, hsnd, hM]
  refine ⟨h1, h2, h3, h4, ?_⟩
  rw [h4]
  have hle : addr - addr % PAGE_SIZE A + PAGE_SIZE A ≤ PAGE_SIZE A * K := by
    have hdm : PAGE_SIZE A * (addr / PAGE_SIZE A) + addr % PAGE_SIZE A = addr :=
      Nat.div_add_mod addr (PAGE_SIZE A)
    have hq : addr / PAGE_SIZE A < K := by
      rw [Nat.div_lt_iff_lt_mul (page_size_pos A), Nat.mul_comm]
      exact h
    have hqK : PAGE_SIZE A * (addr / PAGE_SIZE A + 1) ≤ PAGE_SIZE A * K :=
      Nat.mul_le_mul_left _ (by omega)
    rw [Nat.mul_succ] at hqK
    omega
  rcases Nat.lt_or_eq_of_le hle with hlt | heq
  · exact Or.inl ⟨hlt, Nat.mod_eq_of_lt hlt⟩
  · exact Or.inr ⟨heq, by rw [heq, Nat.mod_self]⟩

/-- Witness of C10 on the 32-bit ARM target, for an address in the last page
of the address space, where `end` wraps to 0. -/
theorem copy_mapping_range_one_page_witness :
    0xFFFFF123 < ULONG_MOD arm32 ∧
    (elfbac_copy_mapping_range arm32 0xFFFFF123).1 % PAGE_SIZE arm32 = 0 ∧
    (elfbac_copy_mapping_range arm32 0xFFFFF123).1 ≤ 0xFFFFF123 ∧
    0xFFFFF123 - (elfbac_copy_mapping_range arm32 0xFFFFF123).1 < PAGE_SIZE arm32 ∧
    (elfbac_copy_mapping_range arm32 0xFFFFF123).2 =
      ((elfbac_copy_mapping_range arm32 0xFFFFF123).1 + PAGE_SIZE arm32) % ULONG_MOD arm32 ∧
    (((elfbac_copy_mapping_range arm32 0xFFFFF123).1 + PAGE_SIZE arm32 < ULONG_MOD arm32 ∧
        (elfbac_copy_mapping_range arm32 0xFFFFF123).2 =
          (elfbac_copy_mapping_range arm32 0xFFFFF123).1 + PAGE_SIZE arm32) ∨
      ((elfbac_copy_mapping_range arm32 0xFFFFF123).1 + PAGE_SIZE arm32 = ULONG_MOD arm32 ∧
        (elfbac_copy_mapping_range arm32 0xFFFFF123).2 = 0)) :=
  ⟨by decide, copy_mapping_range_one_page arm32 0xFFFFF123 (by decide)⟩

/-- C12: for a canonical leaf entry that is not present and holds the ordinary
swap entry `val`, a call of `elfbac_copy_one_pte` in which `swap_duplicate`
succeeds returns 0, increments the reference count of the swap record `val` by
exactly one and leaves every other swap record alone, installs in the slot of
the state table an entry equal to the canonical one (not present, same swap
record), changes no page reference count and no reverse-mapping registration,
and adds nothing to the array `rss` or to the resident-set counters of the
process. -/
theorem copy_one_pte_swap_entry (E : walk_env) (st : mm_state) (dst_pte : pte_slot)
    (vma : vm_area_struct) (addr : Nat) (rss : rss_vec) (val : Nat)
    (h : E.swap_duplicate_ok st.n_swap_duplicate = true) :
    (elfbac_copy_one_pte E st dst_pte (.not_present (.swap val)) vma addr rss).retval = 0 ∧
    (elfbac_copy_one_pte E st dst_pte (.not_present (.swap val)) vma addr rss).st.swap_count
        val = st.swap_count val + 1 ∧
    (∀ v, v ≠ val →
      (elfbac_copy_one_pte E st dst_pte (.not_present (.swap val)) vma addr rss).st.swap_count
        v = st.swap_count v) ∧
    (elfbac_copy_one_pte E st dst_pte (.not_present (.swap val)) vma addr rss).st.dst_pte
        dst_pte = .not_present (.swap val) ∧
    pte_present
      ((elfbac_copy_one_pte E st dst_pte (.not_present (.swap val)) vma addr rss).st.dst_pte
        dst_pte) = false ∧
    (elfbac_copy_one_pte E st dst_pte (.not_present (.swap val)) vma addr rss).st.page_count =
      st.page_count ∧
    (elfbac_copy_one_pte E st dst_pte (.not_present (.swap val)) vma addr rss).st.page_mapcount =
      st.page_mapcount ∧
    (elfbac_copy_one_pte E st dst_pte (.not_present (.swap val)) vma addr rss).rss = rss ∧
    (elfbac_copy_one_pte E st dst_pte (.not_present (.swap val)) vma addr rss).st.mm_filepages =
      st.mm_filepages ∧
    (elfbac_copy_one_pte E st dst_pte (.not_present (.swap val)) vma addr rss).st.mm_anonpages =
      st.mm_anonpages := by
  have hcall : elfbac_copy_one_pte E st dst_pte (.not_present (.swap val)) vma addr rss =
      { retval := 0,
        st := set_pte_at { st with swap_count := bump st.swap_count val,
                                   n_swap_duplicate := st.n_swap_duplicate + 1 }
          dst_pte (.not_present (.swap val)),
        rss := rss } := by
    simp [elfbac_copy_one_pte, pte_to_swp_entry, non_swap_entry, swap_duplicate, h,
      swp_entry_t.val]
  rw [hcall]
  refine ⟨rfl, ?_, ?_, ?_, ?_, rfl, rfl, rfl, rfl, rfl⟩
  · simp [set_pte_at, bump]
  · intro v hv
    simp [set_pte_at, bump, hv]
  · simp [set_pte_at]
  · simp [set_pte_at, pte_present]

/-- Witness of C12: the swap record 42 of the sample canonical table, copied
into the slot of address 0x6000 of the state table 1. -/
theorem copy_one_pte_swap_entry_witness :
    sample_env.swap_duplicate_ok sample_mm.n_swap_duplicate = true ∧
    (elfbac_copy_one_pte sample_env sample_mm { root := 1, addr := 0x6000 }
      (.not_present (.swap 42)) sample_vma 0x6000 init_rss_vec).retval = 0 ∧
    (elfbac_copy_one_pte sample_env sample_mm { root := 1, addr := 0x6000 }
      (.not_present (.swap 42)) sample_vma 0x6000 init_rss_vec).st.swap_count 42 = 2 :=
  ⟨rfl,
   (copy_one_pte_swap_entry sample_env sample_mm { root := 1, addr := 0x6000 } sample_vma 0x6000
     init_rss_vec 42 rfl).1,
   (copy_one_pte_swap_entry sample_env sample_mm { root := 1, addr := 0x6000 } sample_vma 0x6000
     init_rss_vec 42 rfl).2.1⟩

/-- C13, counterexample: under a probe for which a range is write-accessible
and not read-accessible, the policy `write_section_policy` (one state, one
write-flagged section) satisfies conditions (1) to (7) with the accessibility
decided by the flags alone, and `elfbac_validate_policy` returns `-EINVAL`:
the read probe is made for the write-flagged section as well. -/
theorem validate_policy_rejects_write_only_range :
    spec_policy_valid arm32 access_ok_write_only write_section_policy ∧
    elfbac_validate_policy arm32 access_ok_write_only write_section_policy = -EINVAL ∧
    ¬ (∀ (access_ok : Nat → Nat → Nat → Bool) (p : elfbac_policy),
        spec_policy_valid arm32 access_ok p → elfbac_validate_policy arm32 access_ok p = 0) := by
  refine ⟨by decide, by decide, fun h => ?_⟩
  have := h access_ok_write_only write_section_policy (by decide)
  revert this
  decide

/-- C13, amended: `elfbac_validate_policy` accepts every policy that satisfies
conditions (1) to (7) of section 4.2 where every section and data transition
range is read-accessible and every write-flagged one is write-accessible as
well; hence it accepts every policy that satisfies the conditions with the
accessibility decided by the flags alone whenever the probe finds every
write-accessible range read-accessible too. -/
theorem validate_policy_accepts_valid (A : Arch) (access_ok : Nat → Nat → Nat → Bool)
    (p : elfbac_policy) :
    (probed_policy_valid A access_ok p → elfbac_validate_policy A access_ok p = 0) ∧
    ((∀ b s, access_ok VERIFY_WRITE b s = true → access_ok VERIFY_READ b s = true) →
      spec_policy_valid A access_ok p → elfbac_validate_policy A access_ok p = 0) :=
  ⟨validate_policy_of_probed A access_ok p,
   fun hwr h => validate_policy_of_probed A access_ok p
     (probed_valid_of_spec_valid A access_ok p hwr h)⟩

/-- Witness of C13 (amended) on the 32-bit ARM target: `sample_policy`, which
has a section with flags read and write, under the probe that accepts every
range. -/
theorem validate_policy_accepts_valid_witness :
    (probed_policy_valid arm32 access_ok_all sample_policy ∧
      (∀ b s, access_ok_all VERIFY_WRITE b s = true → access_ok_all VERIFY_READ b s = true) ∧
      spec_policy_valid arm32 access_ok_all sample_policy) ∧
    elfbac_validate_policy arm32 access_ok_all sample_policy = 0 ∧
    elfbac_validate_policy arm32 access_ok_all sample_policy = 0 :=
  ⟨⟨by decide, fun _ _ _ => rfl, by decide⟩,
   (validate_policy_accepts_valid arm32 access_ok_all sample_policy).1 (by decide),
   (validate_policy_accepts_valid arm32 access_ok_all sample_policy).2 (fun _ _ _ => rfl)
     (by decide)⟩

/-- C14: the result of `elfbac_validate_policy` does not depend on `param_size`
and `return_size` of the call transitions: two policies that agree on
everything the claim lists except these two fields get the same return value.
The loop over the call transitions uses the probe only as a read probe of
`sizeof(unsigned long)` bytes at the `address` of each one: two probes that
agree on these queries give the same result of the loop.  And it does make
that probe: the calls of `access_ok` that the loop makes are, in list order,
one read probe of one word at the address of each call transition up to the
one at which the loop returns, of every call transition when the loop runs to
its end; with `from` and `to` in range the loop returns `-EINVAL` exactly when
one of these probes fails, and a policy that is accepted has passed the probe
for each of its call transitions. -/
theorem validate_policy_ignores_call_sizes (A : Arch) (access_ok : Nat → Nat → Nat → Bool)
    (p q : elfbac_policy)
    (h1 : q.num_stacks = p.num_stacks) (h2 : q.states_list = p.states_list)
    (h3 : q.data_transitions_list = p.data_transitions_list)
    (h4 : q.call_transitions_list.map call_transition_checked =
      p.call_transitions_list.map call_transition_checked) :
    elfbac_validate_policy A access_ok q = elfbac_validate_policy A access_ok p ∧
    (∀ (ok2 : Nat → Nat → Nat → Bool) (n : Nat),
      (∀ c ∈ p.call_transitions_list,
        ok2 VERIFY_READ c.address A.sizeof_ulong =
          access_ok VERIFY_READ c.address A.sizeof_ulong) →
      validate_call_transitions A ok2 n p.call_transitions_list =
        validate_call_transitions A access_ok n p.call_transitions_list) ∧
    (∀ n, (validate_call_transitions_probes A access_ok n p.call_transitions_list).1 =
      validate_call_transitions A access_ok n p.call_transitions_list) ∧
    (∀ n, ∃ k, k ≤ p.call_transitions_list.length ∧
      (validate_call_transitions_probes A access_ok n p.call_transitions_list).2 =
        (p.call_transitions_list.take k).map (call_transition_probe A)) ∧
    (∀ n, validate_call_transitions A access_ok n p.call_transitions_list = false →
      (validate_call_transitions_probes A access_ok n p.call_transitions_list).2 =
        p.call_transitions_list.map (call_transition_probe A)) ∧
    (∀ n, (∀ c ∈ p.call_transitions_list, c.from_ ≤ n ∧ c.to_ ≤ n) →
      (validate_call_transitions A access_ok n p.call_transitions_list = true ↔
        ∃ c ∈ p.call_transitions_list,
          access_ok VERIFY_READ c.address A.sizeof_ulong = false)) ∧
    (elfbac_validate_policy A access_ok p = 0 →
      ∀ c ∈ p.call_transitions_list,
        access_ok VERIFY_READ c.address A.sizeof_ulong = true) := by
  refine ⟨?_, ?_, ?_, ?_, ?_, ?_, ?_⟩
  · unfold elfbac_validate_policy
    rw [h1, h2, h3]
    cases validate_states access_ok p.num_stacks p.states_list 0 with
    | none => rfl
    | some n =>
      simp only [validate_call_transitions_checked A access_ok n _ _ h4]
  · intro ok2 n h
    exact validate_call_transitions_probe A ok2 access_ok n _ h
  · intro n
    exact validate_call_transitions_probes_fst A access_ok n _
  · intro n
    exact (validate_call_transitions_probes_snd A access_ok n _).1
  · intro n h
    apply (validate_call_transitions_probes_snd A access_ok n _).2
    rw [validate_call_transitions_probes_fst]
    exact h
  · intro n h
    exact validate_call_transitions_refused A access_ok n _ h
  · exact validate_policy_call_probes A access_ok p

/-- Witness of C14 on the 32-bit ARM target: `sample_policy` and the same policy
with `param_size = 0x100000` and `return_size = 0xFFFF0000` in its call
transition get the same result; the loop makes the one probe, a read of four
bytes at the address 0x1004 of the call transition, and under a probe that
refuses just this request `sample_policy` is rejected. -/
theorem validate_policy_ignores_call_sizes_witness :
    (sample_policy_resized.num_stacks = sample_policy.num_stacks ∧
      sample_policy_resized.states_list = sample_policy.states_list ∧
      sample_policy_resized.data_transitions_list = sample_policy.data_transitions_list ∧
      sample_policy_resized.call_transitions_list.map call_transition_checked =
        sample_policy.call_transitions_list.map call_transition_checked ∧
      sample_policy_resized ≠ sample_policy) ∧
    elfbac_validate_policy arm32 access_ok_all sample_policy_resized =
      elfbac_validate_policy arm32 access_ok_all sample_policy ∧
    (validate_call_transitions_probes arm32 access_ok_all 2
        sample_policy.call_transitions_list).2 =
      [{ type := VERIFY_READ, addr := 0x1004, size := 4 }] ∧
    elfbac_validate_policy arm32 access_ok_all sample_policy = 0 ∧
    elfbac_validate_policy arm32 access_ok_but_entry sample_policy = -EINVAL ∧
    (validate_call_transitions arm32 access_ok_but_entry 2
        sample_policy.call_transitions_list = true ↔
      ∃ c ∈ sample_policy.call_transitions_list,
        access_ok_but_entry VERIFY_READ c.address arm32.sizeof_ulong = false) :=
  ⟨⟨by decide, by decide, by decide, by decide, by decide⟩,
   (validate_policy_ignores_call_sizes arm32 access_ok_all sample_policy sample_policy_resized
     (by decide) (by decide) (by decide) (by decide)).1,
   by decide, by decide, by decide,
   (validate_policy_ignores_call_sizes arm32 access_ok_but_entry sample_policy sample_policy
     rfl rfl rfl rfl).2.2.2.2.2.1 2 (by decide)⟩

/-- C15, counterexample: `elfbac_policy_clone` returns 0 for `orig =
sample_policy` and `new = blank_policy`, and after the call `new` is still
`blank_policy`, which is not a copy of `sample_policy`. -/
theorem policy_clone_leaves_new :
    (elfbac_policy_clone sample_policy blank_policy).1 = 0 ∧
    (elfbac_policy_clone sample_policy blank_policy).2.2 = blank_policy ∧
    ¬ is_clone_of (elfbac_policy_clone sample_policy blank_policy).2.2 sample_policy ∧
    ¬ (∀ orig new_ : elfbac_policy, (elfbac_policy_clone orig new_).1 = 0 →
        is_clone_of (elfbac_policy_clone orig new_).2.2 orig) := by
  refine ⟨rfl, rfl, by decide, fun h => ?_⟩
  have := h sample_policy blank_policy rfl
  revert this
  decide

/-- C15, amended: `elfbac_policy_clone` returns 0 for every `orig` and `new` and
changes neither of them; after the call `new` is a copy of `orig` with empty
page tables exactly when it was one before the call. -/
theorem policy_clone_is_noop (orig new_ : elfbac_policy) :
    (elfbac_policy_clone orig new_).1 = 0 ∧
    (elfbac_policy_clone orig new_).2.1 = orig ∧
    (elfbac_policy_clone orig new_).2.2 = new_ ∧
    (is_clone_of (elfbac_policy_clone orig new_).2.2 orig ↔ is_clone_of new_ orig) :=
  ⟨rfl, rfl, rfl, Iff.rfl⟩

/-- C16, the leak: on every error return of `elfbac_parse_policy` the object
at `*out` is untouched, and every node that `kmalloc` granted during the call
is, at the label `out`, either in one of the lists of the local `policy` or the
one node in no list that a local pointer holds.  The code at `out` calls
`elfbac_policy_destroy`, which releases nothing, and `kfree` on the four local
pointers: the node in no list is released, while every node already linked
into the lists, other than the last state of the state list, is still
allocated when the function returns; they are exactly the linked nodes when
the local `state` does not refer to that last state, and the number of nodes
granted and not released is the number of linked nodes (one less when it
does).  When it does (a SECTION
record has failed), `kfree(state)` releases a node that is still linked.  So
no node stays allocated only if nothing but that last state had been
linked. -/
theorem parse_policy_error_leaks_linked_nodes (A : Arch)
    (access_ok : Nat → Nat → Nat → Bool) (kmalloc : Nat → Bool) (buf : List Byte)
    (out : policy_object) (r : parse_outcome)
    (h : elfbac_parse_policy A access_ok kmalloc buf out = some r) (hne : r.retval ≠ 0) :
    r.out = out ∧
    allocated_count kmalloc r = (held_nodes r).length ∧
    live_count kmalloc r + (if r.locals.state = .last_state then 1 else 0) =
      (linked_nodes r.policy).length ∧
    elfbac_policy_destroy r.policy = [] ∧
    node_ref.unlinked ∉ live_nodes r ∧
    (∀ n ∈ linked_nodes r.policy, n ≠ .state (r.policy.states_list.length - 1) →
      n ∈ live_nodes r) ∧
    (r.locals.state ≠ .last_state → live_nodes r = linked_nodes r.policy) ∧
    (r.locals.state = .last_state →
      node_ref.state (r.policy.states_list.length - 1) ∈ linked_nodes r.policy ∧
      node_ref.state (r.policy.states_list.length - 1) ∈ released_nodes r) ∧
    (live_nodes r = [] →
      ∀ n ∈ linked_nodes r.policy, n = .state (r.policy.states_list.length - 1)) := by
  obtain ⟨hs, hd, hc, hlast, -⟩ := parse_policy_locals A access_ok kmalloc buf out r h
  have hlive : ∀ n ∈ linked_nodes r.policy,
      n ≠ .state (r.policy.states_list.length - 1) → n ∈ live_nodes r :=
    fun n hn hl => linked_node_live r n hs hd hc hn (fun _ => hl)
  refine ⟨(parse_policy_out A access_ok kmalloc buf out r h).1 hne,
    parse_policy_conserves A access_ok kmalloc buf out r h,
    live_count_eq A access_ok kmalloc buf out r h, rfl, unlinked_not_live r, hlive,
    fun h1 => live_nodes_eq_linked r h1 hs hd hc, fun h1 => ?_, fun h1 n hn => ?_⟩
  · refine ⟨last_state_linked r.policy (hlast h1), ?_⟩
    simp [released_nodes, h1, kfree]
  · by_contra hx
    have := hlive n hn hx
    rw [h1] at this
    exact absurd this (List.not_mem_nil n)

/-- Witness of C16 on the 32-bit ARM target.  The buffer holding one complete
STATE record and then the unknown tag 9 is rejected with `-EINVAL`: one request
was made and granted, the code at `out` releases nothing, and the linked state
is still allocated at the return.  With a second STATE tag without payload in
place of the unknown tag, two requests are granted, the second node is in no
list and is released, and the linked first state is again still allocated. -/
theorem parse_policy_error_leaks_linked_nodes_witness :
    (∃ r, elfbac_parse_policy arm32 access_ok_all kmalloc_ok state_then_bad_tag blank_policy =
        some r ∧ r.retval = -EINVAL ∧ r.nalloc = 1 ∧ allocated_count kmalloc_ok r = 1 ∧
      held_nodes r = [.state 0] ∧ released_nodes r = [] ∧ live_nodes r = [.state 0] ∧
      r.out = blank_policy ∧ allocated_count kmalloc_ok r = (held_nodes r).length ∧
      live_count kmalloc_ok r = 1) ∧
    (∃ r, elfbac_parse_policy arm32 access_ok_all kmalloc_ok state_then_cut_state
        blank_policy = some r ∧ r.retval = -EINVAL ∧ r.nalloc = 2 ∧
      allocated_count kmalloc_ok r = 2 ∧ held_nodes r = [.state 0, .unlinked] ∧
      released_nodes r = [.unlinked] ∧ live_nodes r = [.state 0] ∧
      allocated_count kmalloc_ok r = (held_nodes r).length ∧
      live_count kmalloc_ok r = 1) := by
  have h1 : ∃ r, elfbac_parse_policy arm32 access_ok_all kmalloc_ok state_then_bad_tag
      blank_policy = some r ∧ r.retval = -EINVAL ∧ r.nalloc = 1 ∧
      allocated_count kmalloc_ok r = 1 ∧ held_nodes r = [.state 0] ∧ released_nodes r = [] ∧
      live_nodes r = [.state 0] := by
    decide
  have h2 : ∃ r, elfbac_parse_policy arm32 access_ok_all kmalloc_ok state_then_cut_state
      blank_policy = some r ∧ r.retval = -EINVAL ∧ r.nalloc = 2 ∧
      allocated_count kmalloc_ok r = 2 ∧ held_nodes r = [.state 0, .unlinked] ∧
      released_nodes r = [.unlinked] ∧ live_nodes r = [.state 0] := by
    decide
  obtain ⟨r1, a1, a2, a3, a4, a5, a6, a7⟩ := h1
  obtain ⟨r2, b1, b2, b3, b4, b5, b6, b7⟩ := h2
  have t1 := parse_policy_error_leaks_linked_nodes arm32 access_ok_all kmalloc_ok
    state_then_bad_tag blank_policy r1 a1 (by rw [a2]; exact neg_EINVAL_ne_zero)
  have t2 := parse_policy_error_leaks_linked_nodes arm32 access_ok_all kmalloc_ok
    state_then_cut_state blank_policy r2 b1 (by rw [b2]; exact neg_EINVAL_ne_zero)
  have l1 : live_count kmalloc_ok r1 = 1 := by
    unfold live_count
    rw [a4, a6]
    rfl
  have l2 : live_count kmalloc_ok r2 = 1 := by
    unfold live_count
    rw [b4, b6]
    rfl
  exact ⟨⟨r1, a1, a2, a3, a4, a5, a6, a7, t1.1, t1.2.1, l1⟩,
    ⟨r2, b1, b2, b3, b4, b5, b6, b7, t2.2.1, l2⟩⟩

/-- C17: `elfbac_access_ok` returns `true` and stores NULL to `*next_state` for
every policy, address and access mask, and the policy, with its
`current_state`, is after the call what it was before. -/
theorem access_ok_always_allows (p : elfbac_policy) (address mask : Nat) :
    (elfbac_access_ok p address mask).1 = true ∧
    (elfbac_access_ok p address mask).2 = none ∧
    (elfbac_access_ok_policy p address mask).current_state = p.current_state ∧
    elfbac_access_ok_policy p address mask = p :=
  ⟨rfl, rfl, rfl, rfl⟩

/-- C18: `elfbac_parse_policy` returns on every buffer.  `parse_ulong` either
fails, which it does exactly when less than one word remains and which leaves
cursor and size as they are, or yields the first word and a cursor advanced by
exactly one word.  One iteration of the record loop either leaves the function
(`goto out`) or goes on with a cursor that is shorter by at least the tag
word; so the loop ends within as many iterations as the buffer has bytes. -/
theorem parse_policy_terminates (A : Arch) :
    (∀ buf : List Byte,
      (parse_ulong A buf = none ∧ buf.length < A.sizeof_ulong) ∨
      (∃ v rest, parse_ulong A buf = some (v, rest) ∧ rest = buf.drop A.sizeof_ulong ∧
        rest.length + A.sizeof_ulong = buf.length)) ∧
    (∀ (kmalloc : Nat → Bool) (buf : List Byte) (v : parse_vars),
      (∃ rv v1 l, parse_record A kmalloc buf v = .goto_out rv v1 l) ∨
      (∃ rest v1, parse_record A kmalloc buf v = .next rest v1 ∧
        rest.length + A.sizeof_ulong ≤ buf.length ∧ rest.length < buf.length)) ∧
    (∀ (kmalloc : Nat → Bool) (fuel : Nat) (buf : List Byte) (v : parse_vars),
      buf.length ≤ fuel → ∃ e, parse_loop A kmalloc fuel buf v = some e) ∧
    (∀ (access_ok : Nat → Nat → Nat → Bool) (kmalloc : Nat → Bool) (buf : List Byte)
        (out : policy_object),
      ∃ r, elfbac_parse_policy A access_ok kmalloc buf out = some r) := by
  refine ⟨?_, ?_, ?_, ?_⟩
  · intro buf
    cases h : parse_ulong A buf with
    | none => exact Or.inl ⟨rfl, (parse_ulong_none A buf).mp h⟩
    | some x =>
      obtain ⟨v, rest⟩ := x
      refine Or.inr ⟨v, rest, rfl, ?_, (parse_ulong_some A buf rest v h).2.2⟩
      unfold parse_ulong at h
      split at h
      · simp only [Option.some.injEq, Prod.mk.injEq] at h
        exact h.2.symm
      · exact absurd h (by simp)
  · intro kmalloc buf v
    cases h : parse_record A kmalloc buf v with
    | goto_out rv v1 l => exact Or.inl ⟨rv, v1, l, rfl⟩
    | next rest v1 =>
      refine Or.inr ⟨rest, v1, rfl, ?_, parse_record_next_length A kmalloc buf rest v v1 h⟩
      obtain ⟨r, -, hb⟩ := parse_record_next A kmalloc buf rest v v1 h
      have hw := words_length_pos r
      have hl := encode_words_length A r.words
      rw [hb, List.length_append, hl]
      have : 1 * A.sizeof_ulong ≤ r.words.length * A.sizeof_ulong :=
        Nat.mul_le_mul_right _ hw
      omega
  · intro kmalloc fuel buf v h
    exact parse_loop_returns A kmalloc fuel buf v h
  · intro access_ok kmalloc buf out
    exact parse_policy_returns A access_ok kmalloc buf out

/-- Witness of C18 on the 32-bit ARM target: the record loop on a five-byte
buffer returns within five iterations, and so does the call. -/
theorem parse_policy_terminates_witness :
    ([(1 : Byte), 0, 0, 0, 1].length ≤ 5 ∧
      ∃ e, parse_loop arm32 kmalloc_ok 5 [1, 0, 0, 0, 1]
        { policy := blank_policy, cur_state_id := 0, nalloc := 0 } = some e) ∧
    ∃ r, elfbac_parse_policy arm32 access_ok_all kmalloc_ok [1, 0, 0, 0, 1] blank_policy =
      some r :=
  ⟨⟨by decide,
    (parse_policy_terminates arm32).2.2.1 kmalloc_ok 5 [1, 0, 0, 0, 1]
      { policy := blank_policy, cur_state_id := 0, nalloc := 0 } (by decide)⟩,
   (parse_policy_terminates arm32).2.2.2 access_ok_all kmalloc_ok [1, 0, 0, 0, 1] blank_policy⟩

/-- C19, evaluated at a failing input.  When the computed `start` is below
`vma->vm_start` or the computed `end` is above `vma->vm_end`, the call returns
`-EINVAL` and the state at the return is the state at the call: this is the
test that the code has.  But for an address in the last page of the address
space the computed `end` has wrapped to 0 and is above no `vm_end`.  On the
32-bit ARM target, with the memory area `[0x1000, 0x2000)` and the address
0xFFFFF123, the computed range is `(0xFFFFF000, 0)`; the page lies above the
area, the test does not fire, and the call returns 0 after it has allocated
three table levels, installed the entry of page 0xFFFFF000 in the state
table, and raised the reference count, the reverse-mapping count and the
resident-set counter of page 7. -/
theorem copy_mapping_area_test_wraps :
    (∀ (E : walk_env) (A : Arch) (n : Nat) (st : mm_state) (policy : elfbac_policy)
        (s : elfbac_state) (vma : vm_area_struct) (addr : Nat),
      policy.current = some s →
      ((elfbac_copy_mapping_range A addr).1 < vma.vm_start ∨
        vma.vm_end < (elfbac_copy_mapping_range A addr).2) →
      elfbac_copy_mapping E A n st policy vma addr = .returned (-EINVAL) st) ∧
    elfbac_copy_mapping_range arm32 0xFFFFF123 = (0xFFFFF000, 0) ∧
    low_vma.vm_end ≤ 0xFFFFF000 ∧
    ¬ ((elfbac_copy_mapping_range arm32 0xFFFFF123).1 < low_vma.vm_start ∨
      low_vma.vm_end < (elfbac_copy_mapping_range arm32 0xFFFFF123).2) ∧
    (elfbac_copy_mapping high_env arm32 1 sample_mm rooted_policy low_vma 0xFFFFF123).ret =
      some 0 ∧
    ((elfbac_copy_mapping high_env arm32 1 sample_mm rooted_policy low_vma 0xFFFFF123).st.map
      (fun st => st.dst_pte { root := 1, addr := 0xFFFFF000 })) = some (.present 7) ∧
    sample_mm.dst_pte { root := 1, addr := 0xFFFFF000 } = .not_present (.swap 0) ∧
    ((elfbac_copy_mapping high_env arm32 1 sample_mm rooted_policy low_vma 0xFFFFF123).st.map
      (fun st => st.page_count 7)) = some 2 ∧
    sample_mm.page_count 7 = 1 ∧
    ((elfbac_copy_mapping high_env arm32 1 sample_mm rooted_policy low_vma 0xFFFFF123).st.map
      (fun st => st.page_mapcount 7)) = some 2 ∧
    ((elfbac_copy_mapping high_env arm32 1 sample_mm rooted_policy low_vma 0xFFFFF123).st.map
      (fun st => st.mm_anonpages)) = some 2 ∧
    ((elfbac_copy_mapping high_env arm32 1 sample_mm rooted_policy low_vma 0xFFFFF123).st.map
      (fun st => st.dst_tables.length)) = some 3 := by
  refine ⟨?_, by decide, by decide, by decide, by decide, by decide, by decide, by decide,
    by decide, by decide, by decide, by decide⟩
  intro E A n st policy s vma addr hc h
  unfold elfbac_copy_mapping
  rw [hc]
  simp only
  unfold elfbac_copy_page_range
  rw [if_pos h]

/-- Witness of C19 on the 32-bit ARM target: the test does fire for the
address 0x9123, whose page lies above the sample memory area
`[0x4000, 0x8000)` without any wrapping. -/
theorem copy_mapping_area_test_wraps_witness :
    ((elfbac_copy_mapping_range arm32 0x9123).1 < sample_vma.vm_start ∨
      sample_vma.vm_end < (elfbac_copy_mapping_range arm32 0x9123).2) ∧
    elfbac_copy_mapping sample_env arm32 1 sample_mm rooted_policy sample_vma 0x9123 =
      .returned (-EINVAL) sample_mm :=
  ⟨by decide,
   copy_mapping_area_test_wraps.1 sample_env arm32 1 sample_mm rooted_policy
     { id := 0, stack_id := 0, sections_list := [], pgd := some 1 } sample_vma 0x9123 rfl
     (by decide)⟩

end Elfbac
